import Mathlib

/-!
Shallow embedding of the NYC Delivery Route Optimizer TSP engine
(`src/algorithms/tsp.ts`): geometry primitives, the five solvers
(Held-Karp exact DP, Nearest Neighbor, 2-Opt, Christofides, grid A*),
the dispatcher `solveTSP` and `compareAlgorithms`.

Modelling conventions:
* JS floating-point numbers are idealized as exact reals (the spec states
  route lengths/distances in exact-real terms).  Consequently definitions
  branching on real comparisons are `noncomputable`.
* `performance.now()` timing is modelled as `timeMs = 0` (wall-clock time
  is outside the shallow embedding; the spec only constrains its sign).
* `while` loops are modelled with an explicit fuel parameter; for each
  loop we supply fuel that provably suffices (the JS loops terminate for
  the same combinatorial reasons), so the embedding computes the same
  result as the source.
* JS `Map`/`Set` lookups are modelled with `Option`/`Finset`/association
  functions; a missing entry (JS `undefined`/`Infinity`) is `none`.
-/

open scoped Classical

/-- `Point` from the source: identity, planar coordinates, display name. -/
structure Point where
  id : String
  x : ℝ
  y : ℝ
  name : String

/-- `RouteResult` from the source. -/
structure RouteResult where
  path : List Point
  distance : ℝ
  timeMs : ℝ
  algorithm : String

/-- Placeholder point used for (provably unreachable) out-of-range indexing. -/
noncomputable def defaultPoint : Point := { id := "", x := 0, y := 0, name := "" }

/-- `points[i]` — array indexing on the input list. -/
noncomputable def pt (points : List Point) (i : ℕ) : Point :=
  points.getD i defaultPoint

/-- `distance(p1, p2)`: Euclidean distance between two points. -/
noncomputable def distance (p1 p2 : Point) : ℝ :=
  Real.sqrt ((p1.x - p2.x) ^ 2 + (p1.y - p2.y) ^ 2)

/-- `calculateRouteDistance(path)`: total of consecutive pairwise distances. -/
noncomputable def calculateRouteDistance : List Point → ℝ
  | [] => 0
  | [_] => 0
  | p :: q :: rest => distance p q + calculateRouteDistance (q :: rest)

/-- One step of the JS "scan for the strict minimum value" pattern:
`if (v < minDist) { minDist = v; best = i; }`. -/
noncomputable def minStep {ι : Type} (acc : Option (ι × ℝ)) (c : ι × ℝ) : Option (ι × ℝ) :=
  match acc with
  | none => some c
  | some m => if c.2 < m.2 then some c else some m

/-- The JS "scan for the strict minimum value" pattern over a candidate
list, starting from `Infinity`: returns the first entry attaining the
minimum, `none` iff the list is empty. -/
noncomputable def foldMin {ι : Type} (l : List (ι × ℝ)) : Option (ι × ℝ) :=
  l.foldl minStep none

/-- `__builtin_popcount(n)` from the source (count of set bits via
`count += n & 1; n >>= 1`). -/
def __builtin_popcount : ℕ → ℕ
  | 0 => 0
  | n + 1 => (n + 1) % 2 + __builtin_popcount ((n + 1) / 2)
decreasing_by exact Nat.div_lt_self (Nat.succ_pos n) (by norm_num)

/-! ## Nearest Neighbor (solveTSPNearestNeighbor) -/

/-- Candidates of the inner `for` scan of Nearest Neighbor: unvisited
indices with their distance from the current point, in index order. -/
noncomputable def nnCandidates (points : List Point) (visited : Finset ℕ) (current : ℕ) :
    List (ℕ × ℝ) :=
  (List.range points.length).filterMap fun i =>
    if i ∈ visited then none
    else some (i, distance (pt points current) (pt points i))

/-- The `while (visited.size < n)` loop of Nearest Neighbor.  State:
visited set, the index order of pushed points, current index, accumulated
distance.  The `none` branch of the scan is unreachable (an unvisited
index below `n` always exists while the loop guard holds). -/
noncomputable def nnLoop (points : List Point) :
    ℕ → Finset ℕ → List ℕ → ℕ → ℝ → List ℕ × ℕ × ℝ
  | 0, _, pathIdx, current, total => (pathIdx, current, total)
  | fuel + 1, visited, pathIdx, current, total =>
    if visited.card < points.length then
      match foldMin (nnCandidates points visited current) with
      | some c =>
          nnLoop points fuel (insert c.1 visited) (pathIdx ++ [c.1]) c.1 (total + c.2)
      | none => (pathIdx, current, total)
    else (pathIdx, current, total)

/-- `solveTSPNearestNeighbor(points)`. -/
noncomputable def solveTSPNearestNeighbor (points : List Point) : RouteResult :=
  if points.length ≤ 1 then
    { path := points, distance := 0, timeMs := 0, algorithm := "Nearest Neighbor" }
  else
    let s := nnLoop points points.length {0} [0] 0 0
    { path := s.1.map (pt points) ++ [pt points 0],
      distance := s.2.2 + distance (pt points s.2.1) (pt points 0),
      timeMs := 0,
      algorithm := "Nearest Neighbor (Greedy)" }

/-! ## 2-Opt (solveTSP2Opt) -/

/-- The in-place segment reversal (`while (left < right) swap`) between
positions `a` and `b` inclusive. -/
def reverseSegment (l : List Point) (a b : ℕ) : List Point :=
  l.take a ++ ((l.drop a).take (b + 1 - a)).reverse ++ l.drop (b + 1)

/-- Inner `for j` loop of 2-Opt.  `fuel` bounds the number of iterations
(`path.length` suffices since reversals preserve length). -/
noncomputable def twoOptInner : ℕ → ℕ → ℕ → List Point → Bool → List Point × Bool
  | 0, _, _, path, improved => (path, improved)
  | fuel + 1, i, j, path, improved =>
    if j < path.length then
      let a := path.getD i defaultPoint
      let b := path.getD (i + 1) defaultPoint
      let c := path.getD j defaultPoint
      let d := if j + 1 < path.length then path.getD (j + 1) defaultPoint
               else path.getD 0 defaultPoint
      if distance a c + distance b d < distance a b + distance c d - 0.0001 then
        twoOptInner fuel i (j + 1) (reverseSegment path (i + 1) j) true
      else
        twoOptInner fuel i (j + 1) path improved
    else (path, improved)

/-- Outer `for i` loop of one 2-Opt pass. -/
noncomputable def twoOptOuter : ℕ → ℕ → List Point → Bool → List Point × Bool
  | 0, _, path, improved => (path, improved)
  | fuel + 1, i, path, improved =>
    if i + 1 < path.length then
      let r := twoOptInner path.length i (i + 2) path improved
      twoOptOuter fuel (i + 1) r.1 r.2
    else (path, improved)

/-- The `while (improved && iterations < maxIterations)` loop:
runs full passes, stopping early when a pass makes no improvement.
Called with fuel `1000` (= `maxIterations`). -/
noncomputable def twoOptLoop : ℕ → List Point → List Point
  | 0, path => path
  | fuel + 1, path =>
    let r := twoOptOuter path.length 0 path false
    if r.2 then twoOptLoop fuel r.1 else r.1

/-- `solveTSP2Opt(points)`. -/
noncomputable def solveTSP2Opt (points : List Point) : RouteResult :=
  if points.length ≤ 2 then
    { path := points, distance := calculateRouteDistance points, timeMs := 0,
      algorithm := "2-Opt" }
  else
    let nnResult := solveTSPNearestNeighbor points
    let path1 := twoOptLoop 1000 nnResult.path.dropLast
    let finalPath := path1 ++ [path1.getD 0 defaultPoint]
    { path := finalPath, distance := calculateRouteDistance finalPath, timeMs := 0,
      algorithm := "2-Opt Local Search" }

/-! ## Exact DP / Held-Karp (solveTSPExactDP) -/

/-- Removing a set bit by xor decreases the mask (termination of the DP
recursion on submasks). -/
theorem xor_shiftLeft_lt {m e : ℕ} (h : m.testBit e = true) : m ^^^ (1 <<< e) < m := by
  have h1 : (1 : ℕ) <<< e = 2 ^ e := by
    simp [Nat.shiftLeft_eq]
  rw [h1]
  apply Nat.lt_of_testBit e
  · simp [Nat.testBit_xor, h, Nat.testBit_two_pow_self]
  · exact h
  · intro j hj
    simp [Nat.testBit_xor, Nat.testBit_two_pow_of_ne (Nat.ne_of_lt hj)]

/-- The Held-Karp tables `dp`/`parent` fused into a single map
`(mask, end) ↦ (parent, cost)`.  An entry exists for `(mask, end)` exactly
when the JS maps hold one: either the size-2 base case
`dp[1|1<<end, end] = distance(points[0], points[end])` with parent `0`,
or the subset-size ≥ 3 transition taking the first strict minimum over
predecessors `prev ∈ mask \ {0, end}` with an existing sub-entry. -/
noncomputable def dpParent (points : List Point) (mask e : ℕ) : Option (ℕ × ℝ) :=
  let n := points.length
  if h : mask < 2 ^ n ∧ e < n ∧ e ≠ 0 ∧ mask.testBit 0 = true ∧ mask.testBit e = true then
    if __builtin_popcount mask = 2 then
      some (0, distance (pt points 0) (pt points e))
    else if 3 ≤ __builtin_popcount mask then
      foldMin ((List.range n).filterMap fun prev =>
        if prev = 0 then none
        else if (mask ^^^ (1 <<< e)).testBit prev then
          (dpParent points (mask ^^^ (1 <<< e)) prev).map fun pr =>
            (prev, pr.2 + distance (pt points prev) (pt points e))
        else none)
    else none
  else none
termination_by mask
decreasing_by exact xor_shiftLeft_lt h.2.2.2.2

/-- The final `minTour`/`lastNode` scan over `dp[fullMask, i] + distance(i, 0)`. -/
noncomputable def dpFinal (points : List Point) : Option (ℕ × ℝ) :=
  foldMin ((List.range points.length).filterMap fun i =>
    if i = 0 then none
    else (dpParent points (2 ^ points.length - 1) i).map fun pr =>
      (i, pr.2 + distance (pt points i) (pt points 0)))

/-- The path-reconstruction `while (curr !== 0)` loop: the list of indices
pushed (in push order).  A missing parent entry breaks the loop after the
push, as in the source. -/
noncomputable def dpReconstruct (points : List Point) : ℕ → ℕ → ℕ → List ℕ
  | 0, _, _ => []
  | fuel + 1, mask, curr =>
    if curr = 0 then []
    else
      curr ::
        match dpParent points mask curr with
        | none => []
        | some pr => dpReconstruct points fuel (mask ^^^ (1 <<< curr)) pr.1

/-- `solveTSPExactDP(points)`.  The `dpFinal = none` branch is unreachable
for `2 ≤ n` (lemma `dpFinal_isSome`); in the source it would produce an
`Infinity` distance and an out-of-range access. -/
noncomputable def solveTSPExactDP (points : List Point) : RouteResult :=
  if points.length ≤ 1 then
    { path := points, distance := 0, timeMs := 0, algorithm := "Exact DP (Held-Karp)" }
  else
    match dpFinal points with
    | none =>
      { path := [pt points 0, pt points 0], distance := 0, timeMs := 0,
        algorithm := "Exact DP (Held-Karp)" }
    | some lt =>
      let pushed :=
        (dpReconstruct points points.length (2 ^ points.length - 1) lt.1).map (pt points)
      { path := ((pt points 0 :: pushed) ++ [pt points 0]).reverse,
        distance := lt.2, timeMs := 0, algorithm := "Exact DP (Held-Karp)" }

/-! ## Christofides (solveTSPChristofides) -/

/-- Candidate scan of Prim's vertex selection (`!inMST[i] && key[i] < minKey`). -/
noncomputable def primSelect (inMST : Finset ℕ) (key : ℕ → Option ℝ) (n : ℕ) :
    Option (ℕ × ℝ) :=
  foldMin ((List.range n).filterMap fun i =>
    if i ∈ inMST then none else (key i).map fun k => (i, k))

/-- Key/parent relaxation over all `v ∉ inMST` after inserting `u`
(`if (dist < key[v]) { key[v] = dist; parent[v] = u; }`; `key v = none`
stands for `Infinity`). -/
noncomputable def primUpdate (points : List Point) (u : ℕ) (inMST : Finset ℕ)
    (key : ℕ → Option ℝ) (parent : ℕ → Option ℕ) : (ℕ → Option ℝ) × (ℕ → Option ℕ) :=
  let better : ℕ → Prop := fun v =>
    v < points.length ∧ v ∉ inMST ∧
      ∀ k ∈ key v, distance (pt points u) (pt points v) < k
  (fun v => if better v then some (distance (pt points u) (pt points v)) else key v,
   fun v => if better v then some u else parent v)

/-- The `for (count = 0; count < n; count++)` loop of Prim's algorithm,
returning the final parent table (with the `u === -1` break as the `none`
branch). -/
noncomputable def primLoop (points : List Point) :
    ℕ → Finset ℕ → (ℕ → Option ℝ) → (ℕ → Option ℕ) → (ℕ → Option ℕ)
  | 0, _, _, parent => parent
  | fuel + 1, inMST, key, parent =>
    match primSelect inMST key points.length with
    | none => parent
    | some u =>
      let inMST2 := insert u.1 inMST
      let kp := primUpdate points u.1 inMST2 key parent
      primLoop points fuel inMST2 kp.1 kp.2

/-- `primMST(points)`: edge list `(parent[i], i)` for `i = 1..n-1` with a
set parent. -/
noncomputable def primMST (points : List Point) : List (ℕ × ℕ) :=
  let n := points.length
  let parent := primLoop points n ∅ (fun v => if v = 0 then some 0 else none) fun _ => none
  ((List.range n).drop 1).filterMap fun i => (parent i).map fun p => (p, i)

/-- MST degree of vertex `i` (`degrees[u]++; degrees[v]++` per edge). -/
def degreeIn (mst : List (ℕ × ℕ)) (i : ℕ) : ℕ :=
  (mst.map Prod.fst).count i + (mst.map Prod.snd).count i

/-- The odd-degree vertex extraction inside `solveTSPChristofides`. -/
noncomputable def oddVerticesOf (points : List Point) : List ℕ :=
  (List.range points.length).filter fun i => degreeIn (primMST points) i % 2 = 1

/-- All index pairs `i < j` of a list in scan order (the double loop of the
greedy matching). -/
def allPairs : List ℕ → List (ℕ × ℕ)
  | [] => []
  | x :: xs => xs.map (fun y => (x, y)) ++ allPairs xs

/-- The `while (available.size > 1)` loop of the greedy matching: pick the
closest remaining pair, append it, delete both endpoints.  JS `Set`
iteration order is insertion order, modelled by the list `avail`. -/
noncomputable def matchingLoop (points : List Point) :
    ℕ → List ℕ → List (ℕ × ℕ) → List (ℕ × ℕ)
  | 0, _, acc => acc
  | fuel + 1, avail, acc =>
    if 1 < avail.length then
      match foldMin ((allPairs avail).map fun pr =>
          (pr, distance (pt points pr.1) (pt points pr.2))) with
      | some c => matchingLoop points fuel ((avail.erase c.1.1).erase c.1.2) (acc ++ [c.1])
      | none => acc
    else acc

/-- `minimumWeightPerfectMatching(points, vertices)`. -/
noncomputable def minimumWeightPerfectMatching (points : List Point) (vertices : List ℕ) :
    List (ℕ × ℕ) :=
  matchingLoop points vertices.length vertices []

/-- One edge insertion of the adjacency construction (`adj.get(u).push(v);
adj.get(v).push(u)`). -/
def buildAdjStep (adj : ℕ → List ℕ) (e : ℕ × ℕ) : ℕ → List ℕ :=
  let adj2 := Function.update adj e.1 (adj e.1 ++ [e.2])
  Function.update adj2 e.2 (adj2 e.2 ++ [e.1])

/-- Adjacency-list construction of `findEulerianTour` over the edge list. -/
def buildAdj (edges : List (ℕ × ℕ)) : ℕ → List ℕ :=
  edges.foldl buildAdjStep fun _ => []

/-- Hierholzer's stack traversal: while the stack top has an unused edge,
consume it (`neighbors.pop()` takes the last entry; the reverse entry is
removed by `indexOf`/`splice` = erase of the first occurrence) and push the
far endpoint; otherwise pop onto the accumulator.  The accumulator is
prepended, which realizes the final `tour.reverse()` of the source. -/
def hierholzerLoop : (ℕ → List ℕ) → List ℕ → List ℕ → ℕ → List ℕ
  | _, _, acc, 0 => acc
  | _, [], acc, _ + 1 => acc
  | adj, curr :: rest, acc, fuel + 1 =>
    match (adj curr).getLast? with
    | some nxt =>
      let adj2 := Function.update adj curr (adj curr).dropLast
      let adj3 := Function.update adj2 nxt ((adj2 nxt).erase curr)
      hierholzerLoop adj3 (nxt :: curr :: rest) acc fuel
    | none => hierholzerLoop adj rest (curr :: acc) fuel

/-- `findEulerianTour(edges, n)`.  The fuel `4 * |edges| + 2` provably
suffices for the loop to drain its stack (lemma `hierholzer_completes`). -/
def findEulerianTour (edges : List (ℕ × ℕ)) : List ℕ :=
  hierholzerLoop (buildAdj edges) [0] [] (4 * edges.length + 2)

/-- The shortcutting step: keep the first occurrence of each vertex of the
Eulerian tour. -/
def shortcutTour (visited : Finset ℕ) : List ℕ → List ℕ
  | [] => []
  | v :: rest =>
    if v ∈ visited then shortcutTour visited rest
    else v :: shortcutTour (insert v visited) rest

/-- `solveTSPChristofides(points)`. -/
noncomputable def solveTSPChristofides (points : List Point) : RouteResult :=
  let n := points.length
  if n ≤ 2 then
    { path := points, distance := calculateRouteDistance points, timeMs := 0,
      algorithm := "Christofides" }
  else
    let mst := primMST points
    let oddVertices := (List.range n).filter fun i => degreeIn mst i % 2 = 1
    let matching := minimumWeightPerfectMatching points oddVertices
    let multigraph := mst ++ matching
    let eulerianTour := findEulerianTour multigraph
    let pathIdx := shortcutTour ∅ eulerianTour
    let path := pathIdx.map (pt points) ++ [pt points (eulerianTour.headD 0)]
    { path := path, distance := calculateRouteDistance path, timeMs := 0,
      algorithm := "Christofides (1.5-approx)" }

/-! ## A* pathfinding (aStarPathfinding) -/

/-- `AStarNode`: grid node with cost-from-start `g`, heuristic `h`,
total `f`, and parent pointer for path reconstruction. -/
inductive AStarNode where
  | mk (point : Point) (g : ℝ) (h : ℝ) (f : ℝ) (parent : Option AStarNode)

/-- Field accessor: grid point of a node. -/
def AStarNode.point : AStarNode → Point
  | mk p _ _ _ _ => p

/-- Field accessor: accumulated cost from the start. -/
def AStarNode.g : AStarNode → ℝ
  | mk _ g _ _ _ => g

/-- Field accessor: total score `f = g + h`. -/
def AStarNode.f : AStarNode → ℝ
  | mk _ _ _ f _ => f

/-- Path reconstruction by walking parent pointers (`path.unshift`
produces the start-first order). -/
def reconstructPath : AStarNode → List Point
  | .mk p _ _ _ none => [p]
  | .mk p _ _ _ (some par) => reconstructPath par ++ [p]

/-- Stable insertion into a list sorted by ascending `f`. -/
noncomputable def insertByF (x : AStarNode) : List AStarNode → List AStarNode
  | [] => [x]
  | y :: ys => if x.f ≤ y.f then x :: y :: ys else y :: insertByF x ys

/-- `openSet.sort((a, b) => a.f - b.f)`: JS `Array.prototype.sort` is
stable, and a stable sort by one key is unique, so insertion sort models
it exactly. -/
noncomputable def sortByF : List AStarNode → List AStarNode
  | [] => []
  | x :: xs => insertByF x (sortByF xs)

/-- The eight movement directions, in source order. -/
def directions : List (ℤ × ℤ) :=
  [(-1, -1), (-1, 0), (-1, 1), (0, -1), (0, 1), (1, -1), (1, 0), (1, 1)]

/-- Neighbor generation: step size 2, bounds- and obstacle-filtered.
The source gives neighbors the id `` `${newX},${newY}` ``; a real-valued
coordinate has no canonical string form, and no computation reads the id,
so the embedding uses `""`. -/
noncomputable def aStarNeighbors (current : AStarNode) (goal : Point)
    (obstacleKeys : List (ℤ × ℤ)) (gridSize : ℝ) : List AStarNode :=
  directions.filterMap fun d =>
    let newX := current.point.x + (d.1 : ℝ) * 2
    let newY := current.point.y + (d.2 : ℝ) * 2
    if newX < 0 ∨ newX > gridSize ∨ newY < 0 ∨ newY > gridSize then none
    else if (round newX, round newY) ∈ obstacleKeys then none
    else
      let neighborPoint : Point := { id := "", x := newX, y := newY, name := "" }
      let gScore := current.g + distance current.point neighborPoint
      some (AStarNode.mk neighborPoint gScore (distance neighborPoint goal)
        (gScore + distance neighborPoint goal) (some current))

/-- The `while (openSet.length > 0)` loop of A*.  An exhausted open set
returns the two-point direct fallback (independently of remaining fuel);
`none` is the out-of-fuel artifact of the embedding. -/
noncomputable def aStarLoop (goal : Point) (obstacleKeys : List (ℤ × ℤ)) (gridSize : ℝ)
    (startPt : Point) : ℕ → List AStarNode → List (ℝ × ℝ) → Option RouteResult
  | _, [], _ =>
    some { path := [startPt, goal], distance := distance startPt goal, timeMs := 0,
           algorithm := "A* Pathfinding (Direct)" }
  | 0, _ :: _, _ => none
  | fuel + 1, o1 :: o2, closedSet =>
    match sortByF (o1 :: o2) with
    | [] => none
    | current :: rest =>
      if (current.point.x, current.point.y) ∈ closedSet then
        aStarLoop goal obstacleKeys gridSize startPt fuel rest closedSet
      else
        if distance current.point goal < 1 then
          some { path := reconstructPath current, distance := current.g, timeMs := 0,
                 algorithm := "A* Pathfinding" }
        else
          aStarLoop goal obstacleKeys gridSize startPt fuel
            (rest ++ aStarNeighbors current goal obstacleKeys gridSize)
            ((current.point.x, current.point.y) :: closedSet)

/-- `aStarPathfinding(start, goal, obstacles = [], gridSize = 100)`. -/
noncomputable def aStarPathfinding (fuel : ℕ) (start goal : Point)
    (obstacles : List Point) (gridSize : ℝ) : Option RouteResult :=
  let startNode := AStarNode.mk start 0 (distance start goal) (distance start goal) none
  let obstacleKeys := obstacles.map fun o => (round o.x, round o.y)
  aStarLoop goal obstacleKeys gridSize start fuel [startNode] []

/-! ## Dispatcher (solveTSP, compareAlgorithms) -/

/-- `AlgorithmType`: the five selector values. -/
inductive AlgorithmType where
  | exactDp
  | nearestNeighbor
  | twoOpt
  | christofides
  | astar
deriving DecidableEq, BEq

/-- The pairwise-stitching loop of the `astar` dispatcher arm:
`fullPath.push(...result.path.slice(1)); totalDist += result.distance`. -/
noncomputable def astarSegments (fuel : ℕ) :
    List (Point × Point) → List Point → ℝ → Option (List Point × ℝ)
  | [], fullPath, totalDist => some (fullPath, totalDist)
  | ab :: rest, fullPath, totalDist =>
    match aStarPathfinding fuel ab.1 ab.2 [] 100 with
    | none => none
    | some r => astarSegments fuel rest (fullPath ++ r.path.drop 1) (totalDist + r.distance)

/-- `solveTSP(points, algorithm)`.  `fuel` bounds the A* searches of the
`astar` arm (the other arms ignore it and always return `some`). -/
noncomputable def solveTSP (points : List Point) (algorithm : AlgorithmType) (fuel : ℕ) :
    Option RouteResult :=
  match algorithm with
  | .exactDp =>
    if points.length ≤ 20 then some (solveTSPExactDP points)
    else some { solveTSPNearestNeighbor points with
                algorithm := "Nearest Neighbor (DP limit exceeded)" }
  | .nearestNeighbor => some (solveTSPNearestNeighbor points)
  | .twoOpt => some (solveTSP2Opt points)
  | .christofides => some (solveTSPChristofides points)
  | .astar =>
    if points.length < 2 then
      some { path := points, distance := 0, timeMs := 0, algorithm := "A* Pathfinding" }
    else
      match astarSegments fuel (points.zip points.tail) (points.take 1) 0 with
      | none => none
      | some fp =>
        match aStarPathfinding fuel (fp.1.getLastD defaultPoint) (pt points 0) [] 100 with
        | none => none
        | some r =>
          some { path := fp.1 ++ r.path.drop 1, distance := fp.2 + r.distance,
                 timeMs := 0, algorithm := "A* Pathfinding (Multi-point)" }

/-- `compareAlgorithms(points)`: run the four TSP selectors (`astar` is not
among them), dropping `exact-dp` when `n > 20`. -/
noncomputable def compareAlgorithms (points : List Point) (fuel : ℕ) :
    List (Option RouteResult) :=
  let algorithms : List AlgorithmType :=
    [.exactDp, .nearestNeighbor, .twoOpt, .christofides]
  let toRun := if points.length ≤ 20 then algorithms
               else algorithms.filter fun a => a != AlgorithmType.exactDp
  toRun.map fun a => solveTSP points a fuel

/-! ## Basic lemmas: foldMin, distance, calculateRouteDistance -/

theorem foldMin_from_some {ι : Type} (l : List (ι × ℝ)) (m : ι × ℝ) :
    ∃ c, l.foldl minStep (some m) = some c ∧ (c = m ∨ c ∈ l) ∧ c.2 ≤ m.2 ∧
      ∀ x ∈ l, c.2 ≤ x.2 := by
  induction l generalizing m with
  | nil => exact ⟨m, rfl, Or.inl rfl, le_refl _, by simp⟩
  | cons a l ih =>
    by_cases hlt : a.2 < m.2
    · obtain ⟨c, hc, hmem, hle, hall⟩ := ih a
      refine ⟨c, ?_, ?_, ?_, ?_⟩
      · simpa [minStep, hlt] using hc
      · rcases hmem with h | h
        · exact Or.inr (by simp [h])
        · exact Or.inr (by simp [h])
      · exact le_trans hle (le_of_lt hlt)
      · intro x hx
        rcases List.mem_cons.mp hx with rfl | hx
        · exact hle
        · exact hall x hx
    · obtain ⟨c, hc, hmem, hle, hall⟩ := ih m
      refine ⟨c, ?_, ?_, hle, ?_⟩
      · simpa [minStep, hlt] using hc
      · rcases hmem with h | h
        · exact Or.inl h
        · exact Or.inr (by simp [h])
      · intro x hx
        rcases List.mem_cons.mp hx with rfl | hx
        · exact le_trans hle (not_lt.mp hlt)
        · exact hall x hx

theorem foldMin_spec {ι : Type} {l : List (ι × ℝ)} {c : ι × ℝ} (h : foldMin l = some c) :
    c ∈ l ∧ ∀ x ∈ l, c.2 ≤ x.2 := by
  match l with
  | [] => simp [foldMin] at h
  | a :: l =>
    have h2 : (a :: l).foldl minStep none = l.foldl minStep (some a) := by
      simp [minStep]
    obtain ⟨d, hd, hmem, hle, hall⟩ := foldMin_from_some l a
    rw [foldMin, h2, hd] at h
    cases h
    constructor
    · rcases hmem with h | h
      · simp [h]
      · simp [h]
    · intro x hx
      rcases List.mem_cons.mp hx with rfl | hx
      · exact hle
      · exact hall x hx

theorem foldMin_isSome {ι : Type} {l : List (ι × ℝ)} (h : l ≠ []) :
    ∃ c, foldMin l = some c := by
  match l with
  | [] => exact absurd rfl h
  | a :: l =>
    have h2 : (a :: l).foldl minStep none = l.foldl minStep (some a) := by
      simp [minStep]
    obtain ⟨d, hd, _⟩ := foldMin_from_some l a
    exact ⟨d, by rw [foldMin, h2, hd]⟩

theorem distance_nonneg (p q : Point) : 0 ≤ distance p q :=
  Real.sqrt_nonneg _

theorem distance_symm (p q : Point) : distance p q = distance q p := by
  unfold distance
  ring_nf

theorem distance_self (p : Point) : distance p p = 0 := by
  simp [distance]

theorem calculateRouteDistance_nonneg (l : List Point) : 0 ≤ calculateRouteDistance l := by
  match l with
  | [] => simp [calculateRouteDistance]
  | [_] => simp [calculateRouteDistance]
  | p :: q :: rest =>
    have := calculateRouteDistance_nonneg (q :: rest)
    have h2 := distance_nonneg p q
    rw [calculateRouteDistance]
    linarith

theorem calculateRouteDistance_short {l : List Point} (h : l.length ≤ 1) :
    calculateRouteDistance l = 0 := by
  match l with
  | [] => rfl
  | [_] => rfl
  | _ :: _ :: _ => simp at h

theorem calculateRouteDistance_cons_cons (p q : Point) (l : List Point) :
    calculateRouteDistance (p :: q :: l) = distance p q + calculateRouteDistance (q :: l) :=
  rfl

theorem calculateRouteDistance_append (X : List Point) (y : Point) (Y : List Point)
    (hX : X ≠ []) :
    calculateRouteDistance (X ++ y :: Y) =
      calculateRouteDistance X + distance (X.getLast hX) y + calculateRouteDistance (y :: Y) := by
  match X with
  | [a] =>
    simp [calculateRouteDistance]
  | a :: b :: X =>
    have ih := calculateRouteDistance_append (b :: X) y Y (by simp)
    simp only [List.cons_append, calculateRouteDistance_cons_cons] at *
    rw [ih]
    have : (a :: b :: X).getLast hX = (b :: X).getLast (by simp) := by
      simp [List.getLast]
    rw [this]
    ring

/-! ## Claim C6: A* open-set-exhaustion fallback -/

/-- C6.  If the A* open set is exhausted without reaching the goal, the
search loop returns the direct two-point path `[start, goal]` whose
`distance` is the straight-line Euclidean distance between start and
goal (and it does so for every obstacle set, grid size, closed set and
remaining fuel), rather than failing. -/
theorem aStarLoop_exhausted_fallback (start goal : Point) (obstacleKeys : List (ℤ × ℤ))
    (gridSize : ℝ) (fuel : ℕ) (closedSet : List (ℝ × ℝ)) :
    aStarLoop goal obstacleKeys gridSize start fuel [] closedSet =
      some { path := [start, goal], distance := distance start goal, timeMs := 0,
             algorithm := "A* Pathfinding (Direct)" } := by
  cases fuel <;> rfl

/-! ## Claim C7: degenerate inputs -/

/-- C7.  For every algorithm selector, `solveTSP` on an input of 0 or 1
points returns (rather than failing) a trivial `RouteResult` whose path
is the input itself and whose distance is 0. -/
theorem solveTSP_degenerate (points : List Point) (alg : AlgorithmType) (fuel : ℕ)
    (h : points.length ≤ 1) :
    ∃ r, solveTSP points alg fuel = some r ∧ r.path = points ∧ r.distance = 0 := by
  have h20 : points.length ≤ 20 := le_trans h (by norm_num)
  have h2 : points.length ≤ 2 := le_trans h (by norm_num)
  have hlt : points.length < 2 := lt_of_le_of_lt h (by norm_num)
  cases alg with
  | exactDp =>
    refine ⟨{ path := points, distance := 0, timeMs := 0,
              algorithm := "Exact DP (Held-Karp)" }, ?_, rfl, rfl⟩
    simp [solveTSP, h20, solveTSPExactDP, h]
  | nearestNeighbor =>
    refine ⟨{ path := points, distance := 0, timeMs := 0,
              algorithm := "Nearest Neighbor" }, ?_, rfl, rfl⟩
    simp [solveTSP, solveTSPNearestNeighbor, h]
  | twoOpt =>
    refine ⟨{ path := points, distance := calculateRouteDistance points, timeMs := 0,
              algorithm := "2-Opt" }, ?_, rfl, calculateRouteDistance_short h⟩
    simp [solveTSP, solveTSP2Opt, h2]
  | christofides =>
    refine ⟨{ path := points, distance := calculateRouteDistance points, timeMs := 0,
              algorithm := "Christofides" }, ?_, rfl, calculateRouteDistance_short h⟩
    simp [solveTSP, solveTSPChristofides, h2]
  | astar =>
    refine ⟨{ path := points, distance := 0, timeMs := 0,
              algorithm := "A* Pathfinding" }, ?_, rfl, rfl⟩
    simp [solveTSP, hlt]

/-- Witness for C7 at the concrete degenerate input `[]` with the
`exact-dp` selector. -/
theorem solveTSP_degenerate_witness :
    ∃ r, solveTSP [] AlgorithmType.exactDp 0 = some r ∧ r.path = [] ∧ r.distance = 0 :=
  solveTSP_degenerate [] AlgorithmType.exactDp 0 (by simp)

/-! ## Claim C4: DP size-limit substitution -/

/-- C4.  For more than 20 points, the dispatcher substitutes the
Nearest-Neighbor result for `exact-dp`, relabelled
`"Nearest Neighbor (DP limit exceeded)"` (which differs from the Exact DP
label); for at most 20 points it invokes the exact DP solver. -/
theorem solveTSP_dp_size_limit (points : List Point) (fuel : ℕ) :
    (20 < points.length →
      solveTSP points AlgorithmType.exactDp fuel =
        some { solveTSPNearestNeighbor points with
               algorithm := "Nearest Neighbor (DP limit exceeded)" } ∧
      "Nearest Neighbor (DP limit exceeded)" ≠ "Exact DP (Held-Karp)") ∧
    (points.length ≤ 20 →
      solveTSP points AlgorithmType.exactDp fuel = some (solveTSPExactDP points)) := by
  constructor
  · intro h
    constructor
    · simp [solveTSP, Nat.not_le.mpr h]
    · decide
  · intro h
    simp [solveTSP, h]

/-- Witness for C4: a concrete 21-point request is substituted and
relabelled; a concrete 1-point request reaches the exact DP solver. -/
theorem solveTSP_dp_size_limit_witness :
    (solveTSP (List.replicate 21 defaultPoint) AlgorithmType.exactDp 0 =
      some { solveTSPNearestNeighbor (List.replicate 21 defaultPoint) with
             algorithm := "Nearest Neighbor (DP limit exceeded)" } ∧
      "Nearest Neighbor (DP limit exceeded)" ≠ "Exact DP (Held-Karp)") ∧
    solveTSP [defaultPoint] AlgorithmType.exactDp 0 =
      some (solveTSPExactDP [defaultPoint]) := by
  constructor
  · exact (solveTSP_dp_size_limit (List.replicate 21 defaultPoint) 0).1 (by simp)
  · exact (solveTSP_dp_size_limit [defaultPoint] 0).2 (by simp)

/-! ## Claim C5: compare-all coverage -/

/-- C5 (amended).  `compareAlgorithms` maps `solveTSP` over exactly the
four TSP selectors — `exact-dp`, `nearest-neighbor`, `2-opt`,
`christofides` — in that fixed order with no ranking applied, omitting
`exact-dp` when the point count exceeds 20; the `astar` selector is not
part of the comparison. -/
theorem compareAlgorithms_coverage (points : List Point) (fuel : ℕ) :
    compareAlgorithms points fuel =
      (if points.length ≤ 20 then
        [AlgorithmType.exactDp, AlgorithmType.nearestNeighbor,
         AlgorithmType.twoOpt, AlgorithmType.christofides]
       else [AlgorithmType.nearestNeighbor, AlgorithmType.twoOpt,
             AlgorithmType.christofides]).map (fun a => solveTSP points a fuel) := by
  by_cases h : points.length ≤ 20 <;>
    simp only [compareAlgorithms, h, if_true, if_false] <;> rfl

/-- C5 counterexample.  On a 0-point input every selector is eligible in
the claim's sense (the DP size limit does not bite), yet
`compareAlgorithms` produces only four results — one per TSP selector —
and the `astar` selector's result is not among them, so the claimed
"one result per eligible solver of the five selectors" fails. -/
theorem compareAlgorithms_missing_astar :
    (compareAlgorithms [] 0).length = 4 ∧
    solveTSP [] AlgorithmType.astar 0 =
      some { path := [], distance := 0, timeMs := 0, algorithm := "A* Pathfinding" } ∧
    ∀ r ∈ compareAlgorithms [] 0, r ≠ solveTSP [] AlgorithmType.astar 0 := by
  refine ⟨?_, ?_, ?_⟩
  · simp [compareAlgorithms]
  · simp [solveTSP]
  · intro r hr
    have hc : compareAlgorithms [] 0 =
        [some { path := [], distance := 0, timeMs := 0, algorithm := "Exact DP (Held-Karp)" },
         some { path := [], distance := 0, timeMs := 0, algorithm := "Nearest Neighbor" },
         some { path := [], distance := 0, timeMs := 0, algorithm := "2-Opt" },
         some { path := [], distance := 0, timeMs := 0, algorithm := "Christofides" }] := by
      simp [compareAlgorithms, solveTSP, solveTSPExactDP, solveTSPNearestNeighbor,
        solveTSP2Opt, solveTSPChristofides, calculateRouteDistance]
    have ha : solveTSP [] AlgorithmType.astar 0 =
        some { path := [], distance := 0, timeMs := 0, algorithm := "A* Pathfinding" } := by
      simp [solveTSP]
    rw [hc, List.mem_cons, List.mem_cons, List.mem_cons, List.mem_singleton] at hr
    rw [ha]
    rcases hr with rfl | rfl | rfl | rfl <;>
      · intro hcontra
        injection hcontra with h2
        exact absurd (congrArg RouteResult.algorithm h2) (by decide)

/-! ## Claim C9: odd-degree vertices of the MST -/

theorem primSelect_mem {inMST : Finset ℕ} {key : ℕ → Option ℝ} {n : ℕ} {u : ℕ × ℝ}
    (h : primSelect inMST key n = some u) :
    u.1 < n ∧ u.1 ∉ inMST ∧ key u.1 = some u.2 := by
  obtain ⟨hmem, -⟩ := foldMin_spec h
  obtain ⟨i, hi, hfi⟩ := List.mem_filterMap.mp hmem
  by_cases hin : i ∈ inMST
  · simp [hin] at hfi
  · simp only [hin, if_false, Option.map_eq_some'] at hfi
    obtain ⟨k, hk, rfl⟩ := hfi
    exact ⟨List.mem_range.mp hi, hin, hk⟩

theorem primLoop_parent_bound (points : List Point) (fuel : ℕ) :
    ∀ inMST key parent,
      (∀ v u, parent v = some u → u < points.length) →
      ∀ v u, primLoop points fuel inMST key parent v = some u → u < points.length := by
  induction fuel with
  | zero => intro inMST key parent hp v u h; exact hp v u h
  | succ fuel ih =>
    intro inMST key parent hp v u h
    rw [primLoop] at h
    cases hsel : primSelect inMST key points.length with
    | none => rw [hsel] at h; exact hp v u h
    | some w =>
      rw [hsel] at h
      refine ih _ _ _ ?_ v u h
      intro v2 u2 h2
      simp only [primUpdate] at h2
      split at h2
      · cases h2; exact (primSelect_mem hsel).1
      · exact hp v2 u2 h2

theorem primMST_endpoint_bound (points : List Point) :
    ∀ e ∈ primMST points, e.1 < points.length ∧ e.2 < points.length := by
  intro e he
  unfold primMST at he
  obtain ⟨i, hi, hfi⟩ := List.mem_filterMap.mp he
  simp only [Option.map_eq_some'] at hfi
  obtain ⟨p, hp, rfl⟩ := hfi
  refine ⟨primLoop_parent_bound points points.length _ _ _ (by simp) i p hp, ?_⟩
  exact List.mem_range.mp (List.mem_of_mem_drop hi)

theorem sum_count_eq_length {l : List ℕ} {n : ℕ} (h : ∀ x ∈ l, x < n) :
    ∑ i ∈ Finset.range n, l.count i = l.length := by
  induction l with
  | nil => simp
  | cons x l ih =>
    have hx : x ∈ Finset.range n := Finset.mem_range.mpr (h x (by simp))
    have h2 : ∀ y ∈ l, y < n := fun y hy => h y (by simp [hy])
    have hcc : ∀ i, (x :: l).count i = l.count i + if x = i then 1 else 0 := by
      intro i
      simp [List.count_cons]
    simp only [hcc, List.length_cons]
    rw [Finset.sum_add_distrib, ih h2, Finset.sum_ite_eq (Finset.range n) x fun _ => 1]
    simp [hx]

theorem sum_degree_eq (points : List Point) :
    ∑ i ∈ Finset.range points.length, degreeIn (primMST points) i =
      2 * (primMST points).length := by
  have hfst : ∀ x ∈ (primMST points).map Prod.fst, x < points.length := by
    intro x hx
    obtain ⟨e, he, rfl⟩ := List.mem_map.mp hx
    exact (primMST_endpoint_bound points e he).1
  have hsnd : ∀ x ∈ (primMST points).map Prod.snd, x < points.length := by
    intro x hx
    obtain ⟨e, he, rfl⟩ := List.mem_map.mp hx
    exact (primMST_endpoint_bound points e he).2
  unfold degreeIn
  rw [Finset.sum_add_distrib, sum_count_eq_length hfst, sum_count_eq_length hsnd]
  simp
  ring

theorem length_filter_range (n : ℕ) (p : ℕ → Prop) [DecidablePred p] :
    ((List.range n).filter (fun i => decide (p i))).length =
      ∑ i ∈ Finset.range n, if p i then 1 else 0 := by
  induction n with
  | zero => simp
  | succ n ih =>
    rw [List.range_succ, Finset.sum_range_succ, List.filter_append, List.length_append, ih]
    by_cases hp : p n <;> simp [hp]

/-- C9.  The odd-degree vertex list extracted from the Prim MST inside
Christofides always has even length (handshake parity), so the greedy
matching can pair all of them. -/
theorem oddVertices_even_length (points : List Point) :
    Even (oddVerticesOf points).length := by
  rw [Nat.even_iff]
  unfold oddVerticesOf
  have h1 : ((List.range points.length).filter
      (fun i => decide (degreeIn (primMST points) i % 2 = 1))).length =
      ∑ i ∈ Finset.range points.length,
        if degreeIn (primMST points) i % 2 = 1 then 1 else 0 :=
    length_filter_range points.length _
  rw [h1]
  have h2 : ∀ i ∈ Finset.range points.length,
      (if degreeIn (primMST points) i % 2 = 1 then 1 else 0) =
        degreeIn (primMST points) i % 2 := by
    intro i _
    by_cases hp : degreeIn (primMST points) i % 2 = 1
    · simp [hp]
    · simp [hp]
      omega
  rw [Finset.sum_congr rfl h2, ← Finset.sum_nat_mod, sum_degree_eq]
  omega

/-! ## Index tours and the Nearest Neighbor loop invariant -/

/-- Route length of an index tour. -/
noncomputable def costIdx (points : List Point) (l : List ℕ) : ℝ :=
  calculateRouteDistance (l.map (pt points))

theorem getLast_eq_getLastD {α : Type} (l : List α) (h : l ≠ []) (d : α) :
    l.getLast h = l.getLastD d := by
  rw [List.getLastD_eq_getLast?, List.getLast?_eq_getLast l h]
  rfl

theorem costIdx_append_single (points : List Point) (l : List ℕ) (x : ℕ) (h : l ≠ []) :
    costIdx points (l ++ [x]) =
      costIdx points l + distance (pt points (l.getLastD 0)) (pt points x) := by
  unfold costIdx
  rw [List.map_append]
  simp only [List.map_cons, List.map_nil]
  have hmap : l.map (pt points) ≠ [] := by simp [h]
  rw [calculateRouteDistance_append (l.map (pt points)) (pt points x) [] hmap]
  have hlast : (l.map (pt points)).getLast hmap = pt points (l.getLastD 0) := by
    rw [getLast_eq_getLastD _ hmap defaultPoint, List.getLastD_eq_getLast?,
      List.getLastD_eq_getLast?, List.getLast?_map]
    cases hl : l.getLast? with
    | none => simp [List.getLast?_eq_none_iff.mp hl] at h
    | some a => simp
  rw [hlast]
  simp [calculateRouteDistance]

theorem costIdx_nonneg (points : List Point) (l : List ℕ) : 0 ≤ costIdx points l :=
  calculateRouteDistance_nonneg _

theorem map_pt_range (points : List Point) :
    (List.range points.length).map (pt points) = points := by
  apply List.ext_getElem
  · simp
  · intro i h1 h2
    simp only [List.getElem_map, List.getElem_range]
    exact List.getD_eq_getElem points defaultPoint h2

theorem perm_range_of_nodup_toFinset {l : List ℕ} {n : ℕ} (hnd : l.Nodup)
    (hts : l.toFinset = Finset.range n) : l.Perm (List.range n) := by
  refine List.perm_of_nodup_nodup_toFinset_eq hnd (List.nodup_range n) ?_
  rw [hts]
  ext i
  simp

theorem nnCandidates_mem {points : List Point} {visited : Finset ℕ} {current : ℕ}
    {c : ℕ × ℝ} (h : c ∈ nnCandidates points visited current) :
    c.1 < points.length ∧ c.1 ∉ visited ∧
      c.2 = distance (pt points current) (pt points c.1) := by
  obtain ⟨i, hi, hfi⟩ := List.mem_filterMap.mp h
  by_cases hin : i ∈ visited
  · simp [hin] at hfi
  · simp only [hin, if_false, Option.some_inj] at hfi
    cases hfi
    exact ⟨List.mem_range.mp hi, hin, rfl⟩

theorem nnCandidates_nonempty {points : List Point} {visited : Finset ℕ} {current : ℕ}
    (hsub : visited ⊆ Finset.range points.length)
    (hcard : visited.card < points.length) :
    nnCandidates points visited current ≠ [] := by
  obtain ⟨i, hi, hni⟩ : ∃ i ∈ Finset.range points.length, i ∉ visited := by
    by_contra hcon
    push_neg at hcon
    have hsub2 : Finset.range points.length ⊆ visited := fun e he => hcon e he
    have hcard2 := Finset.card_le_card hsub2
    simp only [Finset.card_range] at hcard2
    omega
  intro hemp
  have : (i, distance (pt points current) (pt points i)) ∈ nnCandidates points visited current := by
    refine List.mem_filterMap.mpr ⟨i, ?_, ?_⟩
    · simpa using Finset.mem_range.mp hi
    · simp [hni]
  rw [hemp] at this
  exact absurd this (List.not_mem_nil _)

/-- Invariant of the Nearest Neighbor loop: the pushed index order is a
duplicate-free extension of the input state covering `visited`, `current`
is its last element, and `total` is its route length; with sufficient
fuel the loop exits having visited exactly `{0, …, n-1}`. -/
theorem nnLoop_spec (points : List Point) (fuel : ℕ) :
    ∀ visited pathIdx current total,
      pathIdx ≠ [] →
      pathIdx.Nodup →
      pathIdx.toFinset = visited →
      visited ⊆ Finset.range points.length →
      pathIdx.getLastD 0 = current →
      total = costIdx points pathIdx →
      points.length ≤ visited.card + fuel →
      (nnLoop points fuel visited pathIdx current total).1 ≠ [] ∧
      (nnLoop points fuel visited pathIdx current total).1.Nodup ∧
      (nnLoop points fuel visited pathIdx current total).1.toFinset =
        Finset.range points.length ∧
      (nnLoop points fuel visited pathIdx current total).1.getLastD 0 =
        (nnLoop points fuel visited pathIdx current total).2.1 ∧
      (nnLoop points fuel visited pathIdx current total).2.2 =
        costIdx points (nnLoop points fuel visited pathIdx current total).1 ∧
      ∃ pre, (nnLoop points fuel visited pathIdx current total).1 = pathIdx ++ pre := by
  induction fuel with
  | zero =>
    intro visited pathIdx current total hne hnd hts hsub hlast htot hfuel
    have hvis : visited = Finset.range points.length := by
      apply Finset.eq_of_subset_of_card_le hsub
      simp only [Finset.card_range]
      omega
    rw [nnLoop]
    exact ⟨hne, hnd, by rw [hts, hvis], hlast, htot, [], by simp⟩
  | succ fuel ih =>
    intro visited pathIdx current total hne hnd hts hsub hlast htot hfuel
    rw [nnLoop]
    by_cases hguard : visited.card < points.length
    · rw [if_pos hguard]
      cases hfm : foldMin (nnCandidates points visited current) with
      | none =>
        obtain ⟨c, hc⟩ := foldMin_isSome (nnCandidates_nonempty hsub hguard)
        rw [hfm] at hc
        exact Option.noConfusion hc
      | some c =>
        obtain ⟨hcmem, -⟩ := foldMin_spec hfm
        obtain ⟨hclt, hcnv, hcd⟩ := nnCandidates_mem hcmem
        have hcnp : c.1 ∉ pathIdx := fun hmem =>
          hcnv (hts ▸ List.mem_toFinset.mpr hmem)
        have h1 : pathIdx ++ [c.1] ≠ [] := by simp
        have h2 : (pathIdx ++ [c.1]).Nodup := by
          rw [List.nodup_append]
          exact ⟨hnd, List.nodup_singleton _, by
            intro a ha hb
            simp only [List.mem_singleton] at hb
            exact hcnp (hb ▸ ha)⟩
        have h3 : (pathIdx ++ [c.1]).toFinset = insert c.1 visited := by
          rw [List.toFinset_append, hts]
          simp only [List.toFinset_cons, List.toFinset_nil, insert_emptyc_eq]
          rw [Finset.union_comm]
          exact (Finset.insert_eq c.1 visited).symm
        have h4 : insert c.1 visited ⊆ Finset.range points.length := by
          intro a ha
          rcases Finset.mem_insert.mp ha with rfl | ha
          · exact Finset.mem_range.mpr hclt
          · exact hsub ha
        have h5 : (pathIdx ++ [c.1]).getLastD 0 = c.1 :=
          List.getLastD_concat 0 c.1 pathIdx
        have h6 : total + c.2 = costIdx points (pathIdx ++ [c.1]) := by
          rw [costIdx_append_single points pathIdx c.1 hne, ← htot, hlast, hcd]
        have h7 : points.length ≤ (insert c.1 visited).card + fuel := by
          rw [Finset.card_insert_of_not_mem hcnv]
          omega
        obtain ⟨g1, g2, g3, g4, g5, pre, hpre⟩ :=
          ih (insert c.1 visited) (pathIdx ++ [c.1]) c.1 (total + c.2)
            h1 h2 h3 h4 h5 h6 h7
        exact ⟨g1, g2, g3, g4, g5, [c.1] ++ pre, by rw [hpre, List.append_assoc]⟩
    · rw [if_neg hguard]
      have hvis : visited = Finset.range points.length := by
        apply Finset.eq_of_subset_of_card_le hsub
        simp only [Finset.card_range]
        omega
      exact ⟨hne, hnd, by rw [hts, hvis], hlast, htot, [], by simp⟩

/-- Characterization of the Nearest Neighbor result for `2 ≤ n`: the path
is an index tour `ord ++ [0]` mapped through `points`, where `ord` is a
permutation of `0, …, n-1` starting at `0`, and the reported distance is
that tour's route length. -/
theorem solveTSPNearestNeighbor_spec (points : List Point) (h : 2 ≤ points.length) :
    ∃ ord : List ℕ,
      ord.Perm (List.range points.length) ∧
      ord.headD 0 = 0 ∧
      ord ≠ [] ∧
      (solveTSPNearestNeighbor points).path = ord.map (pt points) ++ [pt points 0] ∧
      (solveTSPNearestNeighbor points).distance = costIdx points (ord ++ [0]) := by
  have hn1 : ¬points.length ≤ 1 := by omega
  have hzero : (0 : ℕ) ∈ Finset.range points.length := Finset.mem_range.mpr (by omega)
  obtain ⟨g1, g2, g3, g4, g5, pre, hpre⟩ :=
    nnLoop_spec points points.length {0} [0] 0 0 (by simp) (by simp) (by simp)
      (by intro a ha; simp at ha; exact ha ▸ hzero) (by simp)
      (by simp [costIdx, calculateRouteDistance]) (by simp)
  refine ⟨(nnLoop points points.length {0} [0] 0 0).1, ?_, ?_, g1, ?_, ?_⟩
  · exact perm_range_of_nodup_toFinset g2 g3
  · rw [hpre]
    simp
  · simp only [solveTSPNearestNeighbor, hn1, if_neg, if_false]
  · simp only [solveTSPNearestNeighbor, hn1, if_neg, if_false]
    rw [g5, ← g4, costIdx_append_single points _ 0 g1]

/-! ## 2-Opt: segment reversal and the edge-exchange identity -/

/-- Closed-tour length of an open path (the tour obtained by returning to
the path's first point), as computed by `calculateRouteDistance` after
`path.push(path[0])`. -/
noncomputable def closedCost (l : List Point) : ℝ :=
  calculateRouteDistance (l ++ [l.headD defaultPoint])

theorem getD_zero_eq_headD {α : Type} (l : List α) (d : α) : l.getD 0 d = l.headD d := by
  cases l <;> rfl

theorem headD_take {α : Type} {l : List α} {k : ℕ} (hk : 1 ≤ k) (d : α) :
    (l.take k).headD d = l.headD d := by
  cases k with
  | zero => omega
  | succ m => cases l <;> rfl

theorem headD_drop {α : Type} {l : List α} {k : ℕ} (hk : k < l.length) (d : α) :
    (l.drop k).headD d = l.getD k d := by
  induction k generalizing l with
  | zero => rw [List.drop_zero, getD_zero_eq_headD]
  | succ m ih =>
    cases l with
    | nil => simp at hk
    | cons a t =>
      rw [List.drop_succ_cons, List.getD_cons_succ]
      exact ih (by simpa using hk)

theorem getLastD_take_succ {α : Type} {l : List α} {k : ℕ} (hk : k < l.length) (d : α) :
    (l.take (k + 1)).getLastD d = l.getD k d := by
  rw [List.take_succ, List.getElem?_eq_getElem hk]
  simp only [Option.toList_some, List.getLastD_concat]
  exact (List.getD_eq_getElem l d hk).symm

theorem getD_drop {α : Type} (l : List α) (m n : ℕ) (d : α) :
    (l.drop m).getD n d = l.getD (m + n) d := by
  simp [List.getElem?_drop]

theorem headD_append_of_ne_nil {α : Type} {X Y : List α} (hX : X ≠ []) (d : α) :
    (X ++ Y).headD d = X.headD d := by
  cases X with
  | nil => exact absurd rfl hX
  | cons a t => rfl

theorem getLastD_append_of_ne_nil {α : Type} {X Y : List α} (hY : Y ≠ []) (d : α) :
    (X ++ Y).getLastD d = Y.getLastD d := by
  rw [List.getLastD_eq_getLast?, List.getLastD_eq_getLast?, List.getLast?_append]
  cases hy : Y.getLast? with
  | none => exact absurd (List.getLast?_eq_none_iff.mp hy) hY
  | some a => rfl

theorem getLastD_reverse {α : Type} (l : List α) (d : α) :
    l.reverse.getLastD d = l.headD d := by
  rw [List.getLastD_eq_getLast?, List.getLast?_reverse]
  cases l <;> rfl

theorem headD_reverse {α : Type} (l : List α) (d : α) :
    l.reverse.headD d = l.getLastD d := by
  rw [← List.reverse_reverse l, List.reverse_reverse (l.reverse)]
  exact (getLastD_reverse l.reverse d).symm

/-- Generic binary form of the route-length splitting identity. -/
theorem calculateRouteDistance_append2 (X Y : List Point) (hX : X ≠ []) (hY : Y ≠ []) :
    calculateRouteDistance (X ++ Y) =
      calculateRouteDistance X +
        distance (X.getLastD defaultPoint) (Y.headD defaultPoint) +
        calculateRouteDistance Y := by
  cases Y with
  | nil => exact absurd rfl hY
  | cons y Y =>
    rw [calculateRouteDistance_append X y Y hX, getLast_eq_getLastD X hX defaultPoint]
    rfl

theorem calculateRouteDistance_reverse (l : List Point) :
    calculateRouteDistance l.reverse = calculateRouteDistance l := by
  match l with
  | [] => rfl
  | [_] => rfl
  | x :: y :: t =>
    have ih := calculateRouteDistance_reverse (y :: t)
    have h1 : (x :: y :: t).reverse = (y :: t).reverse ++ [x] := by simp
    rw [h1, calculateRouteDistance_append2 ((y :: t).reverse) [x] (by simp) (by simp)]
    rw [ih, getLastD_reverse]
    simp only [List.headD_cons, calculateRouteDistance_cons_cons]
    rw [distance_symm]
    simp [calculateRouteDistance]
    ring

theorem reverseSegment_eq (l : List Point) (i j : ℕ) :
    reverseSegment l (i + 1) j =
      l.take (i + 1) ++ ((l.drop (i + 1)).take (j - i)).reverse ++ l.drop (j + 1) := by
  unfold reverseSegment
  have h3 : ∀ m, m = j - i → l.take (i + 1) ++ ((l.drop (i + 1)).take m).reverse ++
      l.drop (j + 1) = l.take (i + 1) ++ ((l.drop (i + 1)).take (j - i)).reverse ++
      l.drop (j + 1) := fun m hm => by rw [hm]
  exact h3 _ (by omega)

theorem segment_decomp (l : List Point) (i j : ℕ) (hij : i ≤ j) :
    l = l.take (i + 1) ++ (l.drop (i + 1)).take (j - i) ++ l.drop (j + 1) := by
  have h2 : (l.drop (i + 1)).drop (j - i) = l.drop (j + 1) := by
    rw [List.drop_drop]
    have h3 : ∀ m, m = j + 1 → List.drop m l = List.drop (j + 1) l := fun m hm => by rw [hm]
    exact h3 _ (by omega)
  rw [List.append_assoc, ← h2, List.take_append_drop, List.take_append_drop]

theorem reverseSegment_perm (l : List Point) (i j : ℕ) (hij : i ≤ j) :
    (reverseSegment l (i + 1) j).Perm l := by
  rw [reverseSegment_eq, List.append_assoc]
  conv_rhs => rw [segment_decomp l i j hij, List.append_assoc]
  exact List.Perm.append_left _ ((List.reverse_perm _).append_right _)

theorem reverseSegment_headD (l : List Point) (i j : ℕ) (hl : 1 ≤ l.length) :
    (reverseSegment l (i + 1) j).headD defaultPoint = l.headD defaultPoint := by
  rw [reverseSegment_eq, List.append_assoc]
  rw [headD_append_of_ne_nil (List.ne_nil_of_length_pos (by rw [List.length_take]; omega))]
  exact headD_take (by omega) _

theorem reverseSegment_length (l : List Point) (i j : ℕ) (hij : i ≤ j) :
    (reverseSegment l (i + 1) j).length = l.length :=
  (reverseSegment_perm l i j hij).length_eq

/-- The 2-opt exchange identity: reversing the segment between positions
`i+1` and `j` replaces edges `(path[i], path[i+1])` and
`(path[j], path[j+1 or 0])` of the closed tour by `(path[i], path[j])` and
`(path[i+1], path[j+1 or 0])`, leaving all other edge lengths unchanged. -/
theorem closedCost_reverseSegment (l : List Point) (i j : ℕ)
    (hi : i + 1 < l.length) (hij : i + 2 ≤ j) (hj : j < l.length) :
    closedCost (reverseSegment l (i + 1) j) +
      (distance (l.getD i defaultPoint) (l.getD (i + 1) defaultPoint) +
        distance (l.getD j defaultPoint)
          (if j + 1 < l.length then l.getD (j + 1) defaultPoint
           else l.getD 0 defaultPoint)) =
    closedCost l +
      (distance (l.getD i defaultPoint) (l.getD j defaultPoint) +
        distance (l.getD (i + 1) defaultPoint)
          (if j + 1 < l.length then l.getD (j + 1) defaultPoint
           else l.getD 0 defaultPoint)) := by
  have hAne : l.take (i + 1) ≠ [] :=
    List.ne_nil_of_length_pos (by rw [List.length_take]; omega)
  have hMlen : ((l.drop (i + 1)).take (j - i)).length = j - i := by
    rw [List.length_take, List.length_drop]
    omega
  have hMne : (l.drop (i + 1)).take (j - i) ≠ [] :=
    List.ne_nil_of_length_pos (by rw [hMlen]; omega)
  have hdec := segment_decomp l i j (by omega)
  have hpa : (l.take (i + 1)).getLastD defaultPoint = l.getD i defaultPoint :=
    getLastD_take_succ (by omega) _
  have hpb : ((l.drop (i + 1)).take (j - i)).headD defaultPoint =
      l.getD (i + 1) defaultPoint := by
    rw [headD_take (by omega), headD_drop (by omega)]
  have hpc : ((l.drop (i + 1)).take (j - i)).getLastD defaultPoint =
      l.getD j defaultPoint := by
    have hM2 : (l.drop (i + 1)).take (j - i) = (l.drop (i + 1)).take ((j - i - 1) + 1) := by
      congr 1
      omega
    rw [hM2, getLastD_take_succ (by rw [List.length_drop]; omega), getD_drop]
    congr 1
    omega
  have hheadA : (l.take (i + 1)).headD defaultPoint = l.headD defaultPoint :=
    headD_take (by omega) _
  unfold closedCost
  rw [reverseSegment_headD l i j (by omega), reverseSegment_eq]
  by_cases hT1 : j + 1 < l.length
  · have hTne : l.drop (j + 1) ≠ [] :=
      List.ne_nil_of_length_pos (by rw [List.length_drop]; omega)
    have hpd : (l.drop (j + 1)).headD defaultPoint = l.getD (j + 1) defaultPoint :=
      headD_drop hT1 _
    have hcl : ∀ M : List Point, M ≠ [] →
        calculateRouteDistance
            (l.take (i + 1) ++ M ++ l.drop (j + 1) ++ [l.headD defaultPoint]) =
          calculateRouteDistance (l.take (i + 1)) +
            distance (l.getD i defaultPoint) (M.headD defaultPoint) +
            (calculateRouteDistance M +
              distance (M.getLastD defaultPoint) (l.getD (j + 1) defaultPoint) +
              calculateRouteDistance (l.drop (j + 1) ++ [l.headD defaultPoint])) := by
      intro M hMne2
      rw [List.append_assoc, List.append_assoc,
        calculateRouteDistance_append2 (l.take (i + 1)) _ hAne (by simp [hMne2]),
        headD_append_of_ne_nil hMne2,
        calculateRouteDistance_append2 M (l.drop (j + 1) ++ [l.headD defaultPoint]) hMne2
          (by simp),
        headD_append_of_ne_nil hTne, hpa, hpd]
    have h1 := hcl ((l.drop (i + 1)).take (j - i)) hMne
    have h2 := hcl ((l.drop (i + 1)).take (j - i)).reverse (by simp [hMne])
    rw [calculateRouteDistance_reverse, headD_reverse, getLastD_reverse, hpb, hpc] at h2
    conv_lhs =>
      rw [h2]
    conv_rhs =>
      rw [show l ++ [l.headD defaultPoint] =
            l.take (i + 1) ++ (l.drop (i + 1)).take (j - i) ++ l.drop (j + 1) ++
              [l.headD defaultPoint] by rw [← hdec]]
      rw [h1]
    rw [hpb, hpc, if_pos hT1]
    ring
  · have hTnil : l.drop (j + 1) = [] := by
      apply List.drop_eq_nil_of_le
      omega
    have hd0 : l.getD 0 defaultPoint = l.headD defaultPoint := getD_zero_eq_headD l _
    have hcl : ∀ M : List Point, M ≠ [] →
        calculateRouteDistance
            (l.take (i + 1) ++ M ++ l.drop (j + 1) ++ [l.headD defaultPoint]) =
          calculateRouteDistance (l.take (i + 1)) +
            distance (l.getD i defaultPoint) (M.headD defaultPoint) +
            (calculateRouteDistance M +
              distance (M.getLastD defaultPoint) (l.headD defaultPoint)) := by
      intro M hMne2
      rw [hTnil, List.append_nil, List.append_assoc,
        calculateRouteDistance_append2 (l.take (i + 1)) _ hAne (by simp [hMne2]),
        headD_append_of_ne_nil hMne2,
        calculateRouteDistance_append2 M [l.headD defaultPoint] hMne2 (by simp), hpa]
      simp [calculateRouteDistance]
    have h1 := hcl ((l.drop (i + 1)).take (j - i)) hMne
    have h2 := hcl ((l.drop (i + 1)).take (j - i)).reverse (by simp [hMne])
    rw [calculateRouteDistance_reverse, headD_reverse, getLastD_reverse, hpb, hpc] at h2
    conv_lhs =>
      rw [h2]
    conv_rhs =>
      rw [show l ++ [l.headD defaultPoint] =
            l.take (i + 1) ++ (l.drop (i + 1)).take (j - i) ++ l.drop (j + 1) ++
              [l.headD defaultPoint] by rw [← hdec]]
      rw [h1]
    rw [hpb, hpc, if_neg hT1, hd0]
    ring

theorem twoOptInner_spec (fuel : ℕ) :
    ∀ (i j : ℕ) (path : List Point) (improved : Bool),
      3 ≤ path.length → i + 1 < path.length → i + 2 ≤ j →
      closedCost (twoOptInner fuel i j path improved).1 ≤ closedCost path ∧
      (twoOptInner fuel i j path improved).1.Perm path ∧
      (twoOptInner fuel i j path improved).1.headD defaultPoint =
        path.headD defaultPoint := by
  induction fuel with
  | zero =>
    intro i j path improved hlen hi hij
    exact ⟨le_refl _, List.Perm.refl _, rfl⟩
  | succ fuel ih =>
    intro i j path improved hlen hi hij
    rw [twoOptInner]
    by_cases hj : j < path.length
    · rw [if_pos hj]
      dsimp only
      by_cases hswap :
          distance (path.getD i defaultPoint) (path.getD j defaultPoint) +
            distance (path.getD (i + 1) defaultPoint)
              (if j + 1 < path.length then path.getD (j + 1) defaultPoint
               else path.getD 0 defaultPoint) <
          distance (path.getD i defaultPoint) (path.getD (i + 1) defaultPoint) +
            distance (path.getD j defaultPoint)
              (if j + 1 < path.length then path.getD (j + 1) defaultPoint
               else path.getD 0 defaultPoint) - 0.0001
      · rw [if_pos hswap]
        have hex := closedCost_reverseSegment path i j hi hij hj
        have hdrop : closedCost (reverseSegment path (i + 1) j) ≤ closedCost path := by
          linarith
        have hperm := reverseSegment_perm path i j (by omega)
        have hhead := reverseSegment_headD path i j (by omega)
        have hlen2 : (reverseSegment path (i + 1) j).length = path.length :=
          hperm.length_eq
        obtain ⟨g1, g2, g3⟩ := ih i (j + 1) (reverseSegment path (i + 1) j) true
          (by omega) (by omega) (by omega)
        exact ⟨le_trans g1 hdrop, g2.trans hperm, g3.trans hhead⟩
      · rw [if_neg hswap]
        exact ih i (j + 1) path improved hlen hi (by omega)
    · rw [if_neg hj]
      exact ⟨le_refl _, List.Perm.refl _, rfl⟩

theorem twoOptOuter_spec (fuel : ℕ) :
    ∀ (i : ℕ) (path : List Point) (improved : Bool),
      3 ≤ path.length →
      closedCost (twoOptOuter fuel i path improved).1 ≤ closedCost path ∧
      (twoOptOuter fuel i path improved).1.Perm path ∧
      (twoOptOuter fuel i path improved).1.headD defaultPoint =
        path.headD defaultPoint := by
  induction fuel with
  | zero =>
    intro i path improved hlen
    exact ⟨le_refl _, List.Perm.refl _, rfl⟩
  | succ fuel ih =>
    intro i path improved hlen
    rw [twoOptOuter]
    by_cases hi : i + 1 < path.length
    · rw [if_pos hi]
      obtain ⟨g1, g2, g3⟩ := twoOptInner_spec path.length i (i + 2) path improved
        hlen hi (le_refl _)
      obtain ⟨k1, k2, k3⟩ := ih (i + 1)
        (twoOptInner path.length i (i + 2) path improved).1
        (twoOptInner path.length i (i + 2) path improved).2
        (by rw [g2.length_eq]; exact hlen)
      exact ⟨le_trans k1 g1, k2.trans g2, k3.trans g3⟩
    · rw [if_neg hi]
      exact ⟨le_refl _, List.Perm.refl _, rfl⟩

theorem twoOptLoop_spec (fuel : ℕ) :
    ∀ path : List Point,
      3 ≤ path.length →
      closedCost (twoOptLoop fuel path) ≤ closedCost path ∧
      (twoOptLoop fuel path).Perm path ∧
      (twoOptLoop fuel path).headD defaultPoint = path.headD defaultPoint := by
  induction fuel with
  | zero =>
    intro path hlen
    exact ⟨le_refl _, List.Perm.refl _, rfl⟩
  | succ fuel ih =>
    intro path hlen
    rw [twoOptLoop]
    obtain ⟨g1, g2, g3⟩ := twoOptOuter_spec path.length 0 path false hlen
    by_cases himp : (twoOptOuter path.length 0 path false).2 = true
    · rw [if_pos himp]
      obtain ⟨k1, k2, k3⟩ := ih (twoOptOuter path.length 0 path false).1
        (by rw [g2.length_eq]; exact hlen)
      exact ⟨le_trans k1 g1, k2.trans g2, k3.trans g3⟩
    · rw [if_neg himp]
      exact ⟨g1, g2, g3⟩

/-- Characterization of the 2-Opt result for `3 ≤ n`: the path is a closed
tour over a permutation of the input starting at `points[0]`, its distance
is that tour's closed cost, and it does not exceed the Nearest Neighbor
distance. -/
theorem solveTSP2Opt_spec (points : List Point) (h : 3 ≤ points.length) :
    ∃ tour : List Point,
      tour.Perm points ∧
      tour.headD defaultPoint = pt points 0 ∧
      tour ≠ [] ∧
      (solveTSP2Opt points).path = tour ++ [pt points 0] ∧
      (solveTSP2Opt points).distance = closedCost tour ∧
      (solveTSP2Opt points).distance ≤ (solveTSPNearestNeighbor points).distance := by
  have hn2 : ¬points.length ≤ 2 := by omega
  obtain ⟨ord, hperm, hhead, hne, hpath, hdist⟩ :=
    solveTSPNearestNeighbor_spec points (by omega)
  have hordlen : ord.length = points.length := by
    rw [hperm.length_eq, List.length_range]
  have hdl : (solveTSPNearestNeighbor points).path.dropLast = ord.map (pt points) := by
    rw [hpath, List.dropLast_concat]
  have hmaphead : (ord.map (pt points)).headD defaultPoint = pt points 0 := by
    cases ord with
    | nil => exact absurd rfl hne
    | cons a t =>
      simp only [List.headD_cons] at hhead ⊢
      rw [List.map_cons, List.headD_cons, hhead]
  have hlen0 : 3 ≤ (ord.map (pt points)).length := by
    rw [List.length_map, hordlen]
    exact h
  obtain ⟨g1, g2, g3⟩ := twoOptLoop_spec 1000 (ord.map (pt points)) hlen0
  have hclosed0 : closedCost (ord.map (pt points)) =
      (solveTSPNearestNeighbor points).distance := by
    rw [closedCost, hmaphead, hdist, costIdx, List.map_append]
    rfl
  refine ⟨twoOptLoop 1000 (ord.map (pt points)), ?_, ?_, ?_, ?_, ?_, ?_⟩
  · refine g2.trans ?_
    have := hperm.map (pt points)
    rw [map_pt_range] at this
    exact this
  · rw [g3, hmaphead]
  · have : (twoOptLoop 1000 (ord.map (pt points))).length = (ord.map (pt points)).length :=
      g2.length_eq
    intro hcon
    rw [hcon] at this
    simp at this
    omega
  · simp only [solveTSP2Opt, hn2, if_false, hdl]
    rw [getD_zero_eq_headD, g3, hmaphead]
  · simp only [solveTSP2Opt, hn2, if_false, hdl]
    rw [getD_zero_eq_headD, g3, hmaphead, closedCost, g3, hmaphead]
  · simp only [solveTSP2Opt, hn2, if_false, hdl]
    rw [getD_zero_eq_headD, g3, hmaphead]
    have hfin : calculateRouteDistance
        (twoOptLoop 1000 (ord.map (pt points)) ++ [pt points 0]) =
        closedCost (twoOptLoop 1000 (ord.map (pt points))) := by
      rw [closedCost, g3, hmaphead]
    rw [hfin, ← hclosed0]
    exact g1

/-! ## Claim C3: 2-opt never worse than its Nearest Neighbor seed -/

/-- C3.  For every input point list, the total distance of the 2-Opt
result is at most the distance of the Nearest Neighbor tour it is seeded
with: each accepted segment reversal strictly decreases the closed-tour
length, and degenerate sizes only drop the closing edge. -/
theorem twoOpt_le_nearestNeighbor (points : List Point) :
    (solveTSP2Opt points).distance ≤ (solveTSPNearestNeighbor points).distance := by
  by_cases h3 : 3 ≤ points.length
  · obtain ⟨tour, -, -, -, -, -, hle⟩ := solveTSP2Opt_spec points h3
    exact hle
  · by_cases h1 : points.length ≤ 1
    · rw [solveTSP2Opt, solveTSPNearestNeighbor]
      rw [if_pos (by omega : points.length ≤ 2), if_pos h1]
      simp [calculateRouteDistance_short h1]
    · have h2 : points.length = 2 := by omega
      obtain ⟨ord, hperm, hhead, hne, hpath, hdist⟩ :=
        solveTSPNearestNeighbor_spec points (by omega)
      have hord : ord = [0, 1] := by
        rw [h2] at hperm
        cases ord with
        | nil => exact absurd rfl hne
        | cons a t =>
          have ha : a = 0 := by simpa using hhead
          subst ha
          have hrange : List.range 2 = [0, 1] := by decide
          rw [hrange] at hperm
          have ht : t.Perm [1] := hperm.cons_inv
          rw [List.perm_singleton.mp ht]
      have hpts : points = [pt points 0, pt points 1] := by
        conv_lhs => rw [← map_pt_range points]
        rw [h2]
        rfl
      rw [solveTSP2Opt, if_pos (by omega : points.length ≤ 2)]
      rw [hdist, hord]
      simp only [costIdx, List.map_cons, List.map_nil, List.cons_append, List.nil_append]
      conv_lhs => rw [hpts]
      simp only [calculateRouteDistance, RouteResult.distance]
      have := distance_nonneg (pt points 1) (pt points 0)
      linarith

/-! ## Popcount and bitmask facts for the Held-Karp tables -/

theorem popcount_zero : __builtin_popcount 0 = 0 := by
  rw [__builtin_popcount]

theorem popcount_def (n : ℕ) :
    __builtin_popcount n = n % 2 + __builtin_popcount (n / 2) := by
  cases n with
  | zero => simp [popcount_zero]
  | succ m => rw [__builtin_popcount]

theorem popcount_eq_zero {n : ℕ} (h : __builtin_popcount n = 0) : n = 0 := by
  induction n using Nat.strong_induction_on with
  | _ n ih =>
    rw [popcount_def] at h
    rcases Nat.eq_zero_or_pos n with rfl | hpos
    · rfl
    · have h2 := ih (n / 2) (Nat.div_lt_self hpos (by norm_num)) (by omega)
      omega

theorem one_shiftLeft_eq (e : ℕ) : (1 <<< e : ℕ) = 2 ^ e := by
  simp [Nat.shiftLeft_eq]

theorem mod_two_of_testBit (n : ℕ) : n % 2 = if n.testBit 0 then 1 else 0 := by
  rcases Nat.mod_two_eq_zero_or_one n with h | h <;> simp [Nat.testBit_zero, h]

theorem xor_div_two (x y : ℕ) : (x ^^^ y) / 2 = x / 2 ^^^ y / 2 := by
  apply Nat.eq_of_testBit_eq
  intro i
  simp [Nat.testBit_div_two, Nat.testBit_xor]

theorem two_le_popcount {m e : ℕ} (h0 : m.testBit 0 = true) (he : m.testBit e = true)
    (hne : e ≠ 0) : 2 ≤ __builtin_popcount m := by
  obtain ⟨e2, rfl⟩ : ∃ e2, e = e2 + 1 := ⟨e - 1, by omega⟩
  rw [Nat.testBit_add_one] at he
  have hq : m / 2 ≠ 0 := by
    intro hz
    rw [hz] at he
    simp [Nat.zero_testBit] at he
  have hpc : __builtin_popcount (m / 2) ≠ 0 := fun hz => hq (popcount_eq_zero hz)
  have hm2 : m % 2 = 1 := by
    rw [mod_two_of_testBit, h0]
    rfl
  rw [popcount_def]
  omega

theorem popcount_eq_one {m : ℕ} (h : __builtin_popcount m = 1) : ∃ j, m = 2 ^ j := by
  induction m using Nat.strong_induction_on with
  | _ m ih =>
    rw [popcount_def] at h
    by_cases hodd : m % 2 = 1
    · have h0 : __builtin_popcount (m / 2) = 0 := by omega
      have := popcount_eq_zero h0
      exact ⟨0, by omega⟩
    · have hpos : 0 < m := by
        rcases Nat.eq_zero_or_pos m with rfl | hp
        · simp [__builtin_popcount] at h
        · exact hp
      obtain ⟨j, hj⟩ := ih (m / 2) (Nat.div_lt_self hpos (by norm_num)) (by omega)
      refine ⟨j + 1, ?_⟩
      have hm : m = 2 * (m / 2) := by omega
      rw [hm, hj]
      ring

theorem base_mask_eq {m e : ℕ} (hpc : __builtin_popcount m = 2) (h0 : m.testBit 0 = true)
    (he : m.testBit e = true) (hne : e ≠ 0) : m = 2 ^ e + 1 := by
  have hm2 : m % 2 = 1 := by rw [mod_two_of_testBit, h0]; rfl
  have hq : __builtin_popcount (m / 2) = 1 := by
    rw [popcount_def] at hpc
    omega
  obtain ⟨j, hj⟩ := popcount_eq_one hq
  obtain ⟨e2, rfl⟩ : ∃ e2, e = e2 + 1 := ⟨e - 1, by omega⟩
  rw [Nat.testBit_add_one, hj, Nat.testBit_two_pow] at he
  have hje : j = e2 := by simpa using he
  subst hje
  have hm : m = 2 * (m / 2) + 1 := by omega
  rw [hm, hj]
  ring

theorem testBit_xor_two_pow_ne {m e j : ℕ} (hne : j ≠ e) :
    (m ^^^ 2 ^ e).testBit j = m.testBit j := by
  simp [Nat.testBit_xor, Nat.testBit_two_pow_of_ne (fun h => hne h.symm)]

theorem testBit_xor_two_pow_self (m e : ℕ) :
    (m ^^^ 2 ^ e).testBit e = !m.testBit e := by
  simp [Nat.testBit_xor, Nat.testBit_two_pow_self]

theorem popcount_xor_two_pow {m e : ℕ} (h : m.testBit e = true) :
    __builtin_popcount (m ^^^ 2 ^ e) + 1 = __builtin_popcount m := by
  induction e generalizing m with
  | zero =>
    have hm2 : m % 2 = 1 := by rw [mod_two_of_testBit, h]; rfl
    have hmod : (m ^^^ 2 ^ 0) % 2 = 0 := by
      rw [mod_two_of_testBit, testBit_xor_two_pow_self, h]
      rfl
    have hdiv : (m ^^^ 2 ^ 0) / 2 = m / 2 := by
      rw [xor_div_two]
      norm_num
    rw [popcount_def (m ^^^ 2 ^ 0), hmod, hdiv, popcount_def m]
    omega
  | succ e ih =>
    have hdiv : (m ^^^ 2 ^ (e + 1)) / 2 = m / 2 ^^^ 2 ^ e := by
      rw [xor_div_two]
      congr 1
      rw [Nat.pow_succ]
      exact Nat.mul_div_cancel _ (by norm_num)
    have hmod : (m ^^^ 2 ^ (e + 1)) % 2 = m % 2 := by
      rw [mod_two_of_testBit, mod_two_of_testBit m,
        testBit_xor_two_pow_ne (by omega : (0 : ℕ) ≠ e + 1)]
    have hbit : (m / 2).testBit e = true := by
      rw [Nat.testBit_div_two]
      exact h
    have := ih hbit
    rw [popcount_def (m ^^^ 2 ^ (e + 1)), hmod, hdiv, popcount_def m]
    omega

theorem exists_testBit_of_ne_zero {q : ℕ} (h : q ≠ 0) : ∃ j, q.testBit j = true := by
  have hge : q ≥ 2 ^ 0 := by
    rw [pow_zero]
    omega
  obtain ⟨i, -, hi⟩ := Nat.ge_two_pow_implies_high_bit_true hge
  exact ⟨i, hi⟩

theorem exists_nonzero_bit {m : ℕ} (h0 : m.testBit 0 = true)
    (h2 : 2 ≤ __builtin_popcount m) : ∃ j, j ≠ 0 ∧ m.testBit j = true := by
  have hq : 1 ≤ __builtin_popcount (m / 2) := by
    rw [popcount_def] at h2
    omega
  have hqne : m / 2 ≠ 0 := by
    intro hz
    rw [hz, popcount_zero] at hq
    omega
  obtain ⟨j, hj⟩ := exists_testBit_of_ne_zero hqne
  exact ⟨j + 1, by omega, by rwa [Nat.testBit_add_one]⟩

theorem testBit_lt_of_lt_two_pow {m n j : ℕ} (hm : m < 2 ^ n) (hj : m.testBit j = true) :
    j < n := by
  have h1 := Nat.testBit_implies_ge hj
  by_contra hc
  push_neg at hc
  have h2 : (2 : ℕ) ^ n ≤ 2 ^ j := Nat.pow_le_pow_right (by norm_num) hc
  omega

theorem testBit_two_pow_add_one {e j : ℕ} (he : e ≠ 0)
    (h : (2 ^ e + 1).testBit j = true) : j = 0 ∨ j = e := by
  cases j with
  | zero => exact Or.inl rfl
  | succ j2 =>
    right
    rw [Nat.testBit_add_one] at h
    obtain ⟨e2, rfl⟩ : ∃ e2, e = e2 + 1 := ⟨e - 1, by omega⟩
    have hdiv : (2 ^ (e2 + 1) + 1) / 2 = 2 ^ e2 := by
      rw [Nat.pow_succ]
      omega
    rw [hdiv, Nat.testBit_two_pow] at h
    have := of_decide_eq_true h
    omega

theorem popcount_two_pow (j : ℕ) : __builtin_popcount (2 ^ j) = 1 := by
  induction j with
  | zero =>
    rw [pow_zero, popcount_def]
    norm_num [popcount_zero]
  | succ j ih =>
    rw [popcount_def, Nat.pow_succ]
    have h1 : 2 ^ j * 2 % 2 = 0 := by omega
    have h2 : 2 ^ j * 2 / 2 = 2 ^ j := Nat.mul_div_cancel _ (by norm_num)
    rw [h1, h2, ih]

theorem popcount_two_pow_add_one {e : ℕ} (he : e ≠ 0) :
    __builtin_popcount (2 ^ e + 1) = 2 := by
  obtain ⟨e2, rfl⟩ : ∃ e2, e = e2 + 1 := ⟨e - 1, by omega⟩
  rw [popcount_def]
  have h1 : (2 ^ (e2 + 1) + 1) % 2 = 1 := by
    rw [Nat.pow_succ]
    omega
  have h2 : (2 ^ (e2 + 1) + 1) / 2 = 2 ^ e2 := by
    rw [Nat.pow_succ]
    omega
  rw [h1, h2, popcount_two_pow]

theorem popcount_two_pow_sub_one (n : ℕ) : __builtin_popcount (2 ^ n - 1) = n := by
  induction n with
  | zero => simp [popcount_zero]
  | succ n ih =>
    have h1 : (2 : ℕ) ^ (n + 1) - 1 = 2 * (2 ^ n - 1) + 1 := by
      have : (1 : ℕ) ≤ 2 ^ n := Nat.one_le_two_pow
      rw [Nat.pow_succ]
      omega
    rw [h1, popcount_def]
    have h2 : (2 * (2 ^ n - 1) + 1) % 2 = 1 := by omega
    have h3 : (2 * (2 ^ n - 1) + 1) / 2 = 2 ^ n - 1 := by omega
    rw [h2, h3, ih]
    omega

/-! ## Held-Karp table lemmas -/

/-- The predecessor candidate list of the DP transition, named for proofs. -/
noncomputable def dpCandidates (points : List Point) (mask e : ℕ) : List (ℕ × ℝ) :=
  (List.range points.length).filterMap fun prev =>
    if prev = 0 then none
    else if (mask ^^^ (1 <<< e)).testBit prev then
      (dpParent points (mask ^^^ (1 <<< e)) prev).map fun pr =>
        (prev, pr.2 + distance (pt points prev) (pt points e))
    else none

theorem dpParent_unfold (points : List Point) (mask e : ℕ) :
    dpParent points mask e =
      if mask < 2 ^ points.length ∧ e < points.length ∧ e ≠ 0 ∧
          mask.testBit 0 = true ∧ mask.testBit e = true then
        if __builtin_popcount mask = 2 then
          some (0, distance (pt points 0) (pt points e))
        else if 3 ≤ __builtin_popcount mask then
          foldMin (dpCandidates points mask e)
        else none
      else none := by
  rw [dpParent]
  rfl

theorem dpParent_guards {points : List Point} {mask e : ℕ} {pr : ℕ × ℝ}
    (h : dpParent points mask e = some pr) :
    mask < 2 ^ points.length ∧ e < points.length ∧ e ≠ 0 ∧
      mask.testBit 0 = true ∧ mask.testBit e = true := by
  rw [dpParent_unfold] at h
  by_cases hg : mask < 2 ^ points.length ∧ e < points.length ∧ e ≠ 0 ∧
      mask.testBit 0 = true ∧ mask.testBit e = true
  · exact hg
  · rw [if_neg hg] at h
    exact Option.noConfusion h

theorem dpCandidates_mem {points : List Point} {mask e : ℕ} {c : ℕ × ℝ} :
    c ∈ dpCandidates points mask e ↔
      c.1 < points.length ∧ c.1 ≠ 0 ∧ (mask ^^^ (1 <<< e)).testBit c.1 = true ∧
        ∃ x, dpParent points (mask ^^^ (1 <<< e)) c.1 = some x ∧
          c.2 = x.2 + distance (pt points c.1) (pt points e) := by
  constructor
  · intro h
    obtain ⟨prev, hprev, hf⟩ := List.mem_filterMap.mp h
    by_cases h0 : prev = 0
    · simp [h0] at hf
    · rw [if_neg h0] at hf
      by_cases hb : (mask ^^^ (1 <<< e)).testBit prev = true
      · rw [if_pos hb, Option.map_eq_some'] at hf
        obtain ⟨x, hx, rfl⟩ := hf
        exact ⟨List.mem_range.mp hprev, h0, hb, x, hx, rfl⟩
      · rw [if_neg hb] at hf
        exact Option.noConfusion hf
  · intro ⟨h1, h2, h3, x, hx, hc2⟩
    refine List.mem_filterMap.mpr ⟨c.1, List.mem_range.mpr h1, ?_⟩
    rw [if_neg h2, if_pos h3, hx]
    simp only [Option.map_some']
    rw [← hc2]

theorem dpParent_isSome (points : List Point) :
    ∀ mask, ∀ e, mask < 2 ^ points.length → e < points.length → e ≠ 0 →
      mask.testBit 0 = true → mask.testBit e = true →
      ∃ pr, dpParent points mask e = some pr := by
  intro mask
  induction mask using Nat.strong_induction_on with
  | _ mask ih =>
    intro e h1 h2 h3 h4 h5
    rw [dpParent_unfold, if_pos ⟨h1, h2, h3, h4, h5⟩]
    by_cases hpc2 : __builtin_popcount mask = 2
    · rw [if_pos hpc2]
      exact ⟨_, rfl⟩
    · have hpc3 : 3 ≤ __builtin_popcount mask := by
        have := two_le_popcount h4 h5 h3
        omega
    -- find a candidate in the previous mask
      rw [if_neg hpc2, if_pos hpc3]
      have hsh : (1 : ℕ) <<< e = 2 ^ e := one_shiftLeft_eq e
      have hlt : mask ^^^ (1 <<< e) < mask := xor_shiftLeft_lt h5
      have hpcprev : __builtin_popcount (mask ^^^ (1 <<< e)) + 1 =
          __builtin_popcount mask := by
        rw [hsh]
        exact popcount_xor_two_pow h5
      have hbit0 : (mask ^^^ (1 <<< e)).testBit 0 = true := by
        rw [hsh, testBit_xor_two_pow_ne (fun hc => h3 hc.symm)]
        exact h4
      obtain ⟨j, hj0, hjb⟩ := exists_nonzero_bit hbit0 (by omega)
      have hjlt : j < points.length :=
        testBit_lt_of_lt_two_pow (lt_of_lt_of_le hlt (le_of_lt h1)) hjb
      obtain ⟨x, hx⟩ := ih (mask ^^^ (1 <<< e)) hlt j
        (lt_trans hlt h1) hjlt hj0 hbit0 hjb
      have hmem : (j, x.2 + distance (pt points j) (pt points e)) ∈
          dpCandidates points mask e :=
        dpCandidates_mem.mpr ⟨hjlt, hj0, hjb, x, hx, rfl⟩
      obtain ⟨c, hc⟩ := foldMin_isSome (List.ne_nil_of_mem hmem)
      exact ⟨c, hc⟩

/-- An index path through exactly the vertices of `mask`, starting at
vertex 0 and ending at `e`. -/
def IsPathFor (mask e : ℕ) (s : List ℕ) : Prop :=
  s ≠ [] ∧ s.headD 0 = 0 ∧ s.getLastD 0 = e ∧ s.Nodup ∧
    ∀ j, j ∈ s ↔ mask.testBit j = true

theorem getLastD_mem {s : List ℕ} (h : s ≠ []) (d : ℕ) : s.getLastD d ∈ s := by
  rw [← getLast_eq_getLastD s h d]
  exact List.getLast_mem h

theorem eq_singleton_of_head_last {s : List ℕ} (hne : s ≠ []) (hnd : s.Nodup)
    (hh : s.headD 0 = 0) (hl : s.getLastD 0 = 0) : s = [0] := by
  cases s with
  | nil => exact absurd rfl hne
  | cons a t =>
    simp only [List.headD_cons] at hh
    subst hh
    cases t with
    | nil => rfl
    | cons b u =>
      rw [List.getLastD_cons] at hl
      have hmem : (0 : ℕ) ∈ b :: u := by
        rw [← hl]
        exact getLastD_mem (by simp) 0
      rw [List.nodup_cons] at hnd
      exact absurd hmem hnd.1

theorem testBit_two_pow_add_one_iff {e j : ℕ} (he : e ≠ 0) :
    (2 ^ e + 1).testBit j = true ↔ (j = 0 ∨ j = e) := by
  constructor
  · exact testBit_two_pow_add_one he
  · intro h
    rcases h with h | h
    · rw [h, Nat.testBit_zero]
      have h2 : (2 ^ e + 1) % 2 = 1 := by
        obtain ⟨e2, he2⟩ : ∃ e2, e = e2 + 1 := ⟨e - 1, by omega⟩
        rw [he2, Nat.pow_succ]
        omega
      simp [h2]
    · rw [h, Nat.testBit_two_pow_add_eq]
      have h1 : (1 : ℕ).testBit e = false := by
        have h20 : (1 : ℕ) = 2 ^ 0 := rfl
        rw [h20, Nat.testBit_two_pow_of_ne (fun hc => he hc.symm)]
      rw [h1]
      rfl

theorem path_base_shape {mask e : ℕ} {s : List ℕ} (hp : IsPathFor mask e s)
    (he : e ≠ 0) (hmask : mask = 2 ^ e + 1) : s = [0, e] := by
  obtain ⟨hne, hh, hl, hnd, hmem⟩ := hp
  have hsub : ∀ j ∈ s, j = 0 ∨ j = e := by
    intro j hj
    exact testBit_two_pow_add_one he (hmask ▸ (hmem j).mp hj)
  have h0mem : (0 : ℕ) ∈ s :=
    (hmem 0).mpr (by rw [hmask]; exact (testBit_two_pow_add_one_iff he).mpr (Or.inl rfl))
  have hemem : e ∈ s :=
    (hmem e).mpr (by rw [hmask]; exact (testBit_two_pow_add_one_iff he).mpr (Or.inr rfl))
  have htf : s.toFinset = {0, e} := by
    ext j
    simp only [List.mem_toFinset, Finset.mem_insert, Finset.mem_singleton]
    constructor
    · exact hsub j
    · intro hj
      rcases hj with h | h
      · exact h ▸ h0mem
      · exact h ▸ hemem
  have hcard : s.length = 2 := by
    rw [← List.toFinset_card_of_nodup hnd, htf,
      Finset.card_insert_of_not_mem (by simp [Ne.symm he]), Finset.card_singleton]
  obtain ⟨x, y, hxy⟩ : ∃ x y, s = [x, y] := by
    cases s with
    | nil => simp at hcard
    | cons x t =>
      cases t with
      | nil => simp at hcard
      | cons y u =>
        cases u with
        | nil => exact ⟨x, y, rfl⟩
        | cons z v => simp at hcard
  subst hxy
  simp only [List.headD_cons] at hh
  have hy : y = e := by
    rw [List.getLastD_cons, List.getLastD_cons, List.getLastD_nil] at hl
    exact hl
  rw [hh, hy]

theorem path_mask_eq {mask e : ℕ} {s : List ℕ}
    (hmem : ∀ j, j ∈ s ↔ mask.testBit j = true) (hs : s = [0, e]) (he : e ≠ 0) :
    mask = 2 ^ e + 1 := by
  apply Nat.eq_of_testBit_eq
  intro j
  rw [Bool.eq_iff_iff]
  subst hs
  rw [← hmem j, testBit_two_pow_add_one_iff he]
  simp [eq_comm]

/-- Lower-bound direction of Held-Karp correctness: a DP entry never
exceeds the route length of any index path through exactly the vertices of
its mask, from vertex 0 to its terminal. -/
theorem dpParent_le (points : List Point) :
    ∀ mask, ∀ e pr s, dpParent points mask e = some pr → IsPathFor mask e s →
      pr.2 ≤ costIdx points s := by
  intro mask
  induction mask using Nat.strong_induction_on with
  | _ mask ih =>
    intro e pr s hdp hpath
    obtain ⟨h1, h2, h3, h4, h5⟩ := dpParent_guards hdp
    rw [dpParent_unfold, if_pos ⟨h1, h2, h3, h4, h5⟩] at hdp
    by_cases hpc2 : __builtin_popcount mask = 2
    · rw [if_pos hpc2] at hdp
      have hmask : mask = 2 ^ e + 1 := base_mask_eq hpc2 h4 h5 h3
      have hs : s = [0, e] := path_base_shape hpath h3 hmask
      cases hdp
      rw [hs]
      simp only [costIdx, List.map_cons, List.map_nil]
      rw [calculateRouteDistance_cons_cons]
      have : calculateRouteDistance [pt points e] = 0 := rfl
      rw [this]
      simp
    · have hpcge : 3 ≤ __builtin_popcount mask := by
        have := two_le_popcount h4 h5 h3
        omega
      rw [if_neg hpc2, if_pos hpcge] at hdp
      obtain ⟨hne, hh, hl, hnd, hmem⟩ := hpath
      -- split the path at its last vertex
      have hlast : s.getLast? = some e := by
        rw [List.getLast?_eq_getLast s hne, getLast_eq_getLastD s hne 0, hl]
      obtain ⟨s2, hs2⟩ := List.getLast?_eq_some_iff.mp hlast
      subst hs2
      have hs2ne : s2 ≠ [] := by
        intro hnil
        subst hnil
        simp only [List.nil_append, List.headD_cons] at hh
        exact h3 (hh ▸ rfl)
      have henotin : e ∉ s2 := by
        rw [List.nodup_append] at hnd
        intro hmem2
        exact hnd.2.2 hmem2 (by simp)
      have hs2nd : s2.Nodup := (List.nodup_append.mp hnd).1
      have hs2h : s2.headD 0 = 0 := by
        rw [headD_append_of_ne_nil hs2ne] at hh
        exact hh
      have hsh : (1 : ℕ) <<< e = 2 ^ e := one_shiftLeft_eq e
      have hmem2 : ∀ j, j ∈ s2 ↔ (mask ^^^ 2 ^ e).testBit j = true := by
        intro j
        constructor
        · intro hj
          have hjne : j ≠ e := fun hc => henotin (hc ▸ hj)
          rw [testBit_xor_two_pow_ne hjne]
          exact (hmem j).mp (by simp [hj])
        · intro hj
          have hjne : j ≠ e := by
            intro hc
            rw [hc, testBit_xor_two_pow_self, h5] at hj
            simp at hj
          have := (hmem j).mpr (by rwa [testBit_xor_two_pow_ne hjne] at hj)
          rcases List.mem_append.mp this with h | h
          · exact h
          · simp at h
            exact absurd h hjne
      set e2 := s2.getLastD 0 with he2def
      have he2mem : e2 ∈ s2 := getLastD_mem hs2ne 0
      have he2ne : e2 ≠ 0 := by
        intro hc
        have hs2eq : s2 = [0] := eq_singleton_of_head_last hs2ne hs2nd hs2h
          (he2def.symm.trans hc)
        have hseq : s2 ++ [e] = [0, e] := by rw [hs2eq]; rfl
        have hmaskeq : mask = 2 ^ e + 1 :=
          path_mask_eq hmem (by rw [hseq]) h3
        rw [hmaskeq, popcount_two_pow_add_one h3] at hpcge
        omega
      have he2bit : (mask ^^^ 2 ^ e).testBit e2 = true := (hmem2 e2).mp he2mem
      have h0bit : (mask ^^^ 2 ^ e).testBit 0 = true := by
        refine (hmem2 0).mp ?_
        rw [← hs2h]
        cases hs2e : s2 with
        | nil => exact absurd hs2e hs2ne
        | cons a t => simp
      have hprevlt : mask ^^^ 2 ^ e < mask := by
        rw [← hsh]
        exact xor_shiftLeft_lt h5
      have he2lt : e2 < points.length :=
        testBit_lt_of_lt_two_pow (lt_trans hprevlt h1) he2bit
      obtain ⟨x, hx⟩ := dpParent_isSome points (mask ^^^ 2 ^ e) e2
        (lt_trans hprevlt h1) he2lt he2ne h0bit he2bit
      have hih : x.2 ≤ costIdx points s2 :=
        ih (mask ^^^ 2 ^ e) hprevlt e2 x s2 hx
          ⟨hs2ne, hs2h, rfl, hs2nd, hmem2⟩
      have hcand : (e2, x.2 + distance (pt points e2) (pt points e)) ∈
          dpCandidates points mask e := by
        refine dpCandidates_mem.mpr ⟨he2lt, he2ne, ?_, x, ?_, rfl⟩
        · rw [hsh]
          exact he2bit
        · rw [hsh]
          exact hx
      have hfm := (foldMin_spec hdp).2 _ hcand
      have hcost : costIdx points (s2 ++ [e]) =
          costIdx points s2 + distance (pt points e2) (pt points e) :=
        costIdx_append_single points s2 e hs2ne
      rw [hcost]
      calc pr.2 ≤ x.2 + distance (pt points e2) (pt points e) := hfm
    _ ≤ costIdx points s2 + distance (pt points e2) (pt points e) := by
          have := distance_nonneg (pt points e2) (pt points e)
          linarith

theorem dpReconstruct_zero_curr (points : List Point) (fuel mask : ℕ) :
    dpReconstruct points fuel mask 0 = [] := by
  cases fuel with
  | zero => rfl
  | succ f =>
    rw [dpReconstruct]
    simp

/-- Correctness of the Held-Karp path reconstruction: given a defined DP
entry and enough fuel, the pushed index list starts at the terminal,
covers exactly the nonzero vertices of the mask without repetition, and
the reversed path from vertex 0 has route length equal to the entry. -/
theorem dpReconstruct_spec (points : List Point) :
    ∀ mask, ∀ curr pr fuel,
      dpParent points mask curr = some pr →
      __builtin_popcount mask ≤ fuel + 1 →
      dpReconstruct points fuel mask curr ≠ [] ∧
      (dpReconstruct points fuel mask curr).headD 0 = curr ∧
      (dpReconstruct points fuel mask curr).Nodup ∧
      (∀ j, j ∈ dpReconstruct points fuel mask curr ↔
        (mask.testBit j = true ∧ j ≠ 0)) ∧
      costIdx points (0 :: (dpReconstruct points fuel mask curr).reverse) = pr.2 := by
  intro mask
  induction mask using Nat.strong_induction_on with
  | _ mask ih =>
    intro curr pr fuel hdp hfuel
    have hdp0 := hdp
    obtain ⟨h1, h2, h3, h4, h5⟩ := dpParent_guards hdp
    have hpcge2 : 2 ≤ __builtin_popcount mask := two_le_popcount h4 h5 h3
    obtain ⟨f, rfl⟩ : ∃ f, fuel = f + 1 := ⟨fuel - 1, by omega⟩
    have hsh : (1 : ℕ) <<< curr = 2 ^ curr := one_shiftLeft_eq curr
    rw [dpParent_unfold, if_pos ⟨h1, h2, h3, h4, h5⟩] at hdp
    by_cases hpc2 : __builtin_popcount mask = 2
    · rw [if_pos hpc2] at hdp
      have hmask : mask = 2 ^ curr + 1 := base_mask_eq hpc2 h4 h5 h3
      cases hdp
      have hrw : dpReconstruct points (f + 1) mask curr = [curr] := by
        rw [dpReconstruct, if_neg h3, hdp0]
        dsimp only
        rw [dpReconstruct_zero_curr]
      rw [hrw]
      refine ⟨by simp, rfl, List.nodup_singleton _, ?_, ?_⟩
      · intro j
        constructor
        · intro hj
          rw [List.mem_singleton] at hj
          exact ⟨hj ▸ h5, hj ▸ h3⟩
        · intro ⟨hjb, hj0⟩
          rw [hmask] at hjb
          rcases testBit_two_pow_add_one h3 hjb with h | h
          · exact absurd h hj0
          · simp [h]
      · simp only [List.reverse_cons, List.reverse_nil, List.nil_append, costIdx,
          List.map_cons, List.map_nil]
        rw [calculateRouteDistance_cons_cons]
        have hz : calculateRouteDistance [pt points curr] = 0 := rfl
        rw [hz]
        simp
    · have hpcge3 : 3 ≤ __builtin_popcount mask := by omega
      rw [if_neg hpc2, if_pos hpcge3] at hdp
      obtain ⟨hcmem, -⟩ := foldMin_spec hdp
      obtain ⟨hplt, hpne, hpbit, x, hx, hpr2⟩ := dpCandidates_mem.mp hcmem
      have hprevlt : mask ^^^ (1 <<< curr) < mask := xor_shiftLeft_lt h5
      have hpcprev : __builtin_popcount (mask ^^^ (1 <<< curr)) + 1 =
          __builtin_popcount mask := by
        rw [hsh]
        exact popcount_xor_two_pow h5
      have hrw : dpReconstruct points (f + 1) mask curr =
          curr :: dpReconstruct points f (mask ^^^ (1 <<< curr)) pr.1 := by
        rw [dpReconstruct, if_neg h3, hdp0]
      obtain ⟨g1, g2, g3, g4, g5⟩ := ih (mask ^^^ (1 <<< curr)) hprevlt pr.1 x f hx
        (by omega)
      have hcurrnot : curr ∉ dpReconstruct points f (mask ^^^ (1 <<< curr)) pr.1 := by
        intro hc
        have := (g4 curr).mp hc
        rw [hsh, testBit_xor_two_pow_self, h5] at this
        simp at this
      rw [hrw]
      refine ⟨by simp, rfl, ?_, ?_, ?_⟩
      · rw [List.nodup_cons]
        exact ⟨hcurrnot, g3⟩
      · intro j
        rw [List.mem_cons]
        constructor
        · intro hj
          rcases hj with rfl | hj
          · exact ⟨h5, h3⟩
          · obtain ⟨hb, hj0⟩ := (g4 j).mp hj
            have hjne : j ≠ curr := fun hc => hcurrnot (hc ▸ hj)
            rw [hsh, testBit_xor_two_pow_ne hjne] at hb
            exact ⟨hb, hj0⟩
        · intro ⟨hb, hj0⟩
          by_cases hjc : j = curr
          · exact Or.inl hjc
          · refine Or.inr ((g4 j).mpr ⟨?_, hj0⟩)
            rw [hsh, testBit_xor_two_pow_ne hjc]
            exact hb
      · have grne : (dpReconstruct points f (mask ^^^ (1 <<< curr)) pr.1).reverse ≠ [] := by
          simp [g1]
        rw [List.reverse_cons, ← List.cons_append,
          costIdx_append_single points _ curr (by simp),
          List.getLastD_cons, getLastD_reverse, g2, g5, hpr2]

/-- The candidate list of the final `minTour` scan, named for proofs. -/
noncomputable def dpFinalCandidates (points : List Point) : List (ℕ × ℝ) :=
  (List.range points.length).filterMap fun i =>
    if i = 0 then none
    else (dpParent points (2 ^ points.length - 1) i).map fun pr =>
      (i, pr.2 + distance (pt points i) (pt points 0))

theorem dpFinal_eq (points : List Point) :
    dpFinal points = foldMin (dpFinalCandidates points) := rfl

theorem dpFinalCandidates_mem {points : List Point} {c : ℕ × ℝ} :
    c ∈ dpFinalCandidates points ↔
      c.1 < points.length ∧ c.1 ≠ 0 ∧
        ∃ x, dpParent points (2 ^ points.length - 1) c.1 = some x ∧
          c.2 = x.2 + distance (pt points c.1) (pt points 0) := by
  constructor
  · intro h
    obtain ⟨i, hi, hfi⟩ := List.mem_filterMap.mp h
    by_cases h0 : i = 0
    · simp [h0] at hfi
    · rw [if_neg h0, Option.map_eq_some'] at hfi
      obtain ⟨x, hx, rfl⟩ := hfi
      exact ⟨List.mem_range.mp hi, h0, x, hx, rfl⟩
  · intro ⟨h1, h2, x, hx, hc2⟩
    refine List.mem_filterMap.mpr ⟨c.1, List.mem_range.mpr h1, ?_⟩
    rw [if_neg h2, hx]
    simp only [Option.map_some']
    rw [← hc2]

theorem fullMask_guards (points : List Point) (h : 2 ≤ points.length) {e : ℕ}
    (he1 : e < points.length) (he2 : e ≠ 0) :
    2 ^ points.length - 1 < 2 ^ points.length ∧ e < points.length ∧ e ≠ 0 ∧
      (2 ^ points.length - 1).testBit 0 = true ∧
      (2 ^ points.length - 1).testBit e = true := by
  have hpos : (1 : ℕ) ≤ 2 ^ points.length := Nat.one_le_two_pow
  refine ⟨by omega, he1, he2, ?_, ?_⟩
  · rw [Nat.testBit_two_pow_sub_one]
    simp
    omega
  · rw [Nat.testBit_two_pow_sub_one]
    simp [he1]

theorem dpFinal_isSome (points : List Point) (h : 2 ≤ points.length) :
    ∃ pr, dpFinal points = some pr := by
  obtain ⟨g1, g2, g3, g4, g5⟩ := fullMask_guards points h (e := 1) (by omega) (by omega)
  obtain ⟨x, hx⟩ := dpParent_isSome points (2 ^ points.length - 1) 1 g1 g2 g3 g4 g5
  have hmem : (1, x.2 + distance (pt points 1) (pt points 0)) ∈ dpFinalCandidates points :=
    dpFinalCandidates_mem.mpr ⟨g2, g3, x, hx, rfl⟩
  rw [dpFinal_eq]
  exact foldMin_isSome (List.ne_nil_of_mem hmem)

/-- Optimality (lower-bound) direction of the final scan: `minTour` never
exceeds the route length of any closed index tour through all vertices
starting and ending at 0. -/
theorem dpFinal_le (points : List Point) (h : 2 ≤ points.length) {pr : ℕ × ℝ}
    (hpr : dpFinal points = some pr) :
    ∀ ord : List ℕ, ord.Perm (List.range points.length) → ord.headD 0 = 0 →
      pr.2 ≤ costIdx points (ord ++ [0]) := by
  intro ord hperm hh
  have hordlen : ord.length = points.length := by
    rw [hperm.length_eq, List.length_range]
  have hordne : ord ≠ [] := by
    intro hc
    rw [hc] at hordlen
    simp at hordlen
    omega
  have hordnd : ord.Nodup := hperm.nodup_iff.mpr (List.nodup_range _)
  have hmemiff : ∀ j, j ∈ ord ↔ j < points.length := by
    intro j
    rw [hperm.mem_iff, List.mem_range]
  have hemem : ord.getLastD 0 ∈ ord := getLastD_mem hordne 0
  have helt : ord.getLastD 0 < points.length := (hmemiff _).mp hemem
  have hene : ord.getLastD 0 ≠ 0 := by
    intro hc
    have := eq_singleton_of_head_last hordne hordnd hh hc
    rw [this] at hordlen
    simp at hordlen
    omega
  obtain ⟨g1, g2, g3, g4, g5⟩ := fullMask_guards points h helt hene
  obtain ⟨x, hx⟩ := dpParent_isSome points _ _ g1 g2 g3 g4 g5
  have hpathfor : IsPathFor (2 ^ points.length - 1) (ord.getLastD 0) ord := by
    refine ⟨hordne, hh, rfl, hordnd, ?_⟩
    intro j
    rw [hmemiff j, Nat.testBit_two_pow_sub_one]
    simp
  have hle := dpParent_le points _ _ x ord hx hpathfor
  have hcand : (ord.getLastD 0,
      x.2 + distance (pt points (ord.getLastD 0)) (pt points 0)) ∈
      dpFinalCandidates points :=
    dpFinalCandidates_mem.mpr ⟨helt, hene, x, hx, rfl⟩
  rw [dpFinal_eq] at hpr
  have hfm := (foldMin_spec hpr).2 _ hcand
  rw [costIdx_append_single points ord 0 hordne]
  calc pr.2 ≤ x.2 + distance (pt points (ord.getLastD 0)) (pt points 0) := hfm
    _ ≤ costIdx points ord + distance (pt points (ord.getLastD 0)) (pt points 0) := by
        linarith

/-- Characterization of the Exact DP result for `2 ≤ n`: the returned path
is a closed index tour over a permutation of all vertices starting at 0,
the reported distance is that tour's route length, and it is optimal among
all such closed tours. -/
theorem solveTSPExactDP_spec (points : List Point) (h : 2 ≤ points.length) :
    ∃ ord : List ℕ,
      ord.Perm (List.range points.length) ∧ ord.headD 0 = 0 ∧ ord ≠ [] ∧
      (solveTSPExactDP points).path = (ord ++ [0]).map (pt points) ∧
      (solveTSPExactDP points).distance = costIdx points (ord ++ [0]) ∧
      ∀ ord2 : List ℕ, ord2.Perm (List.range points.length) → ord2.headD 0 = 0 →
        (solveTSPExactDP points).distance ≤ costIdx points (ord2 ++ [0]) := by
  have hn1 : ¬points.length ≤ 1 := by omega
  obtain ⟨pr, hpr⟩ := dpFinal_isSome points h
  have hsolve : solveTSPExactDP points =
      { path := ((pt points 0 ::
          (dpReconstruct points points.length (2 ^ points.length - 1) pr.1).map
            (pt points)) ++ [pt points 0]).reverse,
        distance := pr.2, timeMs := 0, algorithm := "Exact DP (Held-Karp)" } := by
    rw [solveTSPExactDP, if_neg hn1, hpr]
  rw [dpFinal_eq] at hpr
  obtain ⟨hmem, -⟩ := foldMin_spec hpr
  obtain ⟨hlt, hne0, x, hx, hpr2⟩ := dpFinalCandidates_mem.mp hmem
  have hpcfull : __builtin_popcount (2 ^ points.length - 1) = points.length :=
    popcount_two_pow_sub_one _
  obtain ⟨g1, g2, g3, g4, g5⟩ := dpReconstruct_spec points (2 ^ points.length - 1)
    pr.1 x points.length hx (by omega)
  set L := dpReconstruct points points.length (2 ^ points.length - 1) pr.1 with hL
  have hLmem : ∀ j, j ∈ L ↔ (j < points.length ∧ j ≠ 0) := by
    intro j
    rw [g4 j, Nat.testBit_two_pow_sub_one]
    simp
  have h0L : (0 : ℕ) ∉ L := fun hc => ((hLmem 0).mp hc).2 rfl
  refine ⟨0 :: L.reverse, ?_, by simp, by simp, ?_, ?_, ?_⟩
  · apply perm_range_of_nodup_toFinset
    · rw [List.nodup_cons]
      exact ⟨by simpa using h0L, by simpa using g3⟩
    · ext j
      simp only [List.toFinset_cons, Finset.mem_insert, List.mem_toFinset,
        List.mem_reverse, Finset.mem_range, hLmem j]
      constructor
      · intro hj
        rcases hj with rfl | hj
        · omega
        · omega
      · intro hj
        by_cases hj0 : j = 0
        · exact Or.inl hj0
        · exact Or.inr ⟨hj, hj0⟩
  · rw [hsolve]
    simp only [List.cons_append, List.reverse_cons, List.reverse_append,
      List.reverse_nil, List.nil_append, List.map_append, List.map_cons,
      List.map_nil, List.map_reverse]
  · rw [hsolve]
    simp only
    rw [show (0 : ℕ) :: L.reverse ++ [0] = (0 :: L.reverse) ++ [0] from rfl,
      costIdx_append_single points _ 0 (by simp), List.getLastD_cons,
      getLastD_reverse, g2, g5, hpr2]
  · intro ord2 hp2 hh2
    rw [hsolve]
    simp only
    exact dpFinal_le points h (by rw [dpFinal_eq]; exact hpr) ord2 hp2 hh2

/-! ## Index tracking through the 2-Opt loops -/

/-- Index-level counterpart of `reverseSegment` (proof infrastructure:
the loop permutes `points[...]` references, which we track by index). -/
def reverseSegmentIdx (l : List ℕ) (a b : ℕ) : List ℕ :=
  l.take a ++ ((l.drop a).take (b + 1 - a)).reverse ++ l.drop (b + 1)

theorem reverseSegment_map (points : List Point) (l : List ℕ) (a b : ℕ) :
    reverseSegment (l.map (pt points)) a b = (reverseSegmentIdx l a b).map (pt points) := by
  unfold reverseSegment reverseSegmentIdx
  rw [List.map_append, List.map_append, List.map_take, List.map_reverse,
    List.map_take, List.map_drop, List.map_drop]

theorem segment_decomp_idx (l : List ℕ) (i j : ℕ) (hij : i ≤ j) :
    l = l.take (i + 1) ++ (l.drop (i + 1)).take (j - i) ++ l.drop (j + 1) := by
  have h2 : (l.drop (i + 1)).drop (j - i) = l.drop (j + 1) := by
    rw [List.drop_drop]
    have h3 : ∀ m, m = j + 1 → List.drop m l = List.drop (j + 1) l := fun m hm => by
      rw [hm]
    exact h3 _ (by omega)
  rw [List.append_assoc, ← h2, List.take_append_drop, List.take_append_drop]

theorem reverseSegmentIdx_eq (l : List ℕ) (i j : ℕ) :
    reverseSegmentIdx l (i + 1) j =
      l.take (i + 1) ++ ((l.drop (i + 1)).take (j - i)).reverse ++ l.drop (j + 1) := by
  unfold reverseSegmentIdx
  have h3 : ∀ m, m = j - i → l.take (i + 1) ++ ((l.drop (i + 1)).take m).reverse ++
      l.drop (j + 1) = l.take (i + 1) ++ ((l.drop (i + 1)).take (j - i)).reverse ++
      l.drop (j + 1) := fun m hm => by rw [hm]
  exact h3 _ (by omega)

theorem reverseSegmentIdx_perm (l : List ℕ) (i j : ℕ) (hij : i ≤ j) :
    (reverseSegmentIdx l (i + 1) j).Perm l := by
  rw [reverseSegmentIdx_eq, List.append_assoc]
  conv_rhs => rw [segment_decomp_idx l i j hij, List.append_assoc]
  exact List.Perm.append_left _ ((List.reverse_perm _).append_right _)

theorem reverseSegmentIdx_headD (l : List ℕ) (i j : ℕ) (hl : 1 ≤ l.length) :
    (reverseSegmentIdx l (i + 1) j).headD 0 = l.headD 0 := by
  rw [reverseSegmentIdx_eq, List.append_assoc]
  rw [headD_append_of_ne_nil (List.ne_nil_of_length_pos (by rw [List.length_take]; omega))]
  exact headD_take (by omega) _

theorem twoOptInner_map (points : List Point) (fuel : ℕ) :
    ∀ (i j : ℕ) (idxs : List ℕ) (improved : Bool),
      3 ≤ idxs.length → i + 2 ≤ j →
      ∃ idxs2 : List ℕ,
        (twoOptInner fuel i j (idxs.map (pt points)) improved).1 =
          idxs2.map (pt points) ∧
        idxs2.Perm idxs ∧ idxs2.headD 0 = idxs.headD 0 := by
  induction fuel with
  | zero =>
    intro i j idxs improved hlen hij
    exact ⟨idxs, rfl, List.Perm.refl _, rfl⟩
  | succ fuel ih =>
    intro i j idxs improved hlen hij
    rw [twoOptInner]
    by_cases hj : j < (idxs.map (pt points)).length
    · rw [if_pos hj]
      dsimp only
      by_cases hswap :
          distance ((idxs.map (pt points)).getD i defaultPoint)
              ((idxs.map (pt points)).getD j defaultPoint) +
            distance ((idxs.map (pt points)).getD (i + 1) defaultPoint)
              (if j + 1 < (idxs.map (pt points)).length then
                (idxs.map (pt points)).getD (j + 1) defaultPoint
               else (idxs.map (pt points)).getD 0 defaultPoint) <
          distance ((idxs.map (pt points)).getD i defaultPoint)
              ((idxs.map (pt points)).getD (i + 1) defaultPoint) +
            distance ((idxs.map (pt points)).getD j defaultPoint)
              (if j + 1 < (idxs.map (pt points)).length then
                (idxs.map (pt points)).getD (j + 1) defaultPoint
               else (idxs.map (pt points)).getD 0 defaultPoint) - 0.0001
      · rw [if_pos hswap, reverseSegment_map]
        have hperm := reverseSegmentIdx_perm idxs i j (by omega)
        have hlen2 : 3 ≤ (reverseSegmentIdx idxs (i + 1) j).length := by
          rw [hperm.length_eq]
          exact hlen
        obtain ⟨idxs2, k1, k2, k3⟩ := ih i (j + 1) (reverseSegmentIdx idxs (i + 1) j)
          true hlen2 (by omega)
        refine ⟨idxs2, k1, k2.trans hperm, ?_⟩
        rw [k3, reverseSegmentIdx_headD idxs i j (by omega)]
      · rw [if_neg hswap]
        exact ih i (j + 1) idxs improved hlen (by omega)
    · rw [if_neg hj]
      exact ⟨idxs, rfl, List.Perm.refl _, rfl⟩

theorem twoOptOuter_map (points : List Point) (fuel : ℕ) :
    ∀ (i : ℕ) (idxs : List ℕ) (improved : Bool),
      3 ≤ idxs.length →
      ∃ idxs2 : List ℕ,
        (twoOptOuter fuel i (idxs.map (pt points)) improved).1 =
          idxs2.map (pt points) ∧
        idxs2.Perm idxs ∧ idxs2.headD 0 = idxs.headD 0 := by
  induction fuel with
  | zero =>
    intro i idxs improved hlen
    exact ⟨idxs, rfl, List.Perm.refl _, rfl⟩
  | succ fuel ih =>
    intro i idxs improved hlen
    rw [twoOptOuter]
    by_cases hi : i + 1 < (idxs.map (pt points)).length
    · rw [if_pos hi]
      dsimp only
      obtain ⟨idxs2, k1, k2, k3⟩ := twoOptInner_map points (idxs.map (pt points)).length
        i (i + 2) idxs improved hlen (le_refl _)
      rw [k1]
      obtain ⟨idxs3, m1, m2, m3⟩ := ih (i + 1) idxs2
        (twoOptInner (idxs.map (pt points)).length i (i + 2) (idxs.map (pt points))
          improved).2 (by rw [k2.length_eq]; exact hlen)
      exact ⟨idxs3, m1, m2.trans k2, m3.trans k3⟩
    · rw [if_neg hi]
      exact ⟨idxs, rfl, List.Perm.refl _, rfl⟩

theorem twoOptLoop_map (points : List Point) (fuel : ℕ) :
    ∀ idxs : List ℕ,
      3 ≤ idxs.length →
      ∃ idxs2 : List ℕ,
        twoOptLoop fuel (idxs.map (pt points)) = idxs2.map (pt points) ∧
        idxs2.Perm idxs ∧ idxs2.headD 0 = idxs.headD 0 := by
  induction fuel with
  | zero =>
    intro idxs hlen
    exact ⟨idxs, rfl, List.Perm.refl _, rfl⟩
  | succ fuel ih =>
    intro idxs hlen
    rw [twoOptLoop]
    obtain ⟨idxs2, k1, k2, k3⟩ := twoOptOuter_map points (idxs.map (pt points)).length
      0 idxs false hlen
    by_cases himp : (twoOptOuter (idxs.map (pt points)).length 0 (idxs.map (pt points))
        false).2 = true
    · rw [if_pos himp, k1]
      obtain ⟨idxs3, m1, m2, m3⟩ := ih idxs2 (by rw [k2.length_eq]; exact hlen)
      exact ⟨idxs3, m1, m2.trans k2, m3.trans k3⟩
    · rw [if_neg himp]
      exact ⟨idxs2, k1, k2, k3⟩

/-- Index-tour characterization of the 2-Opt result for `3 ≤ n`. -/
theorem solveTSP2Opt_idx_spec (points : List Point) (h : 3 ≤ points.length) :
    ∃ ord2 : List ℕ,
      ord2.Perm (List.range points.length) ∧ ord2.headD 0 = 0 ∧
      (solveTSP2Opt points).distance = costIdx points (ord2 ++ [0]) := by
  have hn2 : ¬points.length ≤ 2 := by omega
  obtain ⟨ord, hperm, hhead, hne, hpath, hdist⟩ :=
    solveTSPNearestNeighbor_spec points (by omega)
  have hordlen : ord.length = points.length := by
    rw [hperm.length_eq, List.length_range]
  have hdl : (solveTSPNearestNeighbor points).path.dropLast = ord.map (pt points) := by
    rw [hpath, List.dropLast_concat]
  obtain ⟨ord2, k1, k2, k3⟩ := twoOptLoop_map points 1000 ord (by omega)
  have hord2ne : ord2 ≠ [] := by
    intro hc
    have := k2.length_eq
    rw [hc] at this
    simp at this
    omega
  have hhead2 : (ord2.map (pt points)).headD defaultPoint = pt points 0 := by
    cases ord2 with
    | nil => exact absurd rfl hord2ne
    | cons a t =>
      have : a = 0 := by
        have := k3
        simp only [List.headD_cons] at this
        rw [this, hhead]
      rw [List.map_cons, List.headD_cons, this]
  refine ⟨ord2, k2.trans hperm, by rw [k3, hhead], ?_⟩
  simp only [solveTSP2Opt, hn2, if_false, hdl, k1]
  rw [getD_zero_eq_headD, hhead2, costIdx, List.map_append]
  rfl

/-! ## Prim's algorithm: every vertex is connected to vertex 0 -/

/-- Reachability of vertex 0 by iterating a parent table. -/
inductive ReachesZero (par : ℕ → Option ℕ) : ℕ → Prop where
  | zero : ReachesZero par 0
  | step {u v : ℕ} : ReachesZero par u → par v = some u → ReachesZero par v

/-- Reachability is stable under parent updates outside a parent-closed
member set. -/
theorem ReachesZero_mono {par par2 : ℕ → Option ℕ} {S : Finset ℕ}
    (hfr : ∀ w ∈ S, par2 w = par w)
    (hcl : ∀ w w2, par w = some w2 → w2 ∈ S) :
    ∀ v, ReachesZero par v → v ∈ S → ReachesZero par2 v := by
  intro v hr
  induction hr with
  | zero => intro _; exact ReachesZero.zero
  | step hu hpar ih =>
    intro hv
    exact ReachesZero.step (ih (hcl _ _ hpar)) ((hfr _ hv).symm ▸ hpar)


/-- Unfolding of the key component of `primUpdate`. -/
theorem primUpdate_key (points : List Point) (u : ℕ) (inMST : Finset ℕ)
    (key : ℕ → Option ℝ) (parent : ℕ → Option ℕ) (v : ℕ) :
    (primUpdate points u inMST key parent).1 v =
      if v < points.length ∧ v ∉ inMST ∧
          ∀ k ∈ key v, distance (pt points u) (pt points v) < k
      then some (distance (pt points u) (pt points v)) else key v := rfl

/-- Unfolding of the parent component of `primUpdate`. -/
theorem primUpdate_parent (points : List Point) (u : ℕ) (inMST : Finset ℕ)
    (key : ℕ → Option ℝ) (parent : ℕ → Option ℕ) (v : ℕ) :
    (primUpdate points u inMST key parent).2 v =
      if v < points.length ∧ v ∉ inMST ∧
          ∀ k ∈ key v, distance (pt points u) (pt points v) < k
      then some u else parent v := rfl

theorem primLoop_spec (points : List Point) (fuel : ℕ) :
    ∀ (inMST : Finset ℕ) (key : ℕ → Option ℝ) (parent : ℕ → Option ℕ),
      (∀ v ∈ inMST, v < points.length) →
      (∀ v u, parent v = some u → u ∈ inMST) →
      (∀ v ∈ inMST, ReachesZero parent v) →
      (∀ v, v ≠ 0 → key v ≠ none → parent v ≠ none) →
      (∀ v ∈ inMST, v ≠ 0 → parent v ≠ none) →
      ((0 : ℕ) ∉ inMST → key 0 ≠ none) →
      ((0 : ℕ) ∈ inMST → ∀ v, v < points.length → v ∉ inMST → key v ≠ none) →
      points.length ≤ inMST.card + fuel →
      (∀ v, v < points.length → ReachesZero (primLoop points fuel inMST key parent) v) ∧
      (∀ v, v < points.length → v ≠ 0 →
        primLoop points fuel inMST key parent v ≠ none) := by
  induction fuel with
  | zero =>
    intro inMST key parent hI1 hI2 hI3 hI7 hI6 hK0 hI4 hfuel
    have hall : ∀ v, v < points.length → v ∈ inMST := by
      intro v hv
      have heq : inMST = Finset.range points.length := by
        apply Finset.eq_of_subset_of_card_le
          (fun w hw => Finset.mem_range.mpr (hI1 w hw))
        simp only [Finset.card_range]
        omega
      rw [heq]
      exact Finset.mem_range.mpr hv
    rw [primLoop]
    exact ⟨fun v hv => hI3 v (hall v hv), fun v hv hv0 => hI6 v (hall v hv) hv0⟩
  | succ fuel ih =>
    intro inMST key parent hI1 hI2 hI3 hI7 hI6 hK0 hI4 hfuel
    rw [primLoop]
    cases hsel : primSelect inMST key points.length with
    | none =>
      -- a failed selection means the candidate list was empty, which forces
      -- every vertex below n to be in the tree already
      have hall : ∀ v, v < points.length → v ∈ inMST := by
        by_contra hcon
        push_neg at hcon
        obtain ⟨v, hv, hnv⟩ := hcon
        have hcand : ∀ i k, i < points.length → i ∉ inMST → key i = some k →
            (i, k) ∈ ((List.range points.length).filterMap fun i =>
              if i ∈ inMST then none else (key i).map fun k => (i, k)) := by
          intro i k hi hni hk
          simp only [List.mem_filterMap, List.mem_range]
          exact ⟨i, hi, by rw [if_neg hni, hk]; rfl⟩
        have hne : ((List.range points.length).filterMap fun i =>
            if i ∈ inMST then none else (key i).map fun k => (i, k)) ≠ [] := by
          by_cases h0 : (0 : ℕ) ∈ inMST
          · obtain ⟨k, hk⟩ := Option.ne_none_iff_exists'.mp (hI4 h0 v hv hnv)
            exact List.ne_nil_of_mem (hcand v k hv hnv hk)
          · obtain ⟨k, hk⟩ := Option.ne_none_iff_exists'.mp (hK0 h0)
            exact List.ne_nil_of_mem (hcand 0 k (by omega) h0 hk)
        obtain ⟨c, hc⟩ := foldMin_isSome hne
        rw [primSelect] at hsel
        rw [hsel] at hc
        exact Option.noConfusion hc
      exact ⟨fun v hv => hI3 v (hall v hv), fun v hv hv0 => hI6 v (hall v hv) hv0⟩
    | some u =>
      obtain ⟨hu_lt, hu_nin, hu_key⟩ := primSelect_mem hsel
      have hfr : ∀ v ∈ insert u.1 inMST,
          (primUpdate points u.1 (insert u.1 inMST) key parent).2 v = parent v := by
        intro v hvmem
        rw [primUpdate_parent, if_neg]
        intro hb
        exact hb.2.1 hvmem
      have hI2' : ∀ v w,
          (primUpdate points u.1 (insert u.1 inMST) key parent).2 v = some w →
            w ∈ insert u.1 inMST := by
        intro v w hvw
        rw [primUpdate_parent] at hvw
        split at hvw
        · cases hvw; exact Finset.mem_insert_self _ _
        · exact Finset.mem_insert_of_mem (hI2 v w hvw)
      have hmono : ∀ w ∈ inMST,
          ReachesZero (primUpdate points u.1 (insert u.1 inMST) key parent).2 w := by
        intro w hw
        exact ReachesZero_mono hfr
          (fun a b hab => Finset.mem_insert_of_mem (hI2 a b hab)) w (hI3 w hw)
          (Finset.mem_insert_of_mem hw)
      refine ih (insert u.1 inMST) _ _ ?_ hI2' ?_ ?_ ?_ ?_ ?_ ?_
      · intro v hvmem
        rcases Finset.mem_insert.mp hvmem with rfl | hvmem
        · exact hu_lt
        · exact hI1 v hvmem
      · intro v hvmem
        rcases Finset.mem_insert.mp hvmem with rfl | hvm
        · by_cases hz : u.1 = 0
          · exact hz ▸ ReachesZero.zero
          · obtain ⟨w, hw⟩ := Option.ne_none_iff_exists'.mp
              (hI7 u.1 hz (by rw [hu_key]; exact Option.some_ne_none _))
            exact ReachesZero.step (hmono w (hI2 u.1 w hw))
              ((hfr u.1 (Finset.mem_insert_self _ _)).trans hw)
        · exact hmono v hvm
      · intro v hvz hkv
        rw [primUpdate_parent]
        rw [primUpdate_key] at hkv
        split at hkv
        · rw [if_pos (by assumption)]; exact Option.some_ne_none _
        · rw [if_neg (by assumption)]; exact hI7 v hvz hkv
      · intro v hvmem hvz
        rw [hfr v hvmem]
        rcases Finset.mem_insert.mp hvmem with rfl | hvm
        · exact hI7 _ hvz (by rw [hu_key]; exact Option.some_ne_none _)
        · exact hI6 v hvm hvz
      · intro h0
        have h0old : (0 : ℕ) ∉ inMST := fun hc => h0 (Finset.mem_insert_of_mem hc)
        rw [primUpdate_key]
        split
        · exact Option.some_ne_none _
        · exact hK0 h0old
      · intro _ v hv hvnin
        rw [primUpdate_key]
        split
        · exact Option.some_ne_none _
        · next hb =>
          intro hknone
          exact hb ⟨hv, hvnin, by rw [hknone]; intro k hk; exact absurd hk (by simp)⟩
      · rw [Finset.card_insert_of_not_mem hu_nin]
        omega

/-- Connectivity of vertex `v` to vertex 0 through an undirected edge list. -/
inductive EdgeReach (edges : List (ℕ × ℕ)) : ℕ → Prop where
  | zero : EdgeReach edges 0
  | step {u v : ℕ} : EdgeReach edges u → ((u, v) ∈ edges ∨ (v, u) ∈ edges) →
      EdgeReach edges v

theorem EdgeReach_mono {edges edges2 : List (ℕ × ℕ)} (hsub : ∀ e ∈ edges, e ∈ edges2) :
    ∀ v, EdgeReach edges v → EdgeReach edges2 v := by
  intro v h
  induction h with
  | zero => exact EdgeReach.zero
  | step _ he ih =>
    refine EdgeReach.step ih ?_
    rcases he with he | he
    · exact Or.inl (hsub _ he)
    · exact Or.inr (hsub _ he)

theorem mem_drop_one_range {n v : ℕ} : v ∈ (List.range n).drop 1 ↔ 1 ≤ v ∧ v < n := by
  cases n with
  | zero => simp
  | succ m =>
    rw [List.range_succ_eq_map]
    simp only [List.drop_succ_cons, List.drop_zero, List.mem_map, List.mem_range]
    constructor
    · rintro ⟨k, hk, rfl⟩
      omega
    · rintro ⟨h1, h2⟩
      exact ⟨v - 1, by omega, by omega⟩

/-- Every vertex of the input is connected to vertex 0 in the edge list
produced by `primMST`. -/
theorem primMST_reach (points : List Point) :
    ∀ v, v < points.length → EdgeReach (primMST points) v := by
  have hspec := primLoop_spec points points.length ∅
      (fun v => if v = 0 then some 0 else none) (fun _ => none)
      (by simp) (by simp) (by simp)
      (fun v hv hk => by simp [hv] at hk)
      (by simp) (fun _ => by simp)
      (by simp) (by simp)
  have hbound := primLoop_parent_bound points points.length ∅
      (fun v => if v = 0 then some 0 else none) (fun _ => none) (by simp)
  have hedge : ∀ v, 1 ≤ v → v < points.length → ∀ p,
      primLoop points points.length ∅
        (fun v => if v = 0 then some 0 else none) (fun _ => none) v = some p →
      (p, v) ∈ primMST points := by
    intro v h1 h2 p hp
    unfold primMST
    refine List.mem_filterMap.mpr ⟨v, mem_drop_one_range.mpr ⟨h1, h2⟩, ?_⟩
    rw [hp]
    rfl
  intro v hv
  have hr := hspec.1 v hv
  revert hv
  induction hr with
  | zero => intro _; exact EdgeReach.zero
  | step hu hpar ih =>
    rename_i u2 v2
    intro hvlt
    by_cases hz : v2 = 0
    · exact hz ▸ EdgeReach.zero
    · exact EdgeReach.step (ih (hbound _ _ hpar))
        (Or.inl (hedge _ (by omega) hvlt _ hpar))

/-! ## Adjacency-list lemmas for the Eulerian tour -/

/-- Total adjacency mass over the first `n` vertices. -/
def adjTotal (adj : ℕ → List ℕ) (n : ℕ) : ℕ :=
  ∑ v ∈ Finset.range n, (adj v).length

theorem adjTotal_update {n i : ℕ} (adj : ℕ → List ℕ) (l : List ℕ) (hi : i < n) :
    adjTotal (Function.update adj i l) n + (adj i).length = adjTotal adj n + l.length := by
  unfold adjTotal
  have h1 : ∀ x ∈ Finset.range n, (Function.update adj i l x).length =
      Function.update (fun v => (adj v).length) i l.length x := by
    intro x _
    simp only [Function.update_apply]
    split <;> rfl
  rw [Finset.sum_congr rfl h1, Finset.sum_update_of_mem (Finset.mem_range.mpr hi),
    Finset.sdiff_singleton_eq_erase]
  have h2 : (adj i).length + ∑ x ∈ (Finset.range n).erase i, (adj x).length =
      ∑ x ∈ Finset.range n, (adj x).length :=
    Finset.add_sum_erase (Finset.range n) (fun v => (adj v).length)
      (Finset.mem_range.mpr hi)
  omega

theorem buildAdjStep_count (adj : ℕ → List ℕ) (e : ℕ × ℕ) (v w : ℕ) :
    (adj v).count w ≤ ((buildAdjStep adj e) v).count w := by
  simp only [buildAdjStep, Function.update_apply]
  split_ifs with h1 h2 h2 <;> simp_all [List.count_append] <;> omega

theorem buildAdjStep_count_lt (adj : ℕ → List ℕ) (e : ℕ × ℕ) (v w : ℕ)
    (h : (adj v).count w < ((buildAdjStep adj e) v).count w) :
    (v = e.1 ∧ w = e.2) ∨ (v = e.2 ∧ w = e.1) := by
  by_contra hcon
  push_neg at hcon
  simp only [buildAdjStep, Function.update_apply] at h
  split_ifs at h with h1 h2 h2 <;> simp_all [List.count_append, List.count_cons] <;> omega

theorem buildAdjStep_mem_self (adj : ℕ → List ℕ) (e : ℕ × ℕ) :
    e.2 ∈ (buildAdjStep adj e) e.1 ∧ e.1 ∈ (buildAdjStep adj e) e.2 := by
  by_cases h : e.1 = e.2
  · simp [buildAdjStep, Function.update_apply, h]
  · constructor
    · simp [buildAdjStep, Function.update_apply, h, Ne.symm h]
    · simp [buildAdjStep, Function.update_apply]

theorem buildAdjStep_total {n : ℕ} (adj : ℕ → List ℕ) (e : ℕ × ℕ)
    (h1 : e.1 < n) (h2 : e.2 < n) :
    adjTotal (buildAdjStep adj e) n = adjTotal adj n + 2 := by
  simp only [buildAdjStep]
  have k2 := adjTotal_update (Function.update adj e.1 (adj e.1 ++ [e.2]))
      ((Function.update adj e.1 (adj e.1 ++ [e.2]) e.2) ++ [e.1]) h2
  have k1 := adjTotal_update adj (adj e.1 ++ [e.2]) h1
  simp only [List.length_append, List.length_cons, List.length_nil] at k1 k2
  omega

theorem buildAdj_fold_count (E : List (ℕ × ℕ)) :
    ∀ (adj : ℕ → List ℕ) (v w : ℕ),
      (adj v).count w ≤ ((E.foldl buildAdjStep adj) v).count w := by
  induction E with
  | nil => intro adj v w; exact le_refl _
  | cons e E ih =>
    intro adj v w
    exact le_trans (buildAdjStep_count adj e v w) (ih (buildAdjStep adj e) v w)

theorem buildAdj_fold_count_lt (E : List (ℕ × ℕ)) :
    ∀ (adj : ℕ → List ℕ) (v w : ℕ),
      (adj v).count w < ((E.foldl buildAdjStep adj) v).count w →
      (v, w) ∈ E ∨ (w, v) ∈ E := by
  induction E with
  | nil => intro adj v w h; exact absurd h (lt_irrefl _)
  | cons e E ih =>
    intro adj v w h
    by_cases hstep : (adj v).count w < ((buildAdjStep adj e) v).count w
    · rcases buildAdjStep_count_lt adj e v w hstep with ⟨rfl, rfl⟩ | ⟨rfl, rfl⟩
      · exact Or.inl (List.mem_cons_self _ _)
      · exact Or.inr (List.mem_cons_self _ _)
    · have hlt : ((buildAdjStep adj e) v).count w <
          ((E.foldl buildAdjStep (buildAdjStep adj e)) v).count w := by
        have := buildAdjStep_count adj e v w
        simp only [List.foldl_cons] at h
        omega
      rcases ih (buildAdjStep adj e) v w hlt with hm | hm
      · exact Or.inl (List.mem_cons_of_mem _ hm)
      · exact Or.inr (List.mem_cons_of_mem _ hm)

theorem buildAdj_mem_of_edge (E : List (ℕ × ℕ)) :
    ∀ (adj : ℕ → List ℕ) (a b : ℕ), (a, b) ∈ E →
      b ∈ (E.foldl buildAdjStep adj) a ∧ a ∈ (E.foldl buildAdjStep adj) b := by
  induction E with
  | nil => intro adj a b h; exact absurd h (List.not_mem_nil _)
  | cons e E ih =>
    intro adj a b h
    rcases List.mem_cons.mp h with rfl | h
    · have hm := buildAdjStep_mem_self adj (a, b)
      simp only [List.foldl_cons]
      constructor
      · rw [← List.count_pos_iff]
        exact lt_of_lt_of_le (List.count_pos_iff.mpr hm.1)
          (buildAdj_fold_count E (buildAdjStep adj (a, b)) a b)
      · rw [← List.count_pos_iff]
        exact lt_of_lt_of_le (List.count_pos_iff.mpr hm.2)
          (buildAdj_fold_count E (buildAdjStep adj (a, b)) b a)
    · simp only [List.foldl_cons]
      exact ih (buildAdjStep adj e) a b h

theorem buildAdj_fold_total {n : ℕ} (E : List (ℕ × ℕ))
    (hE : ∀ e ∈ E, e.1 < n ∧ e.2 < n) :
    ∀ adj : ℕ → List ℕ,
      adjTotal (E.foldl buildAdjStep adj) n = adjTotal adj n + 2 * E.length := by
  induction E with
  | nil => intro adj; simp
  | cons e E ih =>
    intro adj
    have he := hE e (List.mem_cons_self _ _)
    have ih2 := ih (fun x hx => hE x (List.mem_cons_of_mem _ hx)) (buildAdjStep adj e)
    simp only [List.foldl_cons, List.length_cons]
    rw [ih2, buildAdjStep_total adj e he.1 he.2]
    ring

theorem buildAdj_count (E : List (ℕ × ℕ)) (v w : ℕ) :
    0 < (buildAdj E v).count w → (v, w) ∈ E ∨ (w, v) ∈ E := by
  intro h
  exact buildAdj_fold_count_lt E (fun _ => []) v w (by simpa using h)

/-! ## The Hierholzer stack loop visits everything it can reach -/

theorem hierholzerLoop_spec (adj0 : ℕ → List ℕ) (n : ℕ)
    (hsup : ∀ v w, w ∈ adj0 v → v < n ∧ w < n) (fuel : ℕ) :
    ∀ (adj : ℕ → List ℕ) (stack acc : List ℕ),
      (∀ v w, (adj v).count w ≤ (adj0 v).count w) →
      (∀ v w, (adj v).count w < (adj0 v).count w →
        (v ∈ stack ∨ v ∈ acc) ∧ (w ∈ stack ∨ w ∈ acc)) →
      (∀ v ∈ acc, adj v = []) →
      (∀ v, v ∈ stack ∨ v ∈ acc → v < n) →
      (stack = [] → acc.headD 0 = 0) →
      (stack ≠ [] → stack.getLastD 0 = 0) →
      2 * adjTotal adj n + stack.length ≤ fuel →
      (∀ v, v ∈ stack ∨ v ∈ acc → v ∈ hierholzerLoop adj stack acc fuel) ∧
      (∀ v ∈ hierholzerLoop adj stack acc fuel, v < n) ∧
      (∀ v ∈ hierholzerLoop adj stack acc fuel, ∀ w,
        0 < (adj0 v).count w → w ∈ hierholzerLoop adj stack acc fuel) ∧
      (hierholzerLoop adj stack acc fuel).headD 0 = 0 := by
  induction fuel with
  | zero =>
    intro adj stack acc hH1 hH2 hH3 hB hHd hBt hfuel
    have hst : stack = [] := by
      cases stack with
      | nil => rfl
      | cons a l => exfalso; rw [List.length_cons] at hfuel; omega
    subst hst
    rw [hierholzerLoop]
    refine ⟨?_, ?_, ?_, hHd rfl⟩
    · intro v hv
      rcases hv with hv | hv
      · exact absurd hv (List.not_mem_nil _)
      · exact hv
    · intro v hv
      exact hB v (Or.inr hv)
    · intro v hv w hw
      have h0 : (adj v).count w = 0 := by rw [hH3 v hv]; rfl
      rcases (hH2 v w (by omega)).2 with h | h
      · exact absurd h (List.not_mem_nil _)
      · exact h
  | succ fuel ih =>
    intro adj stack acc hH1 hH2 hH3 hB hHd hBt hfuel
    cases stack with
    | nil =>
      rw [hierholzerLoop]
      refine ⟨?_, ?_, ?_, hHd rfl⟩
      · intro v hv
        rcases hv with hv | hv
        · exact absurd hv (List.not_mem_nil _)
        · exact hv
      · intro v hv
        exact hB v (Or.inr hv)
      · intro v hv w hw
        have h0 : (adj v).count w = 0 := by rw [hH3 v hv]; rfl
        rcases (hH2 v w (by omega)).2 with h | h
        · exact absurd h (List.not_mem_nil _)
        · exact h
    | cons curr rest =>
      have hcurrlt : curr < n := hB curr (Or.inl (List.mem_cons_self _ _))
      cases hl : (adj curr).getLast? with
      | some nxt =>
        have hne : adj curr ≠ [] := by
          intro h
          rw [h] at hl
          simp at hl
        have heq : hierholzerLoop adj (curr :: rest) acc (fuel + 1) =
            hierholzerLoop
              (Function.update (Function.update adj curr (adj curr).dropLast) nxt
                (((Function.update adj curr (adj curr).dropLast) nxt).erase curr))
              (nxt :: curr :: rest) acc fuel := by
          rw [hierholzerLoop, hl]
        set adj2 := Function.update adj curr (adj curr).dropLast with hadj2
        set adj3 := Function.update adj2 nxt ((adj2 nxt).erase curr) with hadj3
        have hsplit : (adj curr).dropLast ++ [nxt] = adj curr :=
          List.dropLast_append_getLast? nxt hl
        have hcount_curr : ∀ w, (adj curr).count w =
            ((adj curr).dropLast).count w + if w = nxt then 1 else 0 := by
          intro w
          conv_lhs => rw [← hsplit]
          rw [List.count_append]
          simp only [List.count_cons, List.count_nil, beq_iff_eq, Nat.zero_add]
          split_ifs with h1 h2 h2 <;> first
            | rfl
            | exact absurd h1.symm h2
            | exact absurd h2.symm h1
        have herase : ∀ (l : List ℕ) (a w : ℕ),
            (l.erase a).count w = l.count w - if a = w then 1 else 0 := by
          intro l a w
          rw [List.count_erase]
          simp [beq_iff_eq]
        have hcnt2 : ∀ x w, (adj2 x).count w ≤ (adj x).count w := by
          intro x w
          rw [hadj2]
          simp only [Function.update_apply]
          split_ifs with h
          · subst h
            exact (List.dropLast_sublist _).count_le w
          · exact le_refl _
        have hcnt3 : ∀ x w, (adj3 x).count w ≤ (adj x).count w := by
          intro x w
          rw [hadj3]
          simp only [Function.update_apply]
          split_ifs with h
          · subst h
            exact le_trans ((List.erase_sublist _ _).count_le w) (hcnt2 x w)
          · exact hcnt2 x w
        have hloc : ∀ x w, (adj3 x).count w < (adj x).count w →
            (x = curr ∨ x = nxt) ∧ (w = curr ∨ w = nxt) := by
          intro x w hlt
          rw [hadj3, Function.update_apply] at hlt
          by_cases hx1 : x = nxt
          · rw [if_pos hx1, herase, hadj2, Function.update_apply, hx1] at hlt
            by_cases hx2 : nxt = curr
            · rw [if_pos hx2, hx2] at hlt
              have hcc := hcount_curr w
              refine ⟨Or.inr hx1, ?_⟩
              by_cases hw1 : w = curr
              · exact Or.inl hw1
              · by_cases hw2 : w = nxt
                · exact Or.inr hw2
                · rw [if_neg hw2] at hcc
                  rw [if_neg (fun h => hw1 h.symm)] at hlt
                  omega
            · rw [if_neg hx2] at hlt
              refine ⟨Or.inr hx1, ?_⟩
              by_cases hw1 : w = curr
              · exact Or.inl hw1
              · rw [if_neg (fun h => hw1 h.symm)] at hlt
                omega
          · rw [if_neg hx1, hadj2, Function.update_apply] at hlt
            by_cases hx2 : x = curr
            · rw [if_pos hx2, hx2] at hlt
              have hcc := hcount_curr w
              refine ⟨Or.inl hx2, ?_⟩
              by_cases hw2 : w = nxt
              · exact Or.inr hw2
              · rw [if_neg hw2] at hcc
                omega
            · rw [if_neg hx2] at hlt
              exact absurd hlt (lt_irrefl _)
        have hnxtmem : nxt ∈ adj curr := List.mem_of_getLast?_eq_some hl
        have hnxtlt : nxt < n := by
          have h1 : 0 < (adj curr).count nxt := List.count_pos_iff.mpr hnxtmem
          have h2 : 0 < (adj0 curr).count nxt := lt_of_lt_of_le h1 (hH1 curr nxt)
          exact (hsup curr nxt (List.count_pos_iff.mp h2)).2
        have hH1' : ∀ v w, (adj3 v).count w ≤ (adj0 v).count w :=
          fun v w => le_trans (hcnt3 v w) (hH1 v w)
        have hH2' : ∀ v w, (adj3 v).count w < (adj0 v).count w →
            (v ∈ nxt :: curr :: rest ∨ v ∈ acc) ∧
            (w ∈ nxt :: curr :: rest ∨ w ∈ acc) := by
          intro x w hlt
          by_cases hdrop : (adj3 x).count w < (adj x).count w
          · obtain ⟨hx, hw⟩ := hloc x w hdrop
            constructor
            · rcases hx with rfl | rfl
              · exact Or.inl (List.mem_cons_of_mem _ (List.mem_cons_self _ _))
              · exact Or.inl (List.mem_cons_self _ _)
            · rcases hw with rfl | rfl
              · exact Or.inl (List.mem_cons_of_mem _ (List.mem_cons_self _ _))
              · exact Or.inl (List.mem_cons_self _ _)
          · have hlt2 : (adj x).count w < (adj0 x).count w := by
              have := hcnt3 x w
              omega
            obtain ⟨h1, h2⟩ := hH2 x w hlt2
            constructor
            · rcases h1 with h1 | h1
              · exact Or.inl (List.mem_cons_of_mem _ h1)
              · exact Or.inr h1
            · rcases h2 with h2 | h2
              · exact Or.inl (List.mem_cons_of_mem _ h2)
              · exact Or.inr h2
        have hH3' : ∀ v ∈ acc, adj3 v = [] := by
          intro v hv
          have hvadj : adj v = [] := hH3 v hv
          have hvC : v ≠ curr := fun h => hne (h ▸ hvadj)
          rw [hadj3]
          simp only [Function.update_apply]
          split_ifs with h1
          · rw [hadj2]
            simp only [Function.update_apply]
            rw [if_neg (h1 ▸ hvC), ← h1, hvadj]
            rfl
          · rw [hadj2]
            simp only [Function.update_apply]
            rw [if_neg hvC]
            exact hvadj
        have hB' : ∀ v, v ∈ nxt :: curr :: rest ∨ v ∈ acc → v < n := by
          intro v hv
          rcases hv with hv | hv
          · rcases List.mem_cons.mp hv with rfl | hv
            · exact hnxtlt
            · exact hB v (Or.inl hv)
          · exact hB v (Or.inr hv)
        have hHd' : nxt :: curr :: rest = [] → acc.headD 0 = 0 :=
          fun h => absurd h (List.cons_ne_nil _ _)
        have hBt' : nxt :: curr :: rest ≠ [] →
            (nxt :: curr :: rest).getLastD 0 = 0 := by
          intro _
          rw [List.getLastD_cons, List.getLastD_cons]
          have := hBt (List.cons_ne_nil _ _)
          rwa [List.getLastD_cons] at this
        have hfuel' : 2 * adjTotal adj3 n + (nxt :: curr :: rest).length ≤ fuel := by
          have k1 := adjTotal_update adj ((adj curr).dropLast) hcurrlt
          rw [← hadj2] at k1
          have k2 := adjTotal_update adj2 ((adj2 nxt).erase curr) hnxtlt
          rw [← hadj3] at k2
          have k3 : ((adj2 nxt).erase curr).length ≤ (adj2 nxt).length :=
            List.length_erase_le _ _
          have k4 : ((adj curr).dropLast).length = (adj curr).length - 1 :=
            List.length_dropLast _
          have k5 : 0 < (adj curr).length := List.length_pos.mpr hne
          simp only [List.length_cons] at hfuel ⊢
          omega
        obtain ⟨c1, c2, c3, c4⟩ := ih adj3 (nxt :: curr :: rest) acc
          hH1' hH2' hH3' hB' hHd' hBt' hfuel'
        rw [heq]
        refine ⟨?_, c2, c3, c4⟩
        intro v hv
        apply c1
        rcases hv with hv | hv
        · exact Or.inl (List.mem_cons_of_mem _ hv)
        · exact Or.inr hv
      | none =>
        have hadjcurr : adj curr = [] := List.getLast?_eq_none_iff.mp hl
        have heq : hierholzerLoop adj (curr :: rest) acc (fuel + 1) =
            hierholzerLoop adj rest (curr :: acc) fuel := by
          rw [hierholzerLoop, hl]
        have hshift : ∀ z, (z ∈ curr :: rest ∨ z ∈ acc) →
            (z ∈ rest ∨ z ∈ curr :: acc) := by
          intro z hz
          rcases hz with hz | hz
          · rcases List.mem_cons.mp hz with rfl | hz
            · exact Or.inr (List.mem_cons_self _ _)
            · exact Or.inl hz
          · exact Or.inr (List.mem_cons_of_mem _ hz)
        have hshift2 : ∀ z, (z ∈ rest ∨ z ∈ curr :: acc) →
            (z ∈ curr :: rest ∨ z ∈ acc) := by
          intro z hz
          rcases hz with hz | hz
          · exact Or.inl (List.mem_cons_of_mem _ hz)
          · rcases List.mem_cons.mp hz with rfl | hz
            · exact Or.inl (List.mem_cons_self _ _)
            · exact Or.inr hz
        have hH2' : ∀ v w, (adj v).count w < (adj0 v).count w →
            (v ∈ rest ∨ v ∈ curr :: acc) ∧ (w ∈ rest ∨ w ∈ curr :: acc) := by
          intro v w hlt
          obtain ⟨h1, h2⟩ := hH2 v w hlt
          exact ⟨hshift v h1, hshift w h2⟩
        have hH3' : ∀ v ∈ curr :: acc, adj v = [] := by
          intro v hv
          rcases List.mem_cons.mp hv with rfl | hv
          · exact hadjcurr
          · exact hH3 v hv
        have hB' : ∀ v, v ∈ rest ∨ v ∈ curr :: acc → v < n :=
          fun v hv => hB v (hshift2 v hv)
        have hHd' : rest = [] → (curr :: acc).headD 0 = 0 := by
          intro hrest
          have := hBt (List.cons_ne_nil _ _)
          rw [List.getLastD_cons, hrest] at this
          simpa using this
        have hBt' : rest ≠ [] → rest.getLastD 0 = 0 := by
          intro hrest
          have := hBt (List.cons_ne_nil _ _)
          rw [List.getLastD_cons] at this
          obtain ⟨x, hx⟩ : ∃ x, rest.getLast? = some x := by
            cases hre : rest.getLast? with
            | none => exact absurd (List.getLast?_eq_none_iff.mp hre) hrest
            | some x => exact ⟨x, rfl⟩
          rw [List.getLastD_eq_getLast?, hx] at this ⊢
          simpa using this
        have hfuel' : 2 * adjTotal adj n + rest.length ≤ fuel := by
          simp only [List.length_cons] at hfuel
          omega
        obtain ⟨c1, c2, c3, c4⟩ := ih adj rest (curr :: acc)
          hH1 hH2' hH3' hB' hHd' hBt' hfuel'
        rw [heq]
        refine ⟨?_, c2, c3, c4⟩
        intro v hv
        exact c1 v (hshift v hv)

/-! ## Matching and shortcut lemmas -/

theorem allPairs_mem : ∀ (l : List ℕ) (x y : ℕ), (x, y) ∈ allPairs l → x ∈ l ∧ y ∈ l := by
  intro l
  induction l with
  | nil => intro x y h; exact absurd h (List.not_mem_nil _)
  | cons a t ih =>
    intro x y h
    rcases List.mem_append.mp h with h | h
    · obtain ⟨z, hz, hzz⟩ := List.mem_map.mp h
      cases hzz
      exact ⟨List.mem_cons_self _ _, List.mem_cons_of_mem _ hz⟩
    · obtain ⟨hx, hy⟩ := ih x y h
      exact ⟨List.mem_cons_of_mem _ hx, List.mem_cons_of_mem _ hy⟩

theorem matchingLoop_bound (points : List Point) {n : ℕ} :
    ∀ (fuel : ℕ) (avail : List ℕ) (acc : List (ℕ × ℕ)),
      (∀ v ∈ avail, v < n) → (∀ pr ∈ acc, pr.1 < n ∧ pr.2 < n) →
      ∀ pr ∈ matchingLoop points fuel avail acc, pr.1 < n ∧ pr.2 < n := by
  intro fuel
  induction fuel with
  | zero => intro avail acc _ hacc pr hpr; exact hacc pr hpr
  | succ fuel ih =>
    intro avail acc havail hacc pr hpr
    rw [matchingLoop] at hpr
    split at hpr
    · cases hsel : foldMin ((allPairs avail).map fun pr =>
          (pr, distance (pt points pr.1) (pt points pr.2))) with
      | some c =>
        rw [hsel] at hpr
        have hc : c.1.1 < n ∧ c.1.2 < n := by
          obtain ⟨hmem, -⟩ := foldMin_spec hsel
          obtain ⟨z, hz, hzz⟩ := List.mem_map.mp hmem
          obtain ⟨hz1, hz2⟩ := allPairs_mem avail z.1 z.2 hz
          cases hzz
          exact ⟨havail _ hz1, havail _ hz2⟩
        refine ih _ _ ?_ ?_ pr hpr
        · intro v hv
          exact havail v (List.mem_of_mem_erase (List.mem_of_mem_erase hv))
        · intro q hq
          rcases List.mem_append.mp hq with hq | hq
          · exact hacc q hq
          · rw [List.mem_singleton.mp hq]
            exact hc
      | none =>
        rw [hsel] at hpr
        exact hacc pr hpr
    · exact hacc pr hpr

theorem shortcutTour_mem : ∀ (l : List ℕ) (visited : Finset ℕ) (j : ℕ),
    j ∈ shortcutTour visited l ↔ j ∈ l ∧ j ∉ visited := by
  intro l
  induction l with
  | nil => intro visited j; simp [shortcutTour]
  | cons v rest ih =>
    intro visited j
    rw [shortcutTour]
    split_ifs with hv
    · rw [ih]
      constructor
      · rintro ⟨h1, h2⟩
        exact ⟨List.mem_cons_of_mem _ h1, h2⟩
      · rintro ⟨h1, h2⟩
        rcases List.mem_cons.mp h1 with rfl | h1
        · exact absurd hv h2
        · exact ⟨h1, h2⟩
    · rw [List.mem_cons, ih]
      constructor
      · rintro (rfl | ⟨h1, h2⟩)
        · exact ⟨List.mem_cons_self _ _, hv⟩
        · exact ⟨List.mem_cons_of_mem _ h1,
            fun hc => h2 (Finset.mem_insert_of_mem hc)⟩
      · rintro ⟨h1, h2⟩
        rcases List.mem_cons.mp h1 with rfl | h1
        · exact Or.inl rfl
        · by_cases hjv : j = v
          · exact Or.inl hjv
          · exact Or.inr ⟨h1, fun hc => by
              rcases Finset.mem_insert.mp hc with h | h
              · exact hjv h
              · exact h2 h⟩

theorem shortcutTour_nodup : ∀ (l : List ℕ) (visited : Finset ℕ),
    (shortcutTour visited l).Nodup := by
  intro l
  induction l with
  | nil => intro visited; simp [shortcutTour]
  | cons v rest ih =>
    intro visited
    rw [shortcutTour]
    split_ifs with hv
    · exact ih visited
    · rw [List.nodup_cons]
      refine ⟨fun hc => ?_, ih _⟩
      exact ((shortcutTour_mem rest _ v).mp hc).2 (Finset.mem_insert_self _ _)

theorem shortcutTour_headD (l : List ℕ) (visited : Finset ℕ) (hne : l ≠ [])
    (hnv : l.headD 0 ∉ visited) : (shortcutTour visited l).headD 0 = l.headD 0 := by
  cases l with
  | nil => exact absurd rfl hne
  | cons v rest =>
    rw [List.headD_cons] at hnv
    rw [shortcutTour, if_neg hnv, List.headD_cons, List.headD_cons]

/-- With a connected, vertex-bounded edge list, `findEulerianTour` visits
exactly the vertices below `n`, starting at 0, and its shortcut is a
permutation of `0..n-1` headed by 0. -/
theorem eulerTour_covering (E : List (ℕ × ℕ)) (n : ℕ)
    (hE : ∀ e ∈ E, e.1 < n ∧ e.2 < n)
    (hreach : ∀ v, v < n → EdgeReach E v)
    (hn : 0 < n) :
    (findEulerianTour E).headD 0 = 0 ∧
    (shortcutTour ∅ (findEulerianTour E)).Perm (List.range n) ∧
    (shortcutTour ∅ (findEulerianTour E)).headD 0 = 0 := by
  have hsup : ∀ v w, w ∈ buildAdj E v → v < n ∧ w < n := by
    intro v w hw
    rcases buildAdj_count E v w (List.count_pos_iff.mpr hw) with hm | hm
    · exact ⟨(hE _ hm).1, (hE _ hm).2⟩
    · exact ⟨(hE _ hm).2, (hE _ hm).1⟩
  have htotal : adjTotal (buildAdj E) n = 2 * E.length := by
    have h1 := buildAdj_fold_total E hE (fun _ => [])
    have h2 : adjTotal (fun _ : ℕ => ([] : List ℕ)) n = 0 := by
      unfold adjTotal
      simp
    rw [buildAdj, h1, h2, Nat.zero_add]
  obtain ⟨c1, c2, c3, c4⟩ := hierholzerLoop_spec (buildAdj E) n hsup
    (4 * E.length + 2) (buildAdj E) [0] []
    (fun v w => le_refl _)
    (fun v w h => absurd h (lt_irrefl _))
    (fun v hv => absurd hv (List.not_mem_nil _))
    (by
      intro v hv
      rcases hv with hv | hv
      · rw [List.mem_singleton.mp hv]; exact hn
      · exact absurd hv (List.not_mem_nil _))
    (fun h => absurd h (List.cons_ne_nil _ _))
    (fun _ => rfl)
    (by rw [htotal, List.length_singleton]; omega)
  have htour : findEulerianTour E =
      hierholzerLoop (buildAdj E) [0] [] (4 * E.length + 2) := rfl
  have h0mem : 0 ∈ findEulerianTour E := by
    rw [htour]
    exact c1 0 (Or.inl (List.mem_singleton.mpr rfl))
  have hcover : ∀ v, EdgeReach E v → v ∈ findEulerianTour E := by
    intro v hv
    induction hv with
    | zero => exact h0mem
    | step hu he ih =>
      rename_i u2 v2
      have hv2 : v2 ∈ buildAdj E u2 := by
        rcases he with he | he
        · exact (buildAdj_mem_of_edge E (fun _ => []) u2 v2 he).1
        · exact (buildAdj_mem_of_edge E (fun _ => []) v2 u2 he).2
      rw [htour]
      exact c3 u2 (htour ▸ ih) v2 (List.count_pos_iff.mpr hv2)
  have htourmem : ∀ v, v ∈ findEulerianTour E ↔ v < n := by
    intro v
    constructor
    · intro hv
      rw [htour] at hv
      exact c2 v hv
    · intro hv
      exact hcover v (hreach v hv)
  have hhead : (findEulerianTour E).headD 0 = 0 := by rw [htour]; exact c4
  refine ⟨hhead, ?_, ?_⟩
  · refine perm_range_of_nodup_toFinset (shortcutTour_nodup _ _) ?_
    ext i
    rw [List.mem_toFinset, shortcutTour_mem, Finset.mem_range]
    simp [htourmem i]
  · rw [shortcutTour_headD _ _ (List.ne_nil_of_mem h0mem) (by simp), hhead]

/-- Index-tour description of the Christofides result: for at least 3 points
its path is an index permutation starting at 0 followed by the return to 0,
and its distance is that closed index tour's cost. -/
theorem solveTSPChristofides_idx_spec (points : List Point) (h3 : 3 ≤ points.length) :
    ∃ ord : List ℕ,
      ord.Perm (List.range points.length) ∧ ord.headD 0 = 0 ∧
      (solveTSPChristofides points).path = (ord ++ [0]).map (pt points) ∧
      (solveTSPChristofides points).distance = costIdx points (ord ++ [0]) := by
  have hn2 : ¬ points.length ≤ 2 := by omega
  have hEnds : ∀ e ∈ primMST points ++ minimumWeightPerfectMatching points
      ((List.range points.length).filter fun i => degreeIn (primMST points) i % 2 = 1),
      e.1 < points.length ∧ e.2 < points.length := by
    intro e he
    rcases List.mem_append.mp he with he | he
    · exact primMST_endpoint_bound points e he
    · rw [minimumWeightPerfectMatching] at he
      refine matchingLoop_bound points _ _ _ ?_ ?_ e he
      · intro v hv
        exact List.mem_range.mp (List.mem_of_mem_filter hv)
      · intro pr hpr
        exact absurd hpr (List.not_mem_nil _)
  have hreach : ∀ v, v < points.length →
      EdgeReach (primMST points ++ minimumWeightPerfectMatching points
        ((List.range points.length).filter fun i =>
          degreeIn (primMST points) i % 2 = 1)) v := by
    intro v hv
    exact EdgeReach_mono (fun e he => List.mem_append_left _ he) v
      (primMST_reach points v hv)
  obtain ⟨hhead, hperm, hshead⟩ :=
    eulerTour_covering
      (primMST points ++ minimumWeightPerfectMatching points
        ((List.range points.length).filter fun i =>
          degreeIn (primMST points) i % 2 = 1))
      points.length hEnds hreach (by omega)
  refine ⟨_, hperm, hshead, ?_, ?_⟩
  · simp only [solveTSPChristofides]
    rw [if_neg hn2]
    dsimp only
    rw [hhead, List.map_append]
    rfl
  · simp only [solveTSPChristofides]
    rw [if_neg hn2]
    dsimp only
    rw [hhead, costIdx, List.map_append]
    rfl

/-! ## Claim C1: tour closure -/

theorem front_of_ord (points : List Point) (hlen : 0 < points.length)
    (ord : List ℕ) (hperm : ord.Perm (List.range points.length))
    (hhead : ord.headD 0 = 0) :
    ord ≠ [] ∧
    (ord.map (pt points)).Perm points ∧
    (ord.map (pt points)).headD defaultPoint = points.headD defaultPoint := by
  have hne : ord ≠ [] := by
    rw [← List.length_pos, hperm.length_eq, List.length_range]
    exact hlen
  refine ⟨hne, ?_, ?_⟩
  · have h := hperm.map (pt points)
    rwa [map_pt_range] at h
  · cases ord with
    | nil => exact absurd rfl hne
    | cons a t =>
      rw [List.headD_cons] at hhead
      rw [List.map_cons, List.headD_cons, hhead, ← getD_zero_eq_headD]
      rfl

/-- C1 (amended: the closure property needs at least 3 points; for 2 points
the 2-opt and Christofides solvers return the open input path).  For every
point list with `3 ≤ n` and every selector other than `astar`, the
dispatched result's path is a permutation of the input starting at the
first input point, followed by a repetition of that first point. -/
theorem tsp_closure (points : List Point) (alg : AlgorithmType) (fuel : ℕ)
    (r : RouteResult) (h3 : 3 ≤ points.length) (halg : alg ≠ AlgorithmType.astar)
    (hr : solveTSP points alg fuel = some r) :
    ∃ front : List Point,
      front.Perm points ∧
      front.headD defaultPoint = points.headD defaultPoint ∧
      r.path = front ++ [points.headD defaultPoint] := by
  have hlen : 0 < points.length := by omega
  cases alg with
  | astar => exact absurd rfl halg
  | exactDp =>
    by_cases h20 : points.length ≤ 20
    · rw [solveTSP, if_pos h20] at hr
      obtain ⟨ord, hperm, hhead, hne, hpath, hdist, hopt⟩ :=
        solveTSPExactDP_spec points (by omega)
      obtain ⟨hne2, hfperm, hfhead⟩ := front_of_ord points hlen ord hperm hhead
      refine ⟨ord.map (pt points), hfperm, hfhead, ?_⟩
      rw [← Option.some_inj.mp hr, hpath, List.map_append]
      rw [← getD_zero_eq_headD]
      rfl
    · rw [solveTSP, if_neg h20] at hr
      obtain ⟨ord, hperm, hhead, hne, hpath, hdist⟩ :=
        solveTSPNearestNeighbor_spec points (by omega)
      obtain ⟨hne2, hfperm, hfhead⟩ := front_of_ord points hlen ord hperm hhead
      refine ⟨ord.map (pt points), hfperm, hfhead, ?_⟩
      have hrp : r.path = (solveTSPNearestNeighbor points).path := by
        rw [← Option.some_inj.mp hr]
      rw [hrp, hpath, ← getD_zero_eq_headD]
      rfl
  | nearestNeighbor =>
    rw [solveTSP] at hr
    obtain ⟨ord, hperm, hhead, hne, hpath, hdist⟩ :=
      solveTSPNearestNeighbor_spec points (by omega)
    obtain ⟨hne2, hfperm, hfhead⟩ := front_of_ord points hlen ord hperm hhead
    refine ⟨ord.map (pt points), hfperm, hfhead, ?_⟩
    rw [← Option.some_inj.mp hr, hpath, ← getD_zero_eq_headD]
    rfl
  | twoOpt =>
    rw [solveTSP] at hr
    obtain ⟨tour, hperm, hhead, hne, hpath, hdist, hle⟩ :=
      solveTSP2Opt_spec points h3
    refine ⟨tour, hperm, ?_, ?_⟩
    · rw [hhead, ← getD_zero_eq_headD]
      rfl
    · rw [← Option.some_inj.mp hr, hpath, ← getD_zero_eq_headD]
      rfl
  | christofides =>
    rw [solveTSP] at hr
    obtain ⟨ord, hperm, hhead, hpath, hdist⟩ :=
      solveTSPChristofides_idx_spec points h3
    obtain ⟨hne2, hfperm, hfhead⟩ := front_of_ord points hlen ord hperm hhead
    refine ⟨ord.map (pt points), hfperm, hfhead, ?_⟩
    rw [← Option.some_inj.mp hr, hpath, List.map_append, ← getD_zero_eq_headD]
    rfl

/-- Witness for C1 at a concrete 3-point input with the
nearest-neighbor selector. -/
theorem tsp_closure_witness :
    3 ≤ ([{ id := "a", x := 0, y := 0, name := "a" },
          { id := "b", x := 1, y := 0, name := "b" },
          { id := "c", x := 0, y := 1, name := "c" }] : List Point).length ∧
    AlgorithmType.nearestNeighbor ≠ AlgorithmType.astar ∧
    ∃ front : List Point,
      front.Perm [{ id := "a", x := 0, y := 0, name := "a" },
          { id := "b", x := 1, y := 0, name := "b" },
          { id := "c", x := 0, y := 1, name := "c" }] ∧
      front.headD defaultPoint =
        ([{ id := "a", x := 0, y := 0, name := "a" },
          { id := "b", x := 1, y := 0, name := "b" },
          { id := "c", x := 0, y := 1, name := "c" }] : List Point).headD defaultPoint ∧
      (solveTSPNearestNeighbor
        [{ id := "a", x := 0, y := 0, name := "a" },
          { id := "b", x := 1, y := 0, name := "b" },
          { id := "c", x := 0, y := 1, name := "c" }]).path =
        front ++ [([{ id := "a", x := 0, y := 0, name := "a" },
          { id := "b", x := 1, y := 0, name := "b" },
          { id := "c", x := 0, y := 1, name := "c" }] : List Point).headD defaultPoint] :=
  ⟨by simp, by decide,
    tsp_closure _ AlgorithmType.nearestNeighbor 0 _ (by simp) (by decide) rfl⟩

/-- C1 counterexample: on a two-point input the 2-opt selector returns the
open path `[P0, P1]`, whose first and last entries differ, so closure fails
without the `3 ≤ n` restriction. -/
theorem twoOpt_not_closed_two_points :
    ∃ (points : List Point) (r : RouteResult),
      solveTSP points AlgorithmType.twoOpt 0 = some r ∧
      r.path.headD defaultPoint ≠ r.path.getLastD defaultPoint := by
  refine ⟨[{ id := "a", x := 0, y := 0, name := "a" },
           { id := "b", x := 1, y := 0, name := "b" }],
          solveTSP2Opt [{ id := "a", x := 0, y := 0, name := "a" },
           { id := "b", x := 1, y := 0, name := "b" }], rfl, ?_⟩
  have hp : (solveTSP2Opt [{ id := "a", x := 0, y := 0, name := "a" },
      { id := "b", x := 1, y := 0, name := "b" }]).path =
      [{ id := "a", x := 0, y := 0, name := "a" },
       { id := "b", x := 1, y := 0, name := "b" }] := by
    rw [solveTSP2Opt, if_pos (by simp)]
  rw [hp]
  intro h
  have hx := congrArg Point.x h
  norm_num at hx

/-! ## Claim C2: Held-Karp optimality among the TSP solvers -/

/-- C2 (amended: the comparison holds for `3 ≤ n ≤ 8` and the four TSP
selectors; at `n = 2` the open 2-opt path is shorter than the closed DP
tour, and the `astar` selector can report a shorter total because its
segment searches stop within grid distance 1 of each goal).  For every
point list with `3 ≤ n ≤ 8`, the exact-DP distance is at most the distance
returned by any non-`astar` selector. -/
theorem dp_optimal (points : List Point) (alg : AlgorithmType) (fuel : ℕ)
    (rdp r : RouteResult) (h3 : 3 ≤ points.length) (h8 : points.length ≤ 8)
    (halg : alg ≠ AlgorithmType.astar)
    (hrdp : solveTSP points AlgorithmType.exactDp fuel = some rdp)
    (hr : solveTSP points alg fuel = some r) :
    rdp.distance ≤ r.distance := by
  have h20 : points.length ≤ 20 := by omega
  rw [solveTSP, if_pos h20] at hrdp
  obtain ⟨ord, hperm, hhead, hne, hpath, hdist, hopt⟩ :=
    solveTSPExactDP_spec points (by omega)
  have hrdp2 : rdp = solveTSPExactDP points := (Option.some_inj.mp hrdp).symm
  cases alg with
  | astar => exact absurd rfl halg
  | exactDp =>
    rw [solveTSP, if_pos h20] at hr
    rw [hrdp2, ← Option.some_inj.mp hr]
  | nearestNeighbor =>
    rw [solveTSP] at hr
    obtain ⟨ord2, hperm2, hhead2, hne2, hpath2, hdist2⟩ :=
      solveTSPNearestNeighbor_spec points (by omega)
    rw [hrdp2, ← Option.some_inj.mp hr, hdist2]
    exact hopt ord2 hperm2 hhead2
  | twoOpt =>
    rw [solveTSP] at hr
    obtain ⟨ord2, hperm2, hhead2, hdist2⟩ := solveTSP2Opt_idx_spec points h3
    rw [hrdp2, ← Option.some_inj.mp hr, hdist2]
    exact hopt ord2 hperm2 hhead2
  | christofides =>
    rw [solveTSP] at hr
    obtain ⟨ord2, hperm2, hhead2, hpath2, hdist2⟩ :=
      solveTSPChristofides_idx_spec points h3
    rw [hrdp2, ← Option.some_inj.mp hr, hdist2]
    exact hopt ord2 hperm2 hhead2

/-- Witness for C2 at a concrete 3-point input against the
nearest-neighbor selector. -/
theorem dp_optimal_witness :
    3 ≤ ([{ id := "a", x := 0, y := 0, name := "a" },
          { id := "b", x := 1, y := 0, name := "b" },
          { id := "c", x := 0, y := 1, name := "c" }] : List Point).length ∧
    ([{ id := "a", x := 0, y := 0, name := "a" },
      { id := "b", x := 1, y := 0, name := "b" },
      { id := "c", x := 0, y := 1, name := "c" }] : List Point).length ≤ 8 ∧
    AlgorithmType.nearestNeighbor ≠ AlgorithmType.astar ∧
    (solveTSPExactDP [{ id := "a", x := 0, y := 0, name := "a" },
      { id := "b", x := 1, y := 0, name := "b" },
      { id := "c", x := 0, y := 1, name := "c" }]).distance ≤
    (solveTSPNearestNeighbor [{ id := "a", x := 0, y := 0, name := "a" },
      { id := "b", x := 1, y := 0, name := "b" },
      { id := "c", x := 0, y := 1, name := "c" }]).distance := by
  refine ⟨by simp, by simp, by decide, ?_⟩
  exact dp_optimal [{ id := "a", x := 0, y := 0, name := "a" },
      { id := "b", x := 1, y := 0, name := "b" },
      { id := "c", x := 0, y := 1, name := "c" }]
    AlgorithmType.nearestNeighbor 0 _ _ (by simp) (by simp) (by decide)
    (by rw [solveTSP, if_pos (by simp)]) rfl

/-- C2 counterexample: on the two-point input `[(0,0), (1,0)]` (within the
claimed `n ≤ 8` range) the exact-DP distance is 2 while the 2-opt result's
distance is 1, so the unrestricted claim is false. -/
theorem dp_not_optimal_two_points :
    ∃ (points : List Point) (rdp r2 : RouteResult),
      points.length ≤ 8 ∧
      solveTSP points AlgorithmType.exactDp 0 = some rdp ∧
      solveTSP points AlgorithmType.twoOpt 0 = some r2 ∧
      ¬ rdp.distance ≤ r2.distance := by
  refine ⟨[{ id := "a", x := 0, y := 0, name := "a" },
           { id := "b", x := 1, y := 0, name := "b" }],
          solveTSPExactDP [{ id := "a", x := 0, y := 0, name := "a" },
           { id := "b", x := 1, y := 0, name := "b" }],
          solveTSP2Opt [{ id := "a", x := 0, y := 0, name := "a" },
           { id := "b", x := 1, y := 0, name := "b" }],
          by simp, by rw [solveTSP, if_pos (by simp)], rfl, ?_⟩
  have hone : distance { id := "a", x := 0, y := 0, name := "a" }
      { id := "b", x := 1, y := 0, name := "b" } = 1 := by
    rw [distance]
    norm_num
  have hone2 : distance { id := "b", x := 1, y := 0, name := "b" }
      { id := "a", x := 0, y := 0, name := "a" } = 1 := by
    rw [distance]
    norm_num
  obtain ⟨ord, hperm, hhead, hne, hpath, hdist, hopt⟩ :=
    solveTSPExactDP_spec [{ id := "a", x := 0, y := 0, name := "a" },
      { id := "b", x := 1, y := 0, name := "b" }] (by simp)
  have hord : ord = [0, 1] := by
    have hlen : ord.length = 2 := by
      rw [hperm.length_eq, List.length_range]
      rfl
    cases ord with
    | nil => simp at hlen
    | cons a t =>
      cases t with
      | nil => simp at hlen
      | cons b t2 =>
        cases t2 with
        | cons c t3 => simp at hlen
        | nil =>
          rw [List.headD_cons] at hhead
          subst hhead
          have h1mem : 1 ∈ [0, b] := hperm.mem_iff.mpr (by simp)
          rcases List.mem_cons.mp h1mem with h | h
          · exact absurd h.symm zero_ne_one
          · rw [List.mem_singleton.mp h]
  have hdp : (solveTSPExactDP [{ id := "a", x := 0, y := 0, name := "a" },
      { id := "b", x := 1, y := 0, name := "b" }]).distance = 2 := by
    rw [hdist, hord, costIdx]
    show calculateRouteDistance [{ id := "a", x := 0, y := 0, name := "a" },
      { id := "b", x := 1, y := 0, name := "b" },
      { id := "a", x := 0, y := 0, name := "a" }] = 2
    rw [calculateRouteDistance_cons_cons, hone, calculateRouteDistance_cons_cons,
      hone2, calculateRouteDistance_short (by simp)]
    norm_num
  have h2opt : (solveTSP2Opt [{ id := "a", x := 0, y := 0, name := "a" },
      { id := "b", x := 1, y := 0, name := "b" }]).distance = 1 := by
    rw [solveTSP2Opt, if_pos (by simp)]
    show calculateRouteDistance [{ id := "a", x := 0, y := 0, name := "a" },
      { id := "b", x := 1, y := 0, name := "b" }] = 1
    rw [calculateRouteDistance_cons_cons, hone,
      calculateRouteDistance_short (by simp)]
    norm_num
  rw [hdp, h2opt]
  norm_num

/-! ## Claim C8: non-negativity of results -/

theorem solveTSPNearestNeighbor_timeMs (points : List Point) :
    (solveTSPNearestNeighbor points).timeMs = 0 := by
  rw [solveTSPNearestNeighbor]
  split_ifs <;> rfl

theorem solveTSPExactDP_timeMs (points : List Point) :
    (solveTSPExactDP points).timeMs = 0 := by
  rw [solveTSPExactDP]
  split_ifs
  · rfl
  · cases dpFinal points <;> rfl

theorem solveTSP2Opt_timeMs (points : List Point) :
    (solveTSP2Opt points).timeMs = 0 := by
  rw [solveTSP2Opt]
  split_ifs <;> rfl

theorem solveTSPChristofides_timeMs (points : List Point) :
    (solveTSPChristofides points).timeMs = 0 := by
  rw [solveTSPChristofides]
  split_ifs <;> rfl

theorem solveTSPNearestNeighbor_dist_nonneg (points : List Point) :
    0 ≤ (solveTSPNearestNeighbor points).distance := by
  by_cases h : points.length ≤ 1
  · rw [solveTSPNearestNeighbor, if_pos h]
  · obtain ⟨ord, _, _, _, _, hdist⟩ :=
      solveTSPNearestNeighbor_spec points (by omega)
    rw [hdist]
    exact costIdx_nonneg _ _

theorem solveTSPExactDP_dist_nonneg (points : List Point) :
    0 ≤ (solveTSPExactDP points).distance := by
  by_cases h : points.length ≤ 1
  · rw [solveTSPExactDP, if_pos h]
  · obtain ⟨ord, _, _, _, _, hdist, _⟩ := solveTSPExactDP_spec points (by omega)
    rw [hdist]
    exact costIdx_nonneg _ _

theorem solveTSP2Opt_dist_nonneg (points : List Point) :
    0 ≤ (solveTSP2Opt points).distance := by
  by_cases h : points.length ≤ 2
  · rw [solveTSP2Opt, if_pos h]
    exact calculateRouteDistance_nonneg _
  · obtain ⟨ord, _, _, hdist⟩ := solveTSP2Opt_idx_spec points (by omega)
    rw [hdist]
    exact costIdx_nonneg _ _

theorem solveTSPChristofides_dist_nonneg (points : List Point) :
    0 ≤ (solveTSPChristofides points).distance := by
  rw [solveTSPChristofides]
  split_ifs
  · exact calculateRouteDistance_nonneg _
  · exact calculateRouteDistance_nonneg _

theorem insertByF_perm (x : AStarNode) (l : List AStarNode) :
    (insertByF x l).Perm (x :: l) := by
  induction l with
  | nil => exact List.Perm.refl _
  | cons y ys ih =>
    rw [insertByF]
    split_ifs with h
    · exact List.Perm.refl _
    · exact (List.Perm.cons y ih).trans (List.Perm.swap x y ys)

theorem sortByF_perm (l : List AStarNode) : (sortByF l).Perm l := by
  induction l with
  | nil => exact List.Perm.refl _
  | cons x xs ih =>
    rw [sortByF]
    exact (insertByF_perm x (sortByF xs)).trans (List.Perm.cons x ih)

theorem aStarNeighbors_g (current : AStarNode) (goal : Point)
    (obstacleKeys : List (ℤ × ℤ)) (gridSize : ℝ) (h : 0 ≤ current.g) :
    ∀ nd ∈ aStarNeighbors current goal obstacleKeys gridSize, 0 ≤ nd.g := by
  intro nd hnd
  obtain ⟨d, hd, hsome⟩ := List.mem_filterMap.mp hnd
  dsimp only [aStarNeighbors] at hsome
  split_ifs at hsome with h1 h2
  all_goals first
    | exact Option.noConfusion hsome
    | (rw [← Option.some_inj.mp hsome]
       exact add_nonneg h (distance_nonneg _ _))

theorem aStarLoop_nonneg (goal : Point) (obstacleKeys : List (ℤ × ℤ))
    (gridSize : ℝ) (startPt : Point) (fuel : ℕ) :
    ∀ (openSet : List AStarNode) (closedSet : List (ℝ × ℝ)) (r : RouteResult),
      (∀ nd ∈ openSet, 0 ≤ nd.g) →
      aStarLoop goal obstacleKeys gridSize startPt fuel openSet closedSet = some r →
      0 ≤ r.distance ∧ 0 ≤ r.timeMs := by
  induction fuel with
  | zero =>
    intro openSet closedSet r hg hr
    cases openSet with
    | nil =>
      rw [aStarLoop] at hr
      rw [← Option.some_inj.mp hr]
      exact ⟨distance_nonneg _ _, le_refl 0⟩
    | cons o1 o2 =>
      rw [aStarLoop] at hr
      exact Option.noConfusion hr
  | succ fuel ih =>
    intro openSet closedSet r hg hr
    cases openSet with
    | nil =>
      rw [aStarLoop] at hr
      rw [← Option.some_inj.mp hr]
      exact ⟨distance_nonneg _ _, le_refl 0⟩
    | cons o1 o2 =>
      rw [aStarLoop] at hr
      cases hs : sortByF (o1 :: o2) with
      | nil => rw [hs] at hr; exact Option.noConfusion hr
      | cons current rest =>
        rw [hs] at hr
        dsimp only at hr
        have hmem : ∀ nd ∈ current :: rest, 0 ≤ nd.g := by
          intro nd hnd
          exact hg nd ((sortByF_perm (o1 :: o2)).mem_iff.mp (hs ▸ hnd))
        split_ifs at hr with h1 h2
        · exact ih rest closedSet r
            (fun nd hnd => hmem nd (List.mem_cons_of_mem _ hnd)) hr
        · rw [← Option.some_inj.mp hr]
          exact ⟨hmem current (List.mem_cons_self _ _), le_refl 0⟩
        · refine ih _ _ r ?_ hr
          intro nd hnd
          rcases List.mem_append.mp hnd with hnd | hnd
          · exact hmem nd (List.mem_cons_of_mem _ hnd)
          · exact aStarNeighbors_g current goal obstacleKeys gridSize
              (hmem current (List.mem_cons_self _ _)) nd hnd

theorem aStarPathfinding_nonneg (fuel : ℕ) (start goal : Point)
    (obstacles : List Point) (gridSize : ℝ) (r : RouteResult)
    (hr : aStarPathfinding fuel start goal obstacles gridSize = some r) :
    0 ≤ r.distance ∧ 0 ≤ r.timeMs := by
  rw [aStarPathfinding] at hr
  refine aStarLoop_nonneg goal _ gridSize start fuel _ [] r ?_ hr
  intro nd hnd
  rw [List.mem_singleton.mp hnd]
  exact le_refl 0

theorem astarSegments_nonneg (fuel : ℕ) :
    ∀ (segs : List (Point × Point)) (fullPath : List Point) (totalDist : ℝ)
      (fp : List Point × ℝ),
      0 ≤ totalDist → astarSegments fuel segs fullPath totalDist = some fp →
      0 ≤ fp.2 := by
  intro segs
  induction segs with
  | nil =>
    intro fullPath totalDist fp h0 hfp
    rw [astarSegments] at hfp
    rw [← Option.some_inj.mp hfp]
    exact h0
  | cons ab rest ih =>
    intro fullPath totalDist fp h0 hfp
    rw [astarSegments] at hfp
    cases hseg : aStarPathfinding fuel ab.1 ab.2 [] 100 with
    | none => rw [hseg] at hfp; exact Option.noConfusion hfp
    | some r2 =>
      rw [hseg] at hfp
      exact ih _ _ fp
        (add_nonneg h0 (aStarPathfinding_nonneg fuel ab.1 ab.2 [] 100 r2 hseg).1) hfp

theorem solveTSP_nonneg_aux (points : List Point) (alg : AlgorithmType) (fuel : ℕ)
    (r : RouteResult) (hr : solveTSP points alg fuel = some r) :
    0 ≤ r.distance ∧ 0 ≤ r.timeMs := by
  cases alg with
  | exactDp =>
    rw [solveTSP] at hr
    split_ifs at hr
    · rw [← Option.some_inj.mp hr]
      exact ⟨solveTSPExactDP_dist_nonneg points,
        le_of_eq (solveTSPExactDP_timeMs points).symm⟩
    · rw [← Option.some_inj.mp hr]
      exact ⟨solveTSPNearestNeighbor_dist_nonneg points,
        le_of_eq (solveTSPNearestNeighbor_timeMs points).symm⟩
  | nearestNeighbor =>
    rw [solveTSP] at hr
    rw [← Option.some_inj.mp hr]
    exact ⟨solveTSPNearestNeighbor_dist_nonneg points,
      le_of_eq (solveTSPNearestNeighbor_timeMs points).symm⟩
  | twoOpt =>
    rw [solveTSP] at hr
    rw [← Option.some_inj.mp hr]
    exact ⟨solveTSP2Opt_dist_nonneg points,
      le_of_eq (solveTSP2Opt_timeMs points).symm⟩
  | christofides =>
    rw [solveTSP] at hr
    rw [← Option.some_inj.mp hr]
    exact ⟨solveTSPChristofides_dist_nonneg points,
      le_of_eq (solveTSPChristofides_timeMs points).symm⟩
  | astar =>
    rw [solveTSP] at hr
    split_ifs at hr
    · rw [← Option.some_inj.mp hr]
      exact ⟨le_refl 0, le_refl 0⟩
    · cases hseg : astarSegments fuel (points.zip points.tail) (points.take 1) 0 with
      | none => rw [hseg] at hr; exact Option.noConfusion hr
      | some fp =>
        rw [hseg] at hr
        dsimp only at hr
        cases hpf : aStarPathfinding fuel (fp.1.getLastD defaultPoint) (pt points 0)
            [] 100 with
        | none => rw [hpf] at hr; exact Option.noConfusion hr
        | some r2 =>
          rw [hpf] at hr
          dsimp only at hr
          rw [← Option.some_inj.mp hr]
          refine ⟨add_nonneg ?_ ?_, le_refl 0⟩
          · exact astarSegments_nonneg fuel _ _ 0 fp (le_refl 0) hseg
          · exact (aStarPathfinding_nonneg fuel _ _ [] 100 r2 hpf).1

/-- C8.  Every `RouteResult` produced by `solveTSP` (any selector), by
`compareAlgorithms`, or by `aStarPathfinding` has non-negative `distance`
and non-negative `timeMs`. -/
theorem results_nonneg (points : List Point) (alg : AlgorithmType) (fuel : ℕ)
    (start goal : Point) (obstacles : List Point) (gridSize : ℝ) :
    (∀ r, solveTSP points alg fuel = some r → 0 ≤ r.distance ∧ 0 ≤ r.timeMs) ∧
    (∀ o ∈ compareAlgorithms points fuel, ∀ r, o = some r →
      0 ≤ r.distance ∧ 0 ≤ r.timeMs) ∧
    (∀ r, aStarPathfinding fuel start goal obstacles gridSize = some r →
      0 ≤ r.distance ∧ 0 ≤ r.timeMs) := by
  refine ⟨fun r hr => solveTSP_nonneg_aux points alg fuel r hr, ?_, ?_⟩
  · intro o ho r hor
    rw [compareAlgorithms] at ho
    obtain ⟨a, ha, hoa⟩ := List.mem_map.mp ho
    refine solveTSP_nonneg_aux points a fuel r ?_
    rw [hoa, hor]
  · intro r hr
    exact aStarPathfinding_nonneg fuel start goal obstacles gridSize r hr

/-- Witness for C8 at the empty input with the nearest-neighbor selector. -/
theorem results_nonneg_witness :
    0 ≤ (solveTSPNearestNeighbor []).distance ∧
    0 ≤ (solveTSPNearestNeighbor []).timeMs :=
  (results_nonneg [] AlgorithmType.nearestNeighbor 0 defaultPoint defaultPoint
    [] 0).1 (solveTSPNearestNeighbor []) rfl

/-! ## Claim C10: distance/path consistency -/

/-- C10 (amended: the consistency holds for every selector except `astar`;
the `astar` arm stitches segment paths with `slice(1)` while each segment
search may stop short of its goal, so the reported total can differ from
the returned path's geometry).  For every non-`astar` selector the
dispatched result's `distance` equals the route length of its `path`. -/
theorem distance_path_consistent (points : List Point) (alg : AlgorithmType)
    (fuel : ℕ) (r : RouteResult) (halg : alg ≠ AlgorithmType.astar)
    (hr : solveTSP points alg fuel = some r) :
    r.distance = calculateRouteDistance r.path := by
  have hnn : (solveTSPNearestNeighbor points).distance =
      calculateRouteDistance (solveTSPNearestNeighbor points).path := by
    by_cases h : points.length ≤ 1
    · rw [solveTSPNearestNeighbor, if_pos h]
      exact (calculateRouteDistance_short h).symm
    · obtain ⟨ord, hperm, hhead, hne, hpath, hdist⟩ :=
        solveTSPNearestNeighbor_spec points (by omega)
      rw [hpath, hdist, costIdx, List.map_append]
      rfl
  cases alg with
  | astar => exact absurd rfl halg
  | exactDp =>
    rw [solveTSP] at hr
    split_ifs at hr with h20
    · rw [← Option.some_inj.mp hr]
      by_cases h : points.length ≤ 1
      · rw [solveTSPExactDP, if_pos h]
        exact (calculateRouteDistance_short h).symm
      · obtain ⟨ord, hperm, hhead, hne, hpath, hdist, _⟩ :=
          solveTSPExactDP_spec points (by omega)
        rw [hpath, hdist, costIdx]
    · rw [← Option.some_inj.mp hr]
      exact hnn
  | nearestNeighbor =>
    rw [solveTSP] at hr
    rw [← Option.some_inj.mp hr]
    exact hnn
  | twoOpt =>
    rw [solveTSP] at hr
    rw [← Option.some_inj.mp hr, solveTSP2Opt]
    split_ifs <;> rfl
  | christofides =>
    rw [solveTSP] at hr
    rw [← Option.some_inj.mp hr, solveTSPChristofides]
    split_ifs <;> rfl

/-- Witness for C10 at the empty input with the 2-opt selector. -/
theorem distance_path_consistent_witness :
    (solveTSP2Opt []).distance = calculateRouteDistance (solveTSP2Opt []).path :=
  distance_path_consistent [] AlgorithmType.twoOpt 0 (solveTSP2Opt [])
    (by decide) rfl

/-! ## Concrete A* evaluation for the C10 counterexample -/

noncomputable def cexA : Point := { id := "a", x := 0, y := 0, name := "a" }
noncomputable def cexB : Point := { id := "b", x := 1/2, y := 0, name := "b" }
noncomputable def cexC : Point := { id := "c", x := 5/2, y := 0, name := "c" }

theorem dAB : distance cexA cexB = 1/2 := by
  rw [distance, cexA, cexB]
  rw [show ((0:ℝ) - 1/2)^2 + ((0:ℝ) - 0)^2 = (1/2)^2 by norm_num]
  rw [Real.sqrt_sq (by norm_num)]

-- segment 1: immediate goal hit
theorem seg1 : aStarPathfinding 2 cexA cexB [] 100 =
    some { path := [cexA], distance := 0, timeMs := 0, algorithm := "A* Pathfinding" } := by
  rw [aStarPathfinding]
  rw [aStarLoop]
  rw [show sortByF [AStarNode.mk cexA 0 (distance cexA cexB) (distance cexA cexB) none] =
    [AStarNode.mk cexA 0 (distance cexA cexB) (distance cexA cexB) none] from rfl]
  dsimp only [AStarNode.point, AStarNode.g]
  rw [if_neg (List.not_mem_nil _)]
  rw [if_pos (by rw [dAB]; norm_num)]
  rfl

theorem sqrt_eq_of_sq {a b : ℝ} (hb : 0 ≤ b) (h : b ^ 2 = a) : Real.sqrt a = b := by
  rw [← h, Real.sqrt_sq hb]

theorem le_sqrt_of_sq {a b : ℝ} (hb : 0 ≤ b) (h : b ^ 2 ≤ a) : b ≤ Real.sqrt a := by
  calc b = Real.sqrt (b ^ 2) := (Real.sqrt_sq hb).symm
    _ ≤ Real.sqrt a := Real.sqrt_le_sqrt h

theorem sqrt_le_of_sq {a b : ℝ} (hb : 0 ≤ b) (h : a ≤ b ^ 2) : Real.sqrt a ≤ b := by
  calc Real.sqrt a ≤ Real.sqrt (b ^ 2) := Real.sqrt_le_sqrt h
    _ = b := Real.sqrt_sq hb

noncomputable def cexNB : AStarNode :=
  .mk cexB 0 (distance cexB cexC) (distance cexB cexC) none
noncomputable def cexP1 : Point := { id := "", x := 1/2, y := 2, name := "" }
noncomputable def cexP2 : Point := { id := "", x := 5/2, y := 0, name := "" }
noncomputable def cexP3 : Point := { id := "", x := 5/2, y := 2, name := "" }
noncomputable def cexN1 : AStarNode :=
  .mk cexP1 2 (Real.sqrt 8) (2 + Real.sqrt 8) (some cexNB)
noncomputable def cexN2 : AStarNode := .mk cexP2 2 0 2 (some cexNB)
noncomputable def cexN3 : AStarNode :=
  .mk cexP3 (Real.sqrt 8) 2 (Real.sqrt 8 + 2) (some cexNB)

theorem dBC : distance cexB cexC = 2 := by
  rw [distance, cexB, cexC]
  exact sqrt_eq_of_sq (by norm_num) (by norm_num)

theorem dBP1 : distance cexB { id := "", x := 1/2, y := 2, name := "" } = 2 := by
  rw [distance, cexB]
  exact sqrt_eq_of_sq (by norm_num) (by norm_num)

theorem dP1C : distance { id := "", x := 1/2, y := 2, name := "" } cexC = Real.sqrt 8 := by
  rw [distance, cexC]
  norm_num

theorem dBP2 : distance cexB { id := "", x := 5/2, y := 0, name := "" } = 2 := by
  rw [distance, cexB]
  exact sqrt_eq_of_sq (by norm_num) (by norm_num)

theorem dP2C : distance { id := "", x := 5/2, y := 0, name := "" } cexC = 0 := by
  rw [distance, cexC]
  norm_num

theorem dBP3 : distance cexB { id := "", x := 5/2, y := 2, name := "" } = Real.sqrt 8 := by
  rw [distance, cexB]
  norm_num

theorem dP3C : distance { id := "", x := 5/2, y := 2, name := "" } cexC = 2 := by
  rw [distance, cexC]
  exact sqrt_eq_of_sq (by norm_num) (by norm_num)

theorem cexBx : cexB.x = 1/2 := rfl
theorem cexBy : cexB.y = 0 := rfl

theorem hnbB : aStarNeighbors cexNB cexC [] 100 = [cexN1, cexN2, cexN3] := by
  rw [aStarNeighbors, directions]
  norm_num [List.filterMap_cons, AStarNode.point, AStarNode.g, cexNB, cexBx, cexBy,
    cexN1, cexN2, cexN3, cexP1, cexP2, cexP3, AStarNode.mk.injEq, Point.mk.injEq,
    dBP1, dP1C, dBP2, dP2C, dBP3, dP3C]

theorem sqrt8_nonneg : (0:ℝ) ≤ Real.sqrt 8 := Real.sqrt_nonneg _

theorem sqrt8_pos : (0:ℝ) < Real.sqrt 8 := Real.sqrt_pos.mpr (by norm_num)

theorem hsortB : sortByF [cexN1, cexN2, cexN3] = [cexN2, cexN1, cexN3] := by
  rw [sortByF, sortByF, sortByF, sortByF]
  rw [show insertByF cexN3 [] = [cexN3] from rfl]
  rw [insertByF, if_pos (by
    dsimp only [cexN2, cexN3, AStarNode.f]
    have := sqrt8_nonneg
    linarith)]
  rw [insertByF, if_neg (by
    dsimp only [cexN1, cexN2, AStarNode.f]
    have := sqrt8_pos
    intro hc
    linarith)]
  rw [insertByF, if_pos (by
    dsimp only [cexN1, cexN3, AStarNode.f]
    linarith)]

theorem seg2 : aStarPathfinding 2 cexB cexC [] 100 =
    some { path := [cexB, cexP2], distance := 2, timeMs := 0,
           algorithm := "A* Pathfinding" } := by
  rw [aStarPathfinding]
  rw [aStarLoop]
  rw [show sortByF [AStarNode.mk cexB 0 (distance cexB cexC) (distance cexB cexC) none] =
    [AStarNode.mk cexB 0 (distance cexB cexC) (distance cexB cexC) none] from rfl]
  dsimp only [AStarNode.point, AStarNode.g]
  rw [if_neg (List.not_mem_nil _)]
  rw [if_neg (by rw [dBC]; norm_num)]
  rw [show (List.map (fun o => (round o.x, round o.y)) ([] : List Point)) = [] from rfl]
  rw [show ([] : List AStarNode) ++ aStarNeighbors (AStarNode.mk cexB 0
      (distance cexB cexC) (distance cexB cexC) none) cexC [] 100 =
    aStarNeighbors cexNB cexC [] 100 by rw [cexNB]; exact List.nil_append _]
  rw [hnbB]
  rw [aStarLoop, hsortB]
  dsimp only
  rw [show cexN2.point = cexP2 from rfl]
  rw [if_neg (by
    rw [List.mem_singleton, Prod.mk.injEq, show cexP2.x = 5/2 from rfl,
      show cexP2.y = 0 from rfl, cexBx, cexBy]
    norm_num)]
  rw [if_pos (by
    rw [show distance cexP2 cexC = 0 by rw [cexP2]; exact dP2C]
    norm_num)]
  rw [show reconstructPath cexN2 = [cexB, cexP2] from rfl,
    show cexN2.g = (2:ℝ) from rfl]

noncomputable def cexNR : AStarNode :=
  .mk cexP2 0 (distance cexP2 cexA) (distance cexP2 cexA) none
noncomputable def cexQ : Point := { id := "", x := 1/2, y := 0, name := "" }
noncomputable def cexR4 : Point := { id := "", x := 9/2, y := 0, name := "" }
noncomputable def cexR5 : Point := { id := "", x := 9/2, y := 2, name := "" }
noncomputable def cexM1 : AStarNode := .mk cexQ 2 (1/2) (5/2) (some cexNR)
noncomputable def cexM2 : AStarNode :=
  .mk cexP1 (Real.sqrt 8) (Real.sqrt (17/4)) (Real.sqrt 8 + Real.sqrt (17/4)) (some cexNR)
noncomputable def cexM3 : AStarNode :=
  .mk cexP3 2 (Real.sqrt (41/4)) (2 + Real.sqrt (41/4)) (some cexNR)
noncomputable def cexM4 : AStarNode := .mk cexR4 2 (9/2) (13/2) (some cexNR)
noncomputable def cexM5 : AStarNode :=
  .mk cexR5 (Real.sqrt 8) (Real.sqrt (97/4)) (Real.sqrt 8 + Real.sqrt (97/4)) (some cexNR)

theorem dP2A : distance cexP2 cexA = 5/2 := by
  rw [distance, cexP2, cexA]
  exact sqrt_eq_of_sq (by norm_num) (by norm_num)

theorem dP2Q : distance cexP2 { id := "", x := 1/2, y := 0, name := "" } = 2 := by
  rw [distance, cexP2]
  exact sqrt_eq_of_sq (by norm_num) (by norm_num)

theorem dQA : distance { id := "", x := 1/2, y := 0, name := "" } cexA = 1/2 := by
  rw [distance, cexA]
  exact sqrt_eq_of_sq (by norm_num) (by norm_num)

theorem dP2P1 : distance cexP2 { id := "", x := 1/2, y := 2, name := "" } = Real.sqrt 8 := by
  rw [distance, cexP2]
  norm_num

theorem dP1A : distance { id := "", x := 1/2, y := 2, name := "" } cexA = Real.sqrt (17/4) := by
  rw [distance, cexA]
  norm_num

theorem dP2P3 : distance cexP2 { id := "", x := 5/2, y := 2, name := "" } = 2 := by
  rw [distance, cexP2]
  exact sqrt_eq_of_sq (by norm_num) (by norm_num)

theorem dP3A : distance { id := "", x := 5/2, y := 2, name := "" } cexA = Real.sqrt (41/4) := by
  rw [distance, cexA]
  norm_num

theorem dP2R4 : distance cexP2 { id := "", x := 9/2, y := 0, name := "" } = 2 := by
  rw [distance, cexP2]
  exact sqrt_eq_of_sq (by norm_num) (by norm_num)

theorem dR4A : distance { id := "", x := 9/2, y := 0, name := "" } cexA = 9/2 := by
  rw [distance, cexA]
  exact sqrt_eq_of_sq (by norm_num) (by norm_num)

theorem dP2R5 : distance cexP2 { id := "", x := 9/2, y := 2, name := "" } = Real.sqrt 8 := by
  rw [distance, cexP2]
  norm_num

theorem dR5A : distance { id := "", x := 9/2, y := 2, name := "" } cexA = Real.sqrt (97/4) := by
  rw [distance, cexA]
  norm_num

theorem hnbR : aStarNeighbors cexNR cexA [] 100 = [cexM1, cexM2, cexM3, cexM4, cexM5] := by
  rw [aStarNeighbors, directions]
  norm_num [List.filterMap_cons, AStarNode.point, AStarNode.g, cexNR,
    show cexP2.x = 5/2 from rfl, show cexP2.y = 0 from rfl,
    cexM1, cexM2, cexM3, cexM4, cexM5, cexQ, cexP1, cexP3, cexR4, cexR5,
    AStarNode.mk.injEq, Point.mk.injEq, dP2Q, dQA, dP2P1, dP1A, dP2P3, dP3A,
    dP2R4, dR4A, dP2R5, dR5A]

theorem hsortR : sortByF [cexM1, cexM2, cexM3, cexM4, cexM5] =
    [cexM1, cexM2, cexM3, cexM4, cexM5] := by
  rw [sortByF, sortByF, sortByF, sortByF, sortByF, sortByF]
  rw [show insertByF cexM5 [] = [cexM5] from rfl]
  rw [insertByF, if_pos (by
    dsimp only [cexM4, cexM5, AStarNode.f]
    have h1 : (14/5 : ℝ) ≤ Real.sqrt 8 := le_sqrt_of_sq (by norm_num) (by norm_num)
    have h2 : (37/10 : ℝ) ≤ Real.sqrt (97/4) := le_sqrt_of_sq (by norm_num) (by norm_num)
    linarith)]
  rw [insertByF, if_pos (by
    dsimp only [cexM3, cexM4, AStarNode.f]
    have h1 : Real.sqrt (41/4) ≤ 9/2 := sqrt_le_of_sq (by norm_num) (by norm_num)
    linarith)]
  rw [insertByF, if_pos (by
    dsimp only [cexM2, cexM3, AStarNode.f]
    have h1 : Real.sqrt 8 ≤ 57/20 := sqrt_le_of_sq (by norm_num) (by norm_num)
    have h2 : Real.sqrt (17/4) ≤ 207/100 := sqrt_le_of_sq (by norm_num) (by norm_num)
    have h3 : (16/5 : ℝ) ≤ Real.sqrt (41/4) := le_sqrt_of_sq (by norm_num) (by norm_num)
    linarith)]
  rw [insertByF, if_pos (by
    dsimp only [cexM1, cexM2, AStarNode.f]
    have h1 : (5/2 : ℝ) ≤ Real.sqrt 8 := le_sqrt_of_sq (by norm_num) (by norm_num)
    have h2 : (0 : ℝ) ≤ Real.sqrt (17/4) := Real.sqrt_nonneg _
    linarith)]

theorem retLeg : aStarPathfinding 2 cexP2 cexA [] 100 =
    some { path := [cexP2, cexQ], distance := 2, timeMs := 0,
           algorithm := "A* Pathfinding" } := by
  rw [aStarPathfinding]
  rw [aStarLoop]
  rw [show sortByF [AStarNode.mk cexP2 0 (distance cexP2 cexA) (distance cexP2 cexA) none] =
    [AStarNode.mk cexP2 0 (distance cexP2 cexA) (distance cexP2 cexA) none] from rfl]
  dsimp only [AStarNode.point, AStarNode.g]
  rw [if_neg (List.not_mem_nil _)]
  rw [if_neg (by rw [dP2A]; norm_num)]
  rw [show (List.map (fun o => (round o.x, round o.y)) ([] : List Point)) = [] from rfl]
  rw [show ([] : List AStarNode) ++ aStarNeighbors (AStarNode.mk cexP2 0
      (distance cexP2 cexA) (distance cexP2 cexA) none) cexA [] 100 =
    aStarNeighbors cexNR cexA [] 100 by rw [cexNR]; exact List.nil_append _]
  rw [hnbR]
  rw [aStarLoop, hsortR]
  dsimp only
  rw [show cexM1.point = cexQ from rfl]
  rw [if_neg (by
    rw [List.mem_singleton, Prod.mk.injEq, show cexQ.x = 1/2 from rfl,
      show cexQ.y = 0 from rfl, show cexP2.x = 5/2 from rfl, show cexP2.y = 0 from rfl]
    norm_num)]
  rw [if_pos (by
    rw [show distance cexQ cexA = 1/2 by rw [cexQ]; exact dQA]
    norm_num)]
  rw [show reconstructPath cexM1 = [cexP2, cexQ] from rfl,
    show cexM1.g = (2:ℝ) from rfl]

theorem cexSegments : astarSegments 2 [(cexA, cexB), (cexB, cexC)] [cexA] 0 =
    some ([cexA, cexP2], 2) := by
  rw [astarSegments, seg1]
  dsimp only
  rw [astarSegments, seg2]
  dsimp only
  rw [astarSegments]
  norm_num

/-- C10 counterexample: on the input `[(0,0), (1/2,0), (5/2,0)]` with the
`astar` selector, the returned distance is 4 while the returned path's
route length is 9/2: the first segment search ends at its start (the goal
is within grid distance 1), and the `slice(1)` stitching then skips the
second segment's true start, leaving an uncounted jump in the path. -/
theorem astar_distance_path_mismatch :
    ∃ (points : List Point) (fuel : ℕ) (r : RouteResult),
      solveTSP points AlgorithmType.astar fuel = some r ∧
      r.distance ≠ calculateRouteDistance r.path := by
  refine ⟨[cexA, cexB, cexC], 2,
    { path := [cexA, cexP2, cexQ], distance := 4, timeMs := 0,
      algorithm := "A* Pathfinding (Multi-point)" }, ?_, ?_⟩
  · rw [solveTSP]
    rw [if_neg (by norm_num)]
    rw [show ([cexA, cexB, cexC].zip [cexA, cexB, cexC].tail) =
      [(cexA, cexB), (cexB, cexC)] from rfl]
    rw [show ([cexA, cexB, cexC].take 1) = [cexA] from rfl]
    rw [cexSegments]
    dsimp only
    rw [show ([cexA, cexP2].getLastD defaultPoint) = cexP2 from rfl]
    rw [show pt [cexA, cexB, cexC] 0 = cexA from rfl]
    rw [retLeg]
    dsimp only
    norm_num
  · intro hc
    rw [calculateRouteDistance_cons_cons, calculateRouteDistance_cons_cons,
      calculateRouteDistance_short (by simp),
      show distance cexA cexP2 = 5/2 by rw [distance_symm]; exact dP2A,
      show distance cexP2 cexQ = 2 by rw [cexQ]; exact dP2Q] at hc
    norm_num at hc
